import Mathlib

/-!
Map archives (`MARC` / `MAPF`): the utility `maputil` and the game's `map_save` / `map_load`

A file is the list of its bytes (`List Nat`, every byte below 256).  A `char` variable is kept as
its byte; `unsigned int` values are naturals reduced modulo `2^32` where the C code truncates.
Each C function is followed statement by statement; file cursors are explicit positions.
The event list of `eventlist.c` lives in a memory of nodes addressed by pointers, `none` for
`NULL`; the library calls `strftime`, `strcpy`, `strcat` and `malloc` follow the C standard.
-/

set_option autoImplicit false

namespace MapArchive

/-! ## Part 1 : definitions -/

/-- MARC header signature (`maputil.h`, `map.h`). -/
def MARC_HEADER : Nat := 0x4352414d

/-- MAPF header signature (`maputil.h`, `map.h`). -/
def MAPF_HEADER : Nat := 0x4650414d

/-- Tile properties header signature (`maputil.h`, `map.h`). -/
def OBJECT_PROPERTIES_HEADER : Nat := 0x00000010

/-- None object map data of the utility: `#define MAP_OBJECT_NONE 0xff` in `maputil.h`. -/
def MAP_OBJECT_NONE : Nat := 0xff

/-- The cast `(char)v` of an integer value, as the byte that is stored. -/
def toChar (v : Nat) : Nat := v % 256

/-- The value `(int)c` of a `char` variable holding the byte `c` (`char` is signed). -/
def charToInt (c : Nat) : Int := if c < 128 then (c : Int) else (c : Int) - 256

/-- Why a run leaves the normal path of the C code. -/
inductive Stop where
  /-- Exit of `validate_marc_header` after printing the header it read. -/
  | marc (header : Nat)
  /-- Exit of `validate_mapf_header` after printing the header it read. -/
  | mapf (header : Nat)
  /-- Exit of `validate_object_properties_header` after printing the header it read. -/
  | object (header : Nat)
  /-- The C code goes on with a buffer that `read` did not fill, overruns a buffer or indexes
  outside an array: the source does not fix what happens. -/
  | undefined
deriving DecidableEq, Repr

/-- The end of a call of one of the four mutations. -/
structure Outcome where
  /-- Content of the file at the archive path when the call ends. -/
  archive : List Nat
  /-- Whether the backup made by `backup_archive` is still on disk. -/
  backup : Bool
  /-- The reason of an abnormal end, `none` when the function returns. -/
  stop : Option Stop
deriving DecidableEq, Repr

/-- Bytes delivered by `read(fd, buf, n)` with the cursor at `pos`: fewer than `n` at the end. -/
def readAt (f : List Nat) (pos n : Nat) : List Nat := (f.drop pos).take n

/-- Content after `write(fd, bs, |bs|)` with the cursor at `pos`; a hole left by a seek past the
end reads as zero bytes. -/
def writeAt (f : List Nat) (pos : Nat) (bs : List Nat) : List Nat :=
  f.take pos ++ List.replicate (pos - f.length) 0 ++ bs ++ f.drop (pos + bs.length)

/-- Content after `ftruncate(fd, n)`. -/
def ftruncate (f : List Nat) (n : Nat) : List Nat :=
  f.take n ++ List.replicate (n - f.length) 0

/-- The four bytes of an `unsigned int` in memory (little endian); the value is cut to 32 bits. -/
def le32 (v : Nat) : List Nat :=
  [v % 256, v / 256 % 256, v / 65536 % 256, v / 16777216 % 256]

/-- The `unsigned int` whose four bytes start at `pos`. -/
def u32At (f : List Nat) (pos : Nat) : Nat :=
  f.getD pos 0 + 256 * f.getD (pos + 1) 0 + 65536 * f.getD (pos + 2) 0
    + 16777216 * f.getD (pos + 3) 0

/-- A `read` that has to fill its buffer of `n` bytes: the buffers of the utility are
uninitialised locals, so a short read leaves them undetermined. -/
def readExact (f : List Nat) (pos n : Nat) : Except Stop (List Nat) :=
  if pos + n ≤ f.length then .ok (readAt f pos n) else .error .undefined

/-- The call `read(fd, &v, sizeof(unsigned int))` into an uninitialised `unsigned int`. -/
def read32 (f : List Nat) (pos : Nat) : Except Stop Nat :=
  if pos + 4 ≤ f.length then .ok (u32At f pos) else .error .undefined

/-- The loop `for (unsigned int i = 0; i < n; ++i) body` for a body that does not use `i`. -/
def forN {σ ε : Type} (n : Nat) (body : σ → Except ε σ) (s : σ) : Except ε σ :=
  match n with
  | 0 => .ok s
  | k + 1 =>
    match body s with
    | .error e => .error e
    | .ok t => forN k body t

/-- The loop `for (unsigned int i = lo; i < lo + n; ++i) body(i)`. -/
def forI {σ ε : Type} (n : Nat) (body : Nat → σ → Except ε σ) (lo : Nat) (s : σ) : Except ε σ :=
  match n with
  | 0 => .ok s
  | k + 1 =>
    match body lo s with
    | .error e => .error e
    | .ok t => forI k body (lo + 1) t

/-- The function `validate_marc_header`: reads one word at the cursor, exits on a mismatch;
returns the advanced cursor. -/
def validate_marc_header (f : List Nat) (pos : Nat) : Except Stop Nat :=
  match read32 f pos with
  | .error e => .error e
  | .ok header => if header ≠ MARC_HEADER then .error (.marc header) else .ok (pos + 4)

/-- The function `validate_mapf_header`. -/
def validate_mapf_header (f : List Nat) (pos : Nat) : Except Stop Nat :=
  match read32 f pos with
  | .error e => .error e
  | .ok header => if header ≠ MAPF_HEADER then .error (.mapf header) else .ok (pos + 4)

/-- The function `validate_object_properties_header`. -/
def validate_object_properties_header (f : List Nat) (pos : Nat) : Except Stop Nat :=
  match read32 f pos with
  | .error e => .error e
  | .ok header =>
    if header ≠ OBJECT_PROPERTIES_HEADER then .error (.object header) else .ok (pos + 4)

/-- The function `seek_mapf_header`: `lseek(fd, 0xc, SEEK_SET)`, read `map_offset`,
`lseek(fd, map_offset, SEEK_SET)`; returns the new cursor. -/
def seek_mapf_header (f : List Nat) : Except Stop Nat := read32 f 0xc

/-- Descriptors and the `char map_data` local while the map is copied. -/
structure Copy where
  /-- Cursor of `fd_backup`. -/
  bpos : Nat
  /-- Content of the file opened as `fd_new`. -/
  new : List Nat
  /-- Cursor of `fd_new`. -/
  npos : Nat
  /-- The local `char map_data`; `none` until a `read` has stored a byte in it. -/
  map_data : Option Nat
deriving DecidableEq, Repr

/-- The call `read(fd_backup, &map_data, sizeof(char))`: at the end of the file `read` returns 0
and `map_data` keeps what it held. -/
def read_map_data (bak : List Nat) (s : Copy) : Copy :=
  match bak[s.bpos]? with
  | some b => { s with bpos := s.bpos + 1, map_data := some b }
  | none => s

/-- The call `write(fd_new, &map_data, sizeof(char))`. -/
def write_map_data (s : Copy) : Except (Stop × List Nat) Copy :=
  match s.map_data with
  | some b => .ok { s with new := writeAt s.new s.npos [b], npos := s.npos + 1 }
  | none => .error (.undefined, s.new)

/-- One cell copied: `read(fd_backup, &map_data, 1); write(fd_new, &map_data, 1);`. -/
def copy_cell (bak : List Nat) (s : Copy) : Except (Stop × List Nat) Copy :=
  write_map_data (read_map_data bak s)

/-- The call `write(fd_new, &map_data_none, sizeof(char))` with
`char map_data_none = (char)MAP_OBJECT_NONE`. -/
def write_none (s : Copy) : Except (Stop × List Nat) Copy :=
  .ok { s with new := writeAt s.new s.npos [toChar MAP_OBJECT_NONE], npos := s.npos + 1 }

/-- What the part of a mutation before `open(filename, O_RDWR)` hands over. -/
structure Snapshot where
  /-- Cursor of `fd_backup`. -/
  bpos : Nat
  /-- The local `backup_map_width` (or `map_width`). -/
  width : Nat
  /-- The local `backup_map_height` (or `map_height`). -/
  height : Nat
deriving DecidableEq, Repr

/-- Lines 413-459 of `set_map_width`, on the backup: `none` is the early return of line 441. -/
def set_map_width_open (bak : List Nat) (map_width : Nat) : Except Stop (Option Snapshot) :=
  match validate_marc_header bak 0 with
  | .error e => .error e
  | .ok _ =>
  match seek_mapf_header bak with
  | .error e => .error e
  | .ok m =>
  match validate_mapf_header bak m with
  | .error e => .error e
  | .ok p =>
  match read32 bak p with
  | .error e => .error e
  | .ok backup_map_width =>
  if map_width = backup_map_width then .ok none
  else
  match read32 bak (p + 4) with
  | .error e => .error e
  | .ok backup_map_height => .ok (some ⟨p + 4 + 4 + 4, backup_map_width, backup_map_height⟩)

/-- Lines 487-544 of `set_map_width`: the rows are copied, padded or cut. -/
def set_map_width_rows (bak : List Nat) (map_width : Nat) (b : Snapshot) (s : Copy) :
    Except (Stop × List Nat) Copy :=
  if map_width > b.width then
    let padding := map_width - b.width
    forN b.height (fun s =>
      match forN b.width (copy_cell bak) s with
      | .error e => .error e
      | .ok s => forN padding write_none s) s
  else
    match forN b.height (fun s =>
      match forN map_width (copy_cell bak) s with
      | .error e => .error e
      | .ok s => .ok { s with bpos := s.bpos + (b.width - map_width) }) s with
    | .error e => .error e
    | .ok s => .ok { s with new := ftruncate s.new s.npos }

/-- The function `set_map_width` on an archive with content `f`; `map_width` is an
`unsigned int`.  The backup is a copy of `f` and is only read. -/
def set_map_width (f : List Nat) (map_width : Nat) : Outcome :=
  match set_map_width_open f map_width with
  | .error e => ⟨f, true, some e⟩
  | .ok none => ⟨f, false, none⟩
  | .ok (some b) =>
    match seek_mapf_header f with
    | .error e => ⟨f, true, some e⟩
    | .ok m =>
      let new := writeAt f (m + 4) (le32 map_width)
      let map_size := map_width * b.height % 4294967296
      let new := writeAt new (m + 4 + 4 + 4) (le32 map_size)
      match set_map_width_rows f map_width b ⟨b.bpos, new, m + 4 + 4 + 4 + 4, none⟩ with
      | .error (e, g) => ⟨g, true, some e⟩
      | .ok s => ⟨s.new, true, none⟩

/-- Lines 570-616 of `set_map_height`, on the backup: `none` is the early return of line 608. -/
def set_map_height_open (bak : List Nat) (map_height : Nat) : Except Stop (Option Snapshot) :=
  match validate_marc_header bak 0 with
  | .error e => .error e
  | .ok _ =>
  match seek_mapf_header bak with
  | .error e => .error e
  | .ok m =>
  match validate_mapf_header bak m with
  | .error e => .error e
  | .ok p =>
  match read32 bak p with
  | .error e => .error e
  | .ok backup_map_width =>
  match read32 bak (p + 4) with
  | .error e => .error e
  | .ok backup_map_height =>
  if map_height = backup_map_height then .ok none
  else .ok (some ⟨p + 4 + 4 + 4, backup_map_width, backup_map_height⟩)

/-- Lines 641-701 of `set_map_height`: empty rows first, or the leading rows skipped. -/
def set_map_height_rows (bak : List Nat) (map_height : Nat) (b : Snapshot) (s : Copy) :
    Except (Stop × List Nat) Copy :=
  if map_height > b.height then
    let padding := map_height - b.height
    match forN padding (fun s => forN b.width write_none s) s with
    | .error e => .error e
    | .ok s => forN b.height (fun s => forN b.width (copy_cell bak) s) s
  else
    let s := { s with bpos := s.bpos + (b.height - map_height) * b.width % 4294967296 }
    match forN map_height (fun s => forN b.width (copy_cell bak) s) s with
    | .error e => .error e
    | .ok s => .ok { s with new := ftruncate s.new s.npos }

/-- The function `set_map_height` on an archive with content `f`; `map_height` is an
`unsigned int`. -/
def set_map_height (f : List Nat) (map_height : Nat) : Outcome :=
  match set_map_height_open f map_height with
  | .error e => ⟨f, true, some e⟩
  | .ok none => ⟨f, false, none⟩
  | .ok (some b) =>
    match seek_mapf_header f with
    | .error e => ⟨f, true, some e⟩
    | .ok m =>
      let new := writeAt f (m + 8) (le32 map_height)
      let map_size := b.width * map_height % 4294967296
      let new := writeAt new (m + 8 + 4) (le32 map_size)
      match set_map_height_rows f map_height b ⟨b.bpos, new, m + 8 + 4 + 4, none⟩ with
      | .error (e, g) => ⟨g, true, some e⟩
      | .ok s => ⟨s.new, true, none⟩

/-- The byte of cell `(x, y)`: the cells follow the 16 bytes of the map block header found at the
offset stored at `0xc`, row after row, `x` running fastest (the order in which `map_save` writes
and `map_load` reads them); `none` when the file ends before that byte. -/
def cellAt (f : List Nat) (x y : Nat) : Option Nat :=
  f[u32At f 0xc + 16 + y * u32At f (u32At f 0xc + 4) + x]?

/-- A file with a valid container signature whose map block starts at `m`, carries a valid
signature, width `W`, height `H`, and is followed by at least `W * H` bytes of cells. -/
def HasMap (f : List Nat) (m W H : Nat) : Prop :=
  u32At f 0 = MARC_HEADER ∧ u32At f 0xc = m ∧ 16 ≤ m ∧ u32At f m = MAPF_HEADER ∧
  u32At f (m + 4) = W ∧ u32At f (m + 8) = H ∧ m + 16 + W * H ≤ f.length

/-- A well-formed archive with `N` catalog entries and a grid of `W` by `H` cells whose blocks
follow one another: bytes below 256, valid signatures, the property table at `16 + 64 * N` and
the map block at `16 + 96 * N`, as the offset fields say, the cell count `W * H`, all the cells
present, and every cell either the empty byte or, read as a signed `char`, an index below `N`
(hence below 128).  Archives whose offsets are exact but whose blocks are apart, and archives
with a cell byte from 128 to 254, are not covered: see `gapArchive`, `mapGapArchive` and
`count_cell_signed_index`. -/
def WellFormed (f : List Nat) (N W H : Nat) : Prop :=
  (∀ b ∈ f, b < 256) ∧
  u32At f 4 = N ∧ u32At f 8 = 16 + 64 * N ∧
  (∀ i < N, u32At f (16 + 64 * N + 32 * i) = OBJECT_PROPERTIES_HEADER) ∧
  HasMap f (16 + 96 * N) W H ∧
  u32At f (16 + 96 * N + 12) = W * H ∧
  (∀ k < W * H, f.getD (16 + 96 * N + 16 + k) 0 = MAP_OBJECT_NONE ∨
    (0 ≤ charToInt (f.getD (16 + 96 * N + 16 + k) 0) ∧
      charToInt (f.getD (16 + 96 * N + 16 + k) 0) < (N : Int)))

instance (f : List Nat) (m W H : Nat) : Decidable (HasMap f m W H) := by
  unfold HasMap; infer_instance

instance (f : List Nat) (N W H : Nat) : Decidable (WellFormed f N W H) := by
  unfold WellFormed; infer_instance

/-- An archive with one catalog entry and a grid of 2 by 2 cells. -/
def sampleArchive : List Nat :=
  le32 MARC_HEADER ++ le32 1 ++ le32 80 ++ le32 112 ++ List.replicate 64 0
    ++ (le32 16 ++ List.replicate 28 0)
    ++ le32 MAPF_HEADER ++ le32 2 ++ le32 2 ++ le32 4 ++ [0, 255, 0, 0]

/-- The bytes written by `H` row steps: each takes `tk` bytes of the backup and `pad` empty
cells, and moves the backup cursor by `stride`. -/
def rows (bak : List Nat) (bpos stride tk pad : Nat) : Nat → List Nat
  | 0 => []
  | h + 1 => readAt bak bpos tk ++ List.replicate pad 255 ++ rows bak (bpos + stride) stride tk pad h

/-- The loop `for (unsigned int i = 0; i < count; ++i) body(array[i])` over a C array given by
the list of its `count` elements. -/
def forEach {α σ ε : Type} (xs : List α) (body : α → σ → Except ε σ) (s : σ) : Except ε σ :=
  match xs with
  | [] => .ok s
  | x :: rest =>
    match body x s with
    | .error e => .error e
    | .ok t => forEach rest body t

/-- The structure `map_object_properties` of `maputil.h`.  `path` lists the characters of the C
string before its terminating NUL; the other fields are `unsigned int`. -/
structure MapObjectProperties where
  /-- Path of a tile. -/
  path : List Nat
  /-- Number of frames of a tile. -/
  frames : Nat
  /-- Solidity property of a tile. -/
  solidity : Nat
  /-- Destructible property of a tile. -/
  destructible : Nat
  /-- Collectible property of a tile. -/
  collectible : Nat
  /-- Generator property of a tile. -/
  generator : Nat
deriving DecidableEq, Repr

/-- The call `strcpy(buf, src)`: the characters of `src` and a NUL replace the head of `buf`;
a string that does not fit overruns the buffer. -/
def strcpy (buf src : List Nat) : Except Stop (List Nat) :=
  if src.length + 1 ≤ buf.length then .ok (src ++ [0] ++ buf.drop (src.length + 1))
  else .error .undefined

/-- The descriptor `fd_new` alone: content of the file and cursor. -/
structure Writer where
  /-- Content of the file opened as `fd_new`. -/
  new : List Nat
  /-- Cursor of `fd_new`. -/
  npos : Nat
deriving DecidableEq, Repr

/-- Lines 728-780 of `set_map_objects`, on the backup: `none` is the early return of line 748
(`tiles_count > properties_count`). -/
def set_map_objects_open (bak : List Nat) (properties_count : Nat) :
    Except Stop (Option Snapshot) :=
  match validate_marc_header bak 0 with
  | .error e => .error e
  | .ok p0 =>
  match read32 bak p0 with
  | .error e => .error e
  | .ok tiles_count =>
  if tiles_count > properties_count then .ok none
  else
  match seek_mapf_header bak with
  | .error e => .error e
  | .ok m =>
  match validate_mapf_header bak m with
  | .error e => .error e
  | .ok p =>
  match read32 bak p with
  | .error e => .error e
  | .ok map_width =>
  match read32 bak (p + 4) with
  | .error e => .error e
  | .ok map_height => .ok (some ⟨p + 4 + 4 - 0xc, map_width, map_height⟩)

/-- Lines 807-809 of `set_map_objects`: `tile_paths` is all zero before the `strcpy`
(initialiser, then `memset` after each write). -/
def write_tile_path (p : MapObjectProperties) (s : Writer) : Except (Stop × List Nat) Writer :=
  match strcpy (List.replicate 0x40 0) p.path with
  | .error e => .error (e, s.new)
  | .ok tile_paths => .ok ⟨writeAt s.new s.npos tile_paths, s.npos + 0x40⟩

/-- The array `tile_properties[0x8]` of lines 833-841 as the 32 bytes that are written. -/
def tile_properties (p : MapObjectProperties) : List Nat :=
  le32 OBJECT_PROPERTIES_HEADER ++ le32 p.frames ++ le32 p.solidity ++ le32 p.destructible
    ++ le32 p.collectible ++ le32 p.generator ++ le32 0 ++ le32 0

/-- Lines 837-847 of `set_map_objects`. -/
def write_tile_properties (p : MapObjectProperties) (s : Writer) :
    Except (Stop × List Nat) Writer :=
  .ok ⟨writeAt s.new s.npos (tile_properties p), s.npos + 0x20⟩

/-- Lines 865-887 of `set_map_objects` and 1110-1117 of `prune_objects`: `char mapf_header[0xf]`
is read from the backup and written, 15 bytes. -/
def copy_mapf_header (bak : List Nat) (bpos : Nat) (s : Writer) :
    Except (Stop × List Nat) Copy :=
  match readExact bak bpos 0xf with
  | .error e => .error (e, s.new)
  | .ok mapf_header =>
    .ok ⟨bpos + 0xf, writeAt s.new s.npos mapf_header, s.npos + 0xf, none⟩

/-- Lines 787-887 of `set_map_objects`, after `open(filename, O_RDWR)`. -/
def set_map_objects_write (bak : List Nat) (properties : List MapObjectProperties)
    (b : Snapshot) (f : List Nat) : Except (Stop × List Nat) Copy :=
  let properties_count := properties.length
  let new := writeAt f 0x4 (le32 properties_count)
  match forEach properties write_tile_path ⟨new, 0x4 + 4 + 0x8⟩ with
  | .error e => .error e
  | .ok s =>
  let object_properties_offset := s.npos % 4294967296
  let new := writeAt s.new 0x8 (le32 object_properties_offset)
  match forEach properties write_tile_properties ⟨new, object_properties_offset⟩ with
  | .error e => .error e
  | .ok s =>
  let map_offset := s.npos % 4294967296
  let new := writeAt s.new 0xc (le32 map_offset)
  match copy_mapf_header bak b.bpos ⟨new, map_offset⟩ with
  | .error e => .error e
  | .ok s => forN b.height (fun s => forN b.width (copy_cell bak) s) s

/-- The function `set_map_objects` on an archive with content `f`; `properties` is the array of
`properties_count` definitions. -/
def set_map_objects (f : List Nat) (properties : List MapObjectProperties) : Outcome :=
  match set_map_objects_open f properties.length with
  | .error e => ⟨f, true, some e⟩
  | .ok none => ⟨f, false, none⟩
  | .ok (some b) =>
    match set_map_objects_write f properties b f with
    | .error (e, g) => ⟨g, true, some e⟩
    | .ok s => ⟨s.new, true, none⟩

/-- The backup descriptor, the array `used_tiles` and `map_data` while `prune_objects` counts. -/
structure Count where
  /-- Cursor of `fd_backup`. -/
  bpos : Nat
  /-- The array `int used_tiles[tiles_count]`, each counter as its 32-bit pattern. -/
  used_tiles : List Nat
  /-- The local `char map_data`. -/
  map_data : Option Nat
deriving DecidableEq, Repr

/-- Lines 971-977 of `prune_objects`: one cell read and counted; an index outside
`used_tiles` is outside the array. -/
def count_cell (bak : List Nat) (tiles_count : Nat) (s : Count) : Except Stop Count :=
  let s : Count :=
    match bak[s.bpos]? with
    | some b => { s with bpos := s.bpos + 1, map_data := some b }
    | none => s
  match s.map_data with
  | none => .error .undefined
  | some c =>
    if charToInt c ≠ charToInt (toChar MAP_OBJECT_NONE) then
      if 0 ≤ charToInt c ∧ charToInt c < (tiles_count : Int) then
        let i := Int.toNat (charToInt c)
        .ok { s with used_tiles := s.used_tiles.set i ((s.used_tiles.getD i 0 + 1) % 4294967296) }
      else .error .undefined
    else .ok s

/-- Lines 983-990 of `prune_objects`: the number of nonzero counters. -/
def count_used (used_tiles : List Nat) : Nat :=
  (used_tiles.filter (fun u => u ≠ 0)).length

/-- What the counting part of `prune_objects` hands over. -/
structure Pruned where
  /-- The local `tiles_count`. -/
  tiles_count : Nat
  /-- The array `used_tiles` after the count. -/
  used_tiles : List Nat
  /-- The local `map_width`. -/
  width : Nat
  /-- The local `map_height`. -/
  height : Nat
  /-- The local `map_data` after the count. -/
  map_data : Option Nat
deriving DecidableEq, Repr

/-- Lines 914-979 of `prune_objects`, on the backup. -/
def prune_objects_count (bak : List Nat) : Except Stop Pruned :=
  match validate_marc_header bak 0 with
  | .error e => .error e
  | .ok p0 =>
  match read32 bak p0 with
  | .error e => .error e
  | .ok tiles_count =>
  match seek_mapf_header bak with
  | .error e => .error e
  | .ok m =>
  match validate_mapf_header bak m with
  | .error e => .error e
  | .ok p =>
  match read32 bak p with
  | .error e => .error e
  | .ok map_width =>
  match read32 bak (p + 4) with
  | .error e => .error e
  | .ok map_height =>
  match forN map_height (fun s => forN map_width (count_cell bak tiles_count) s)
      ⟨p + 4 + 4 + 0x4, List.replicate tiles_count 0, none⟩ with
  | .error e => .error e
  | .ok s => .ok ⟨tiles_count, s.used_tiles, map_width, map_height, s.map_data⟩

/-- Both descriptors while `prune_objects` copies the records it keeps. -/
structure Records where
  /-- Cursor of `fd_backup`. -/
  bpos : Nat
  /-- Content of the file opened as `fd_new`. -/
  new : List Nat
  /-- Cursor of `fd_new`. -/
  npos : Nat
deriving DecidableEq, Repr

/-- Lines 1020-1040 of `prune_objects`: the path record of a used tile is copied, the others
are skipped. -/
def prune_path (bak : List Nat) (used : Nat) (s : Records) : Except (Stop × List Nat) Records :=
  if used ≠ 0 then
    match readExact bak s.bpos 0x40 with
    | .error e => .error (e, s.new)
    | .ok tile_paths => .ok ⟨s.bpos + 0x40, writeAt s.new s.npos tile_paths, s.npos + 0x40⟩
  else .ok { s with bpos := s.bpos + 0x40 }

/-- Lines 1067-1092 of `prune_objects`: the signature of every property record is checked, the
record of a used tile is copied, the others are skipped. -/
def prune_properties (bak : List Nat) (used : Nat) (s : Records) :
    Except (Stop × List Nat) Records :=
  match validate_object_properties_header bak s.bpos with
  | .error e => .error (e, s.new)
  | .ok p =>
  let bpos := p - 0x4
  if used ≠ 0 then
    match readExact bak bpos 0x20 with
    | .error e => .error (e, s.new)
    | .ok object_properties =>
      .ok ⟨bpos + 0x20, writeAt s.new s.npos object_properties, s.npos + 0x20⟩
  else .ok { s with bpos := bpos + 0x20 }

/-- The comparison `map_data > new_tiles_count`: the `char` is promoted to `int` and converted
to `unsigned int`. -/
def charToUnsigned (c : Nat) : Nat := (charToInt c % 4294967296).toNat

/-- The statement `map_data -= diff` on two `char`s. -/
def charSub (c diff : Nat) : Nat := ((charToInt c - charToInt diff) % 256).toNat

/-- Lines 1126-1136 of `prune_objects`: one cell read, renumbered and written. -/
def prune_cell (bak : List Nat) (new_tiles_count diff : Nat) (s : Copy) :
    Except (Stop × List Nat) Copy :=
  let s := read_map_data bak s
  match s.map_data with
  | none => .error (.undefined, s.new)
  | some c =>
    let c :=
      if charToInt c ≠ charToInt (toChar MAP_OBJECT_NONE) ∧ charToUnsigned c > new_tiles_count
      then charSub c diff else c
    .ok { s with new := writeAt s.new s.npos [c], npos := s.npos + 1, map_data := some c }

/-- Lines 992-1144 of `prune_objects`, after the count. -/
def prune_objects_write (bak : List Nat) (c : Pruned) (f : List Nat) :
    Except (Stop × List Nat) Copy :=
  let new_tiles_count := count_used c.used_tiles
  let new := writeAt f 0x4 (le32 new_tiles_count)
  match forEach c.used_tiles (prune_path bak) ⟨0x10, new, 0x4 + 4 + 0x8⟩ with
  | .error e => .error e
  | .ok s =>
  let object_properties_offset := s.npos % 4294967296
  let new := writeAt s.new 0x8 (le32 object_properties_offset)
  match forEach c.used_tiles (prune_properties bak) ⟨s.bpos, new, object_properties_offset⟩ with
  | .error e => .error e
  | .ok s =>
  let map_offset := s.npos % 4294967296
  let new := writeAt s.new 0xc (le32 map_offset)
  match copy_mapf_header bak s.bpos ⟨new, map_offset⟩ with
  | .error e => .error e
  | .ok s =>
  let diff := toChar ((c.tiles_count + 4294967296 - new_tiles_count) % 4294967296)
  match forN c.height (fun s => forN c.width (prune_cell bak new_tiles_count diff) s)
      { s with map_data := c.map_data } with
  | .error e => .error e
  | .ok s => .ok { s with new := ftruncate s.new s.npos }

/-- The function `prune_objects` on an archive with content `f`. -/
def prune_objects (f : List Nat) : Outcome :=
  match prune_objects_count f with
  | .error e => ⟨f, true, some e⟩
  | .ok c =>
    match prune_objects_write f c f with
    | .error (e, g) => ⟨g, true, some e⟩
    | .ok s => ⟨s.new, true, none⟩

/-- An archive with three catalog entries and a grid of 2 by 2 cells that reference the
indices 0 and 2 only. -/
def sampleThree : List Nat :=
  le32 MARC_HEADER ++ le32 3 ++ le32 208 ++ le32 304
    ++ ([97] ++ List.replicate 63 0) ++ ([98] ++ List.replicate 63 0)
    ++ ([99] ++ List.replicate 63 0)
    ++ (le32 16 ++ le32 1 ++ List.replicate 24 0) ++ (le32 16 ++ le32 2 ++ List.replicate 24 0)
    ++ (le32 16 ++ le32 3 ++ List.replicate 24 0)
    ++ le32 MAPF_HEADER ++ le32 2 ++ le32 2 ++ le32 4 ++ [0, 2, 255, 2]

/-- Two tile definitions: a solid, destructible generator with 7 frames and a collectible tile
in the air with one frame. -/
def sampleDefinitions : List MapObjectProperties :=
  [⟨[100, 101], 7, 2, 4, 0, 16⟩, ⟨[102], 1, 0, 0, 8, 0⟩]


/-- The records of a table one after the other. -/
def tableOf {α : Type} (record : α → List Nat) : List α → List Nat
  | [] => []
  | x :: xs => record x ++ tableOf record xs

/-- A path followed by zero bytes up to 64 bytes. -/
def pathRecord (path : List Nat) : List Nat := path ++ List.replicate (0x40 - path.length) 0

/-- The array `used_tiles` after the cells `cs` have been counted (lines 974-977 of
`prune_objects`, for cells that are empty or index the array). -/
def tally (used : List Nat) : List Nat → List Nat
  | [] => used
  | c :: cs =>
    tally (if c ≠ MAP_OBJECT_NONE then used.set c ((used.getD c 0 + 1) % 4294967296) else used) cs

/-- The records that `prune_objects` keeps: the record of `size` bytes at `pos` for every
nonzero counter, in the order of the table. -/
def keep (bak : List Nat) (pos size : Nat) : List Nat → List Nat
  | [] => []
  | u :: us => (if u ≠ 0 then readAt bak pos size else []) ++ keep bak (pos + size) size us

/-- The byte that `prune_objects` writes for a cell holding `c` (lines 1129-1133). -/
def renumber (new_tiles_count diff c : Nat) : Nat :=
  if charToInt c ≠ charToInt (toChar MAP_OBJECT_NONE) ∧ charToUnsigned c > new_tiles_count
  then charSub c diff else c

/-- The cells of an archive, row after row. -/
def cellsOf (f : List Nat) : List Nat :=
  readAt f (u32At f 0xc + 16) (u32At f (u32At f 0xc + 4) * u32At f (u32At f 0xc + 8))

/-- Whether the catalog index `i` is referenced by at least one cell: some cell is not the empty
byte and, read as a `char`, is `i`. -/
def referenced (f : List Nat) (i : Nat) : Bool :=
  (cellsOf f).any (fun c => decide (c ≠ MAP_OBJECT_NONE) && decide (charToInt c = (i : Int)))

/-- The referenced catalog indices of an archive, in increasing order. -/
def referencedIndices (f : List Nat) : List Nat :=
  (List.range (u32At f 4)).filter (referenced f)
/-- The array `used_tiles` that `prune_objects` computes on an archive with `N` entries. -/
def usedOf (f : List Nat) (N : Nat) : List Nat := tally (List.replicate N 0) (cellsOf f)

/-- The file that `prune_objects` leaves for a well-formed archive with `N` entries and `W` by
`H` cells: count, kept paths, property-table offset, kept property records, map-block offset,
then 15 bytes of the map block header and `H * W` further bytes of the backup, renumbered. -/
def prunedArchive (f : List Nat) (N W H : Nat) : List Nat :=
  let used := usedOf f N
  let n := count_used used
  let diff := toChar ((N + 4294967296 - n) % 4294967296)
  ftruncate (writeAt (writeAt (writeAt (writeAt (writeAt (writeAt f 4 (le32 n)) 16
    (keep f 16 64 used)) 8 (le32 (16 + 64 * n))) (16 + 64 * n) (keep f (16 + 64 * N) 32 used))
    12 (le32 (16 + 96 * n))) (16 + 96 * n)
    (readAt f (16 + 96 * N) 15 ++ (readAt f (16 + 96 * N + 15) (H * W)).map (renumber n diff)))
    (16 + 96 * n + 15 + H * W)

/-! ### The game side: `map.h` and `mapio.c` -/

/-- Air property of a tile (`map.h`). -/
def MAP_OBJECT_AIR : Nat := 0

/-- Semi-solid property of a tile (`map.h`). -/
def MAP_OBJECT_SEMI_SOLID : Nat := 1

/-- Solid property of a tile (`map.h`). -/
def MAP_OBJECT_SOLID : Nat := 2

/-- Destructible property of a tile (`map.h`). -/
def MAP_OBJECT_DESTRUCTIBLE : Nat := 4

/-- Collectible property of a tile (`map.h`). -/
def MAP_OBJECT_COLLECTIBLE : Nat := 8

/-- Generator property of a tile (`map.h`). -/
def MAP_OBJECT_GENERATOR : Nat := 16

/-- Modelled from the spec: the solidity class of a tile definition (air, semi-solid and solid
are mutually exclusive); `map.c`, which holds the in-memory map, is not among the sources. -/
inductive Solidity where
  | air
  | semi_solid
  | solid
deriving DecidableEq, Repr

/-- Modelled from the spec: a tile definition of the in-memory catalog: path (the characters of
the C string), frame count, solidity class and the three flags. -/
structure TileDefinition where
  /-- Path of the tile, as returned by `map_get_name`. -/
  name : List Nat
  /-- Frame count, as returned by `map_get_frames`. -/
  frames : Nat
  /-- Solidity class. -/
  solidity : Solidity
  /-- Whether `map_is_destructible` holds. -/
  destructible : Bool
  /-- Whether `map_is_collectible` holds. -/
  collectible : Bool
  /-- Whether `map_is_generator` holds. -/
  generator : Bool
deriving DecidableEq, Repr

/-- Modelled from the spec: the in-memory map of `map.c`: width, height, a grid of `int` cell
values read by `map_get(x, y)` and the catalog registered by `map_object_add`. -/
structure Map where
  /-- What `map_width()` returns. -/
  width : Nat
  /-- What `map_height()` returns. -/
  height : Nat
  /-- What `map_get(x, y)` returns. -/
  cells : Nat → Nat → Int
  /-- The catalog, `map_objects()` entries. -/
  objects : List TileDefinition

/-- Modelled from the spec: `map_get_solidity` returns `MAP_OBJECT_AIR`, `MAP_OBJECT_SEMI_SOLID`
or `MAP_OBJECT_SOLID` (documented in `map.h`). -/
def map_get_solidity (o : TileDefinition) : Nat :=
  match o.solidity with
  | .air => MAP_OBJECT_AIR
  | .semi_solid => MAP_OBJECT_SEMI_SOLID
  | .solid => MAP_OBJECT_SOLID

/-- Modelled from the spec: `map_object_add(png_file, frames, obj_type)` registers the tile whose
properties are the bits of `obj_type`, a logical or of the constants of `map.h`. -/
def map_object_add (png_file : List Nat) (frames obj_type : Nat) : TileDefinition :=
  ⟨png_file, frames,
    if obj_type / 2 % 2 = 1 then .solid else if obj_type % 2 = 1 then .semi_solid else .air,
    decide (obj_type / 4 % 2 = 1), decide (obj_type / 8 % 2 = 1),
    decide (obj_type / 16 % 2 = 1)⟩

/-- Modelled from the spec: `map_set(x, y, object)` on the grid. -/
def map_set (grid : Nat → Nat → Int) (x y : Nat) (object : Int) : Nat → Nat → Int :=
  fun i j => if i = x ∧ j = y then object else grid i j

/-- Modelled from the spec: `map_allocate(w, h)` gives a zero-initialised grid. -/
def map_allocate : Nat → Nat → Int := fun _ _ => 0

/-- The cast `(char)v` of an `int`, as the byte that is stored. -/
def intToChar (v : Int) : Nat := (v % 256).toNat

/-- The descriptor `fd_out` of `map_save` and its local `current_offset`. -/
structure Saver where
  /-- Content of the file. -/
  out : List Nat
  /-- Cursor of `fd_out`. -/
  pos : Nat
  /-- The local `current_offset`. -/
  current_offset : Nat
deriving DecidableEq, Repr

/-- The pattern `rw_result = write(fd_out, bs, n); current_offset += rw_result;`. -/
def put (bs : List Nat) (s : Saver) : Saver :=
  ⟨writeAt s.out s.pos bs, s.pos + bs.length, s.current_offset + bs.length⟩

/-- Lines 142-145 of `map_save`: the path is copied over what `tile_path` holds from the entries
before, and the 64 bytes are written. -/
def save_tile_path (o : TileDefinition) (s : Saver × List Nat) : Except Stop (Saver × List Nat) :=
  match strcpy s.2 o.name with
  | .error e => .error e
  | .ok tile_path => .ok (put tile_path s.1, tile_path)

/-- The array `tile_attributes[0x8]` of lines 166-177 of `map_save` as the 32 bytes written. -/
def tile_attributes (o : TileDefinition) : List Nat :=
  le32 OBJECT_PROPERTIES_HEADER ++ le32 o.frames ++ le32 (map_get_solidity o)
    ++ le32 (if o.destructible then MAP_OBJECT_DESTRUCTIBLE else 0)
    ++ le32 (if o.collectible then MAP_OBJECT_COLLECTIBLE else 0)
    ++ le32 (if o.generator then MAP_OBJECT_GENERATOR else 0) ++ le32 0 ++ le32 0

/-- Lines 236-248 of `map_save`: `remainder` words of four zero bytes. -/
def save_padding (s : Saver) : Saver :=
  let remainder := s.current_offset % 0x10
  if remainder ≠ 0 then
    match forN (0x10 - remainder) (fun s => (Except.ok (put (le32 0) s) : Except Stop Saver)) s with
    | .ok t => t
    | .error _ => s
  else s

/-- The function `map_save`: the bytes of the file that it writes for the in-memory map `m`. -/
def map_save (m : Map) : Except Stop (List Nat) :=
  let s := put (le32 MARC_HEADER) ⟨[], 0, 0⟩
  let tile_count := m.objects.length
  let s := put (le32 tile_count) s
  let s := put (le32 0) s
  let s := put (le32 0) s
  match forEach m.objects save_tile_path (s, List.replicate 0x40 0) with
  | .error e => .error e
  | .ok (s, _) =>
  let new := writeAt s.out 0x8 (le32 (s.current_offset % 4294967296))
  let s : Saver := ⟨new, new.length, s.current_offset⟩
  match forEach m.objects
      (fun o s => (Except.ok (put (tile_attributes o) s) : Except Stop Saver)) s with
  | .error e => .error e
  | .ok s =>
  let new := writeAt s.out 0xc (le32 (s.current_offset % 4294967296))
  let s : Saver := ⟨new, new.length, s.current_offset⟩
  let s := put (le32 MAPF_HEADER) s
  let map_w := m.width
  let s := put (le32 map_w) s
  let map_h := m.height
  let s := put (le32 map_h) s
  let s := put (le32 (map_w * map_h % 4294967296)) s
  match forI map_h (fun j s =>
      forI map_w (fun i s =>
        (Except.ok (put [intToChar (m.cells i j)] s) : Except Stop Saver)) 0 s) 0 s with
  | .error e => .error e
  | .ok s => .ok (save_padding s).out

/-- Why `map_load` does not reach its end. -/
inductive LoadStop where
  /-- The message `MARC header [header] does not match at offset [0]!`. -/
  | marc (header : Nat)
  /-- The message `MAPF header [header] does not match at offset [offset]!`. -/
  | mapf (header offset : Nat)
  /-- The message `Tile properties flag [header] does not match at offset [offset]!`. -/
  | flag (header offset : Nat)
  /-- The C code goes on with a variable that its `read` did not fill, or with a path that has
  no NUL in its record.  Runs are followed past a short `read` only for `header` and
  `map_data`; for the other variables the model stops here. -/
  | undefined
deriving DecidableEq, Repr

/-- A `read` of four bytes into an `unsigned int` of `map_load` other than `header`. -/
def loadWord (f : List Nat) (pos : Nat) : Except LoadStop Nat :=
  if pos + 4 ≤ f.length then .ok (u32At f pos) else .error .undefined

/-- A `read` of four bytes into the `unsigned int header` that holds `old`: the bytes that are
not read keep their value.  Returns the new value and the new cursor. -/
def loadHeader (f : List Nat) (pos old : Nat) : Nat × Nat :=
  let got := readAt f pos 4
  (u32At (got ++ (le32 old).drop got.length) 0, pos + got.length)

/-- The descriptor `fd_in`, the local `map_data` and the grid while `map_load` reads the cells. -/
structure Loader where
  /-- Cursor of `fd_in`. -/
  pos : Nat
  /-- The local `char map_data`: the byte that the last `read` stored in it, and until then the
  indeterminate byte that the uninitialised variable holds. -/
  map_data : Nat
  /-- The grid of the map being loaded. -/
  grid : Nat → Nat → Int

/-- Lines 357-359 of `map_load`: a `read` at the end of the file stores nothing, and `map_set`
receives what `map_data` holds. -/
def load_cell (f : List Nat) (y x : Nat) (s : Loader) : Except LoadStop Loader :=
  let s : Loader :=
    match f[s.pos]? with
    | some b => { s with pos := s.pos + 1, map_data := b }
    | none => s
  .ok { s with grid := map_set s.grid x y (charToInt s.map_data) }

/-- The C string that starts a 64-byte record: the characters before the first NUL. -/
def cstring (record : List Nat) : Except LoadStop (List Nat) :=
  if 0 ∈ record then .ok (record.takeWhile (fun c => c ≠ 0)) else .error .undefined

/-- The descriptor `fd_in`, the local `header` and the catalog while `map_load` reads the
property records. -/
structure Catalog where
  /-- Cursor of `fd_in`. -/
  pos : Nat
  /-- The local `header`. -/
  header : Nat
  /-- The objects registered so far. -/
  objects : List TileDefinition
deriving DecidableEq, Repr

/-- Lines 384-424 of `map_load` for the entry whose path record is `tile_path`. -/
def load_object (f : List Nat) (tile_path : List Nat) (s : Catalog) : Except LoadStop Catalog :=
  let r := loadHeader f s.pos s.header
  if r.1 ≠ OBJECT_PROPERTIES_HEADER then .error (.flag r.1 (r.2 - 0x4))
  else
  match loadWord f r.2 with
  | .error e => .error e
  | .ok a0 =>
  match loadWord f (r.2 + 4) with
  | .error e => .error e
  | .ok a1 =>
  match loadWord f (r.2 + 8) with
  | .error e => .error e
  | .ok a2 =>
  match loadWord f (r.2 + 12) with
  | .error e => .error e
  | .ok a3 =>
  match loadWord f (r.2 + 16) with
  | .error e => .error e
  | .ok a4 =>
  match cstring tile_path with
  | .error e => .error e
  | .ok png_file =>
    .ok ⟨r.2 + 20 + 0x8, r.1, s.objects ++ [map_object_add png_file a0 (a1 ||| a2 ||| a3 ||| a4)]⟩

/-- Lines 369-373 of `map_load`: the `n` path records from the cursor `pos` on. -/
def load_paths (f : List Nat) (pos : Nat) : Nat → Except LoadStop (List (List Nat))
  | 0 => .ok []
  | n + 1 =>
    if pos + 0x40 ≤ f.length then
      match load_paths f (pos + 0x40) n with
      | .error e => .error e
      | .ok rest => .ok (readAt f pos 0x40 :: rest)
    else .error .undefined

/-- The function `map_load` on a file with content `f`: the in-memory map that it builds.
`map_data` is the byte that the uninitialised local `char map_data` holds when the function is
entered (its address is taken, so its value is unspecified, not undefined). -/
def map_load (f : List Nat) (map_data : Nat) : Except LoadStop Map :=
  match loadWord f 0 with
  | .error e => .error e
  | .ok header =>
  if header ≠ MARC_HEADER then .error (.marc header)
  else
  match loadWord f 4 with
  | .error e => .error e
  | .ok tile_count =>
  match loadWord f 8 with
  | .error e => .error e
  | .ok _tile_attributes_offset =>
  match loadWord f 12 with
  | .error e => .error e
  | .ok tile_map_offset =>
  let r := loadHeader f tile_map_offset header
  if r.1 ≠ MAPF_HEADER then .error (.mapf r.1 tile_map_offset)
  else
  match loadWord f r.2 with
  | .error e => .error e
  | .ok map_w =>
  match loadWord f (r.2 + 4) with
  | .error e => .error e
  | .ok map_h =>
  match forI map_h (fun y s => forI map_w (load_cell f y) 0 s) 0
      ⟨r.2 + 4 + 4 + 0x4, map_data, map_allocate⟩ with
  | .error e => .error e
  | .ok cells =>
  match load_paths f 0x10 tile_count with
  | .error e => .error e
  | .ok tile_path =>
  match forEach tile_path (load_object f) ⟨0x10 + 0x40 * tile_count, r.1, []⟩ with
  | .error e => .error e
  | .ok s => .ok ⟨map_w, map_h, cells.grid, s.objects⟩

/-- An in-memory map of 3 by 2 cells with two catalog entries. -/
def sampleMap : Map :=
  ⟨3, 2, fun x y => if x = 0 then 1 else if y = 1 then 0 else -1,
    [⟨[103, 114, 111, 117, 110, 100], 1, .solid, false, false, false⟩,
     ⟨[119], 20, .air, false, true, false⟩]⟩

/-- The 64-byte records that `map_save` writes for a catalog, `buf` being what `tile_path`
holds before the first of them: every path is copied over the bytes of the record before. -/
def pathRecords (buf : List Nat) : List TileDefinition → List (List Nat)
  | [] => []
  | o :: os =>
    (o.name ++ [0] ++ buf.drop (o.name.length + 1))
      :: pathRecords (o.name ++ [0] ++ buf.drop (o.name.length + 1)) os

/-- The bytes of the cells `(lo, j) .. (lo + n - 1, j)` of a row as `map_save` writes them. -/
def rowBytes (m : Map) (j lo n : Nat) : List Nat :=
  (List.range' lo n).map (fun i => intToChar (m.cells i j))

/-- The bytes of the rows `lo .. lo + n - 1` as `map_save` writes them. -/
def cellBytes (m : Map) (lo n : Nat) : List Nat :=
  tableOf (fun j => rowBytes m j 0 m.width) (List.range' lo n)

/-- The zero bytes that `map_save` appends after `len` bytes (lines 236-248). -/
def paddingBytes (len : Nat) : List Nat :=
  if len % 16 ≠ 0 then List.replicate (4 * (16 - len % 16)) 0 else []

/-- The file written by `map_save`, block after block. -/
def savedFile (m : Map) : List Nat :=
  (le32 MARC_HEADER ++ le32 m.objects.length
      ++ le32 ((16 + 64 * m.objects.length) % 4294967296)
      ++ le32 ((16 + 64 * m.objects.length + 32 * m.objects.length) % 4294967296))
    ++ (tableOf (fun r => r) (pathRecords (List.replicate 0x40 0) m.objects)
    ++ (tableOf tile_attributes m.objects
    ++ ((le32 MAPF_HEADER ++ le32 m.width ++ le32 m.height
        ++ le32 (m.width * m.height % 4294967296))
    ++ (cellBytes m 0 m.height
    ++ paddingBytes (16 + 64 * m.objects.length + 32 * m.objects.length + 16
        + m.height * m.width)))))

/-- The values of an in-memory map fit the C types that hold them: `unsigned int` width, height
and frame counts, and paths that are C strings (characters from 1 to 255). -/
def Map.Representable (m : Map) : Prop :=
  m.width < 4294967296 ∧ m.height < 4294967296 ∧
  ∀ o ∈ m.objects, o.frames < 4294967296 ∧ ∀ c ∈ o.name, 0 < c ∧ c < 256

instance (m : Map) : Decidable m.Representable := by
  unfold Map.Representable; infer_instance

/-- An in-memory map of one cell that holds the index 200 of a catalog of 201 entries. -/
def wideCatalogMap : Map :=
  ⟨1, 1, fun _ _ => 200, List.replicate 201 ⟨[116], 1, .solid, false, false, false⟩⟩

/-- The function `get_map_width`: both signatures are checked, then the word that follows the
map block signature is read. -/
def get_map_width (f : List Nat) : Except Stop Nat :=
  match validate_marc_header f 0 with
  | .error e => .error e
  | .ok _ =>
  match seek_mapf_header f with
  | .error e => .error e
  | .ok m =>
  match validate_mapf_header f m with
  | .error e => .error e
  | .ok p => read32 f p

/-- The function `get_map_height`: as `get_map_width`, after `lseek(fd, 0x4, SEEK_CUR)`. -/
def get_map_height (f : List Nat) : Except Stop Nat :=
  match validate_marc_header f 0 with
  | .error e => .error e
  | .ok _ =>
  match seek_mapf_header f with
  | .error e => .error e
  | .ok m =>
  match validate_mapf_header f m with
  | .error e => .error e
  | .ok p => read32 f (p + 0x4)

/-- The function `get_map_objects_count`: the container signature is checked, then the word at
offset 4 is read. -/
def get_map_objects_count (f : List Nat) : Except Stop Nat :=
  match validate_marc_header f 0 with
  | .error e => .error e
  | .ok _ => read32 f 0x4

/-- An archive with two catalog entries and a grid of 2 by 2 cells in which the index 1 is
referenced by the last cell only. -/
def sampleTwo : List Nat :=
  le32 MARC_HEADER ++ le32 2 ++ le32 144 ++ le32 208
    ++ ([97] ++ List.replicate 63 0) ++ ([98] ++ List.replicate 63 0)
    ++ (le32 16 ++ le32 1 ++ List.replicate 24 0) ++ (le32 16 ++ le32 2 ++ List.replicate 24 0)
    ++ le32 MAPF_HEADER ++ le32 2 ++ le32 2 ++ le32 4 ++ [0, 0, 0, 1]

/-- The archive after the catalog has been rewritten in place with `n` entries: count, path
table `P`, property-table offset, property table `R`, map-block offset and the bytes `B`
written at the new map-block offset. -/
def relaid (f : List Nat) (n : Nat) (P R B : List Nat) : List Nat :=
  writeAt (writeAt (writeAt (writeAt (writeAt (writeAt f 4 (le32 n)) 16 P) 8
    (le32 (16 + 64 * n))) (16 + 64 * n) R) 12 (le32 (16 + 96 * n))) (16 + 96 * n) B

/-- The structure `map_info` of `maputil.h`. -/
structure MapInfo where
  /-- Width of a map. -/
  map_width : Nat
  /-- Height of a map. -/
  map_height : Nat
  /-- Number of tiles of a map. -/
  map_objects_count : Nat
deriving DecidableEq, Repr

/-- The function `get_map_info`: the container signature is checked, the count is read at
offset 4, then the map block signature is checked and the width and the height are read. -/
def get_map_info (f : List Nat) : Except Stop MapInfo :=
  match validate_marc_header f 0 with
  | .error e => .error e
  | .ok _ =>
  match read32 f 0x4 with
  | .error e => .error e
  | .ok map_objects_count =>
  match seek_mapf_header f with
  | .error e => .error e
  | .ok m =>
  match validate_mapf_header f m with
  | .error e => .error e
  | .ok p =>
  match read32 f p with
  | .error e => .error e
  | .ok map_width =>
  match read32 f (p + 4) with
  | .error e => .error e
  | .ok map_height => .ok ⟨map_width, map_height, map_objects_count⟩

/-! ### The name of the backup: `backup_archive` -/

/-- The fields of `struct tm` that the format of `backup_archive` reads (`time.h`). -/
structure Tm where
  /-- Seconds after the minute. -/
  tm_sec : Nat
  /-- Minutes after the hour. -/
  tm_min : Nat
  /-- Hours since midnight. -/
  tm_hour : Nat
  /-- Day of the month. -/
  tm_mday : Nat
  /-- Months since January. -/
  tm_mon : Nat
  /-- Years since 1900. -/
  tm_year : Nat
deriving DecidableEq, Repr

/-- The decimal digits of `n` in front of `acc`, as character codes; `fuel` bounds the number
of digits. -/
def decimalAux : Nat → Nat → List Nat → List Nat
  | 0, _, acc => acc
  | fuel + 1, n, acc =>
    if n < 10 then (48 + n) :: acc else decimalAux fuel (n / 10) ((48 + n % 10) :: acc)

/-- The decimal writing of an `int` value that is not negative (at most 10 digits). -/
def decimal (n : Nat) : List Nat := decimalAux 20 n []

/-- A number written with at least two decimal digits, as the conversions `%d`, `%m`, `%H`,
`%M` and `%S` of `strftime` write their field. -/
def twoDigits (n : Nat) : List Nat := if n < 10 then [48, 48 + n] else decimal n

/-- The text that `strftime` writes for the conversion `%c`, for the six conversions of the
format of `backup_archive`: `d`, `m`, `Y`, `H`, `M` and `S`. -/
def strftime_conversion (c : Nat) (t : Tm) : Option (List Nat) :=
  if c = 100 then some (twoDigits t.tm_mday)
  else if c = 109 then some (twoDigits (t.tm_mon + 1))
  else if c = 89 then some (decimal (t.tm_year + 1900))
  else if c = 72 then some (twoDigits t.tm_hour)
  else if c = 77 then some (twoDigits t.tm_min)
  else if c = 83 then some (twoDigits t.tm_sec)
  else none

/-- The text that `strftime` builds from a format: a `%` (code 37) and the character after it
are replaced by the conversion, every other character is copied. -/
def strftime_expand (t : Tm) : List Nat → Option (List Nat)
  | [] => some []
  | c :: rest =>
    if c = 37 then
      match rest with
      | [] => none
      | conv :: rest2 =>
        match strftime_conversion conv t, strftime_expand t rest2 with
        | some a, some b => some (a ++ b)
        | _, _ => none
    else
      match strftime_expand t rest with
      | some b => some (c :: b)
      | none => none

/-- The call `strftime(buf, sizeof(buf), format, tm)`: the text and its NUL replace the head of
`buf`; when they do not fit the content of `buf` is not determined. -/
def strftime (buf format : List Nat) (t : Tm) : Except Stop (List Nat) :=
  match strftime_expand t format with
  | none => .error .undefined
  | some s =>
    if s.length + 1 ≤ buf.length then .ok (s ++ [0] ++ buf.drop (s.length + 1))
    else .error .undefined

/-- The C string held by a buffer: the characters before the first NUL. -/
def cstr (buf : List Nat) : List Nat := buf.takeWhile (fun c => c ≠ 0)

/-- The call `strlen(buf)`. -/
def strlen (buf : List Nat) : Nat := (cstr buf).length

/-- The call `strcat(buf, src)`: the characters of `src` and a NUL are written from the first
NUL of `buf` on; a buffer without NUL or too short is overrun. -/
def strcat (buf src : List Nat) : Except Stop (List Nat) :=
  if strlen buf < buf.length ∧ strlen buf + src.length + 1 ≤ buf.length then
    .ok (buf.take (strlen buf) ++ src ++ [0] ++ buf.drop (strlen buf + src.length + 1))
  else .error .undefined

/-- The call `malloc(n)`: a block of `n` bytes whose content, `block`, is not determined. -/
def malloc (n : Nat) (block : Nat → Nat) : List Nat := (List.range n).map block

/-- The format `"-%d-%m-%Y-%H:%M:%S"` of `backup_archive`, as character codes. -/
def backup_format : List Nat :=
  [45, 37, 100, 45, 37, 109, 45, 37, 89, 45, 37, 72, 58, 37, 77, 58, 37, 83]

/-- The suffix `".backup"` of `backup_archive`, as character codes. -/
def backup_suffix : List Nat := [46, 98, 97, 99, 107, 117, 112]

/-- The function `backup_archive`, lines 1253-1274: the name of the backup, built from the name
of the archive (a C string), the local time and the block that `malloc` returns.  The copy
itself is made by the child process `cp`. -/
def backup_archive (filename : List Nat) (local_time : Tm) (block : Nat → Nat) :
    Except Stop (List Nat) :=
  match strftime (List.replicate 256 0) backup_format local_time with
  | .error e => .error e
  | .ok time_str_buffer =>
  let backup_filename :=
    malloc (filename.length + strlen time_str_buffer + strlen backup_suffix + 1) block
  match strcpy backup_filename filename with
  | .error e => .error e
  | .ok backup_filename =>
  match strcat backup_filename (cstr time_str_buffer) with
  | .error e => .error e
  | .ok backup_filename =>
  match strcat backup_filename backup_suffix with
  | .error e => .error e
  | .ok backup_filename => .ok (cstr backup_filename)

/-- The local time 2026-01-03 09:05:07. -/
def sampleTime : Tm := ⟨7, 5, 9, 3, 0, 126⟩

/-- The text `-DD-MM-YYYY-hh:mm:ss` for a local time: two digits for the day, the month, the
hour, the minute and the second, four digits for the year. -/
def timeStamp (t : Tm) : List Nat :=
  [45, 48 + t.tm_mday / 10, 48 + t.tm_mday % 10,
   45, 48 + (t.tm_mon + 1) / 10, 48 + (t.tm_mon + 1) % 10,
   45, 48 + (t.tm_year + 1900) / 1000, 48 + (t.tm_year + 1900) / 100 % 10,
       48 + (t.tm_year + 1900) / 10 % 10, 48 + (t.tm_year + 1900) % 10,
   45, 48 + t.tm_hour / 10, 48 + t.tm_hour % 10,
   58, 48 + t.tm_min / 10, 48 + t.tm_min % 10,
   58, 48 + t.tm_sec / 10, 48 + t.tm_sec % 10]

/-- A local time whose fields are in the ranges of `struct tm`, in a year of four digits. -/
def Tm.InRange (t : Tm) : Prop :=
  t.tm_sec ≤ 60 ∧ t.tm_min ≤ 59 ∧ t.tm_hour ≤ 23 ∧ t.tm_mday ≤ 31 ∧ t.tm_mon ≤ 11 ∧
  t.tm_year ≤ 8099

instance (t : Tm) : Decidable t.InRange := by
  unfold Tm.InRange; infer_instance

/-! ### The event list: `eventlist.c` -/

/-- The fields `next` and `when` of a `struct event_list_node`.  A pointer is the address of a
node, `none` for `NULL`; `event_list_insert` does not read the fields `timer` and
`parameters`. -/
structure EventNode where
  /-- Next event. -/
  next : Option Nat
  /-- Date of delivery, an `unsigned long int`. -/
  when : Nat
deriving DecidableEq, Repr

/-- The memory after an assignment to the node at address `a`. -/
def store (mem : Nat → EventNode) (a : Nat) (v : EventNode) : Nat → EventNode :=
  fun b => if b = a then v else mem b

/-- The loop of `event_list_insert`, lines 55-59:
`while (current && current->when < node->when) { prev = current; current = current->next; }`
with at most `fuel` tests of its condition; returns `prev` and `current`. -/
def event_list_seek (mem : Nat → EventNode) (when : Nat) :
    Nat → Option Nat → Option Nat → Option (Option Nat × Option Nat)
  | 0, _, _ => none
  | _ + 1, prev, none => some (prev, none)
  | fuel + 1, prev, some current =>
    if (mem current).when < when then
      event_list_seek mem when fuel (some current) (mem current).next
    else some (prev, some current)

/-- The function `event_list_insert`: `list` is the pointer `*list`, `node` the address of the
node to insert; returns the memory and `*list` after the call. -/
def event_list_insert (fuel : Nat) (mem : Nat → EventNode) (list : Option Nat) (node : Nat) :
    Option ((Nat → EventNode) × Option Nat) :=
  match event_list_seek mem (mem node).when fuel none list with
  | none => none
  | some (prev, current) =>
    let mem := store mem node { mem node with next := current }
    match prev with
    | some p => some (store mem p { mem p with next := some node }, list)
    | none => some (mem, some node)

/-- Following the `next` fields from the pointer `p` visits the nodes `nodes` in this order and
arrives at the pointer `q`. -/
def EventPath (mem : Nat → EventNode) : Option Nat → List Nat → Option Nat → Prop
  | p, [], q => p = q
  | p, a :: as, q => p = some a ∧ EventPath mem (mem a).next as q

/-- The pointer `list` is the head of a list made of the nodes `nodes`, in this order, the last
of which has a `NULL` `next`. -/
def IsEventList (mem : Nat → EventNode) (list : Option Nat) (nodes : List Nat) : Prop :=
  EventPath mem list nodes none

/-- The nodes `nodes` are in non-decreasing order of `when`. -/
def SortedByWhen (mem : Nat → EventNode) (nodes : List Nat) : Prop :=
  nodes.Pairwise (fun a b => (mem a).when ≤ (mem b).when)

/-- The pointer `prev` of the loop once it has passed the nodes `pre`. -/
def lastPassed (prev : Option Nat) : List Nat → Option Nat
  | [] => prev
  | a :: as => lastPassed (some a) as

/-- A memory with the two nodes 1 (`when` 10) and 2 (`when` 30) linked in this order, and the
node 3 (`when` 20) that is in no list. -/
def sampleEvents : Nat → EventNode :=
  fun a => if a = 1 then ⟨some 2, 10⟩ else if a = 2 then ⟨none, 30⟩ else ⟨none, 20⟩

/-- The `n` records of 64 bytes that `map_load` reads as paths from `pos` on
(lines 369-373). -/
def pathsAt (f : List Nat) (pos : Nat) : Nat → List (List Nat)
  | 0 => []
  | n + 1 => readAt f pos 0x40 :: pathsAt f (pos + 0x40) n

/-- A file that holds every byte that `map_load` reads: the header, the map block that the
header names with all its cells, the path table and the 32-byte records that follow it, and a
NUL in every path record.  Nothing is asked of the signatures. -/
def Complete (f : List Nat) : Prop :=
  16 ≤ f.length ∧
  u32At f 0xc + 16 + u32At f (u32At f 0xc + 4) * u32At f (u32At f 0xc + 8) ≤ f.length ∧
  16 + 96 * u32At f 4 ≤ f.length ∧
  ∀ i < u32At f 4, 0 ∈ readAt f (16 + 64 * i) 64

instance (f : List Nat) : Decidable (Complete f) := by
  unfold Complete; infer_instance

/-- An archive with one catalog entry whose property table does not follow the path table
directly: sixteen zero bytes lie between them, and the property-table offset field holds 96. -/
def gapArchive : List Nat :=
  le32 MARC_HEADER ++ le32 1 ++ le32 96 ++ le32 128 ++ ([97] ++ List.replicate 63 0)
    ++ List.replicate 16 0 ++ (le32 16 ++ le32 1 ++ List.replicate 24 0)
    ++ le32 MAPF_HEADER ++ le32 1 ++ le32 1 ++ le32 1 ++ [0]

/-- An archive that is well formed but, possibly, for its property table: bytes below 256, the
count `N`, the map block at `16 + 96 * N` with `W` by `H` cells, and every cell either the
empty byte or, read as a `char`, an index below `N`. -/
def Framed (f : List Nat) (N W H : Nat) : Prop :=
  (∀ b ∈ f, b < 256) ∧ u32At f 4 = N ∧ HasMap f (16 + 96 * N) W H ∧
  (∀ k < W * H, f.getD (16 + 96 * N + 16 + k) 0 = MAP_OBJECT_NONE ∨
    (0 ≤ charToInt (f.getD (16 + 96 * N + 16 + k) 0) ∧
      charToInt (f.getD (16 + 96 * N + 16 + k) 0) < (N : Int)))

instance (f : List Nat) (N W H : Nat) : Decidable (Framed f N W H) := by
  unfold Framed; infer_instance

/-- The archive `sampleArchive` with the word 0 in place of its container signature. -/
def badMarcArchive : List Nat := le32 0 ++ sampleArchive.drop 4

/-- A file with a container signature whose map-block offset, 16, names the word 0. -/
def badMapArchive : List Nat :=
  le32 MARC_HEADER ++ le32 0 ++ le32 16 ++ le32 16 ++ le32 0 ++ List.replicate 12 0

/-- A file with a container signature whose map-block offset, 20, names the word 0. -/
def badMapArchiveFar : List Nat :=
  le32 MARC_HEADER ++ le32 0 ++ le32 16 ++ le32 20 ++ List.replicate 4 0 ++ le32 0
    ++ List.replicate 12 0

/-- The archive `sampleArchive` with the word 17 in place of the signature of its property
record. -/
def badRecordArchive : List Nat :=
  le32 MARC_HEADER ++ le32 1 ++ le32 80 ++ le32 112 ++ List.replicate 64 0
    ++ (le32 17 ++ List.replicate 28 0)
    ++ le32 MAPF_HEADER ++ le32 2 ++ le32 2 ++ le32 4 ++ [0, 255, 0, 0]

/-! ### Tile definitions of the command line: `map_object_properties_new` -/

/-- Modelled from the spec: the enumeration `enum_solidity` of the command line, whose header is
not among the sources: the three values that `map_object_properties_new` names, and any other
value. -/
inductive enum_solidity where
  | solidity_arg_solid
  | solidity_arg_semi_solid
  | solidity_arg_air
  | other
deriving DecidableEq, Repr

/-- Modelled from the spec: the enumeration `enum_destructible` of the command line. -/
inductive enum_destructible where
  | destructible_arg_destructible
  | destructible_arg_not_destructible
  | other
deriving DecidableEq, Repr

/-- Modelled from the spec: the enumeration `enum_collectible` of the command line. -/
inductive enum_collectible where
  | collectible_arg_collectible
  | collectible_arg_not_collectible
  | other
deriving DecidableEq, Repr

/-- Modelled from the spec: the enumeration `enum_generator` of the command line. -/
inductive enum_generator where
  | generator_arg_generator
  | generator_arg_not_generator
  | other
deriving DecidableEq, Repr

/-- The function `map_object_properties_new`: `path` is a C string, `frames` an
`unsigned int`, `block` the content of the block that `malloc` returns for the path; the
assignment of `-1` to an `unsigned int` field stores `0xFFFFFFFF`. -/
def map_object_properties_new (path : List Nat) (frames : Nat) (solidity : enum_solidity)
    (destructible : enum_destructible) (collectible : enum_collectible)
    (generator : enum_generator) (block : Nat → Nat) : Except Stop MapObjectProperties :=
  match strcpy (malloc (path.length + 1) block) path with
  | .error e => .error e
  | .ok p_path =>
    .ok ⟨cstr p_path, frames,
      match solidity with
      | .solidity_arg_solid => MAP_OBJECT_SOLID
      | .solidity_arg_semi_solid => MAP_OBJECT_SEMI_SOLID
      | .solidity_arg_air => MAP_OBJECT_AIR
      | .other => 4294967295,
      match destructible with
      | .destructible_arg_destructible => MAP_OBJECT_DESTRUCTIBLE
      | .destructible_arg_not_destructible => 0
      | .other => 4294967295,
      match collectible with
      | .collectible_arg_collectible => MAP_OBJECT_COLLECTIBLE
      | .collectible_arg_not_collectible => 0
      | .other => 4294967295,
      match generator with
      | .generator_arg_generator => MAP_OBJECT_GENERATOR
      | .generator_arg_not_generator => 0
      | .other => 4294967295⟩

/-! ### New events: `event_list_new` -/

/-- The structure `timeval`: seconds and microseconds. -/
structure Timeval where
  /-- Seconds. -/
  tv_sec : Nat
  /-- Microseconds. -/
  tv_usec : Nat
deriving DecidableEq, Repr

/-- The structure `itimerval`. -/
structure Itimerval where
  /-- Interval of a periodic timer. -/
  it_interval : Timeval
  /-- Time until the next expiration. -/
  it_value : Timeval
deriving DecidableEq, Repr

/-- The structure `event_list_node` with all its fields; `parameters` is kept as an address. -/
structure Event where
  /-- Next event. -/
  next : Option Nat
  /-- Time remaining to trigger the event. -/
  timer : Itimerval
  /-- Date of delivery in microseconds, an `unsigned long int` (64 bits). -/
  when : Nat
  /-- Event parameters. -/
  parameters : Nat
deriving DecidableEq, Repr

/-- The function `event_list_new`; `delay` is an `unsigned int` and `now` what `gettimeofday`
stores.  `tv.tv_sec -= 3600UL * 24 * 365 * 46` and the sum of `when` are computed on 64 bits,
the product `delay * 1000` on the 32 bits of `unsigned int`. -/
def event_list_new (delay : Nat) (parameters : Nat) (now : Timeval) : Event :=
  let tv_sec := (now.tv_sec + 18446744073709551616 - 3600 * 24 * 365 * 46) % 18446744073709551616
  { next := none
    timer := ⟨⟨0, 0⟩, ⟨delay / 1000, delay % 1000 * 1000⟩⟩
    when := (tv_sec * 1000000 + now.tv_usec + delay * 1000 % 4294967296) % 18446744073709551616
    parameters := parameters }

/-- The creation instant in microseconds since the shifted epoch, for a time of day `now`. -/
def shiftedInstant (now : Timeval) : Nat :=
  (now.tv_sec - 3600 * 24 * 365 * 46) * 1000000 + now.tv_usec

/-- The time of day 1800000000 s and 5 µs after the epoch (in 2027). -/
def sampleNow : Timeval := ⟨1800000000, 5⟩

/-- A well-formed archive with no catalog entry and a grid without cells. -/
def emptyGridArchive : List Nat :=
  le32 MARC_HEADER ++ le32 0 ++ le32 16 ++ le32 16
    ++ le32 MAPF_HEADER ++ le32 0 ++ le32 0 ++ le32 0

/-- None object of the in-memory map: `#define MAP_OBJECT_NONE -1` in `map.h`. -/
def Map.MAP_OBJECT_NONE : Int := -1

/-- The call of `map_object_add` at lines 412-419 of `map_load` for a path record and a
property record that hold the fields of the definition `p`. -/
def loadedEntry (p : MapObjectProperties) : TileDefinition :=
  map_object_add p.path p.frames
    (p.solidity ||| p.destructible ||| p.collectible ||| p.generator)

/-- The fields of a definition fit the C types that hold them: a path that is a C string of at
most 63 characters, and five `unsigned int` values. -/
def MapObjectProperties.Representable (p : MapObjectProperties) : Prop :=
  p.path.length ≤ 63 ∧ 0 ∉ p.path ∧ p.frames < 4294967296 ∧ p.solidity < 4294967296 ∧
  p.destructible < 4294967296 ∧ p.collectible < 4294967296 ∧ p.generator < 4294967296

instance (p : MapObjectProperties) : Decidable p.Representable := by
  unfold MapObjectProperties.Representable; infer_instance

/-- An archive with one catalog entry whose map block does not follow the property table
directly: the property table is at 80, as its offset field says, sixteen zero bytes lie at
112..127, and the map block (1 by 1, the cell holds the index 0) is at 128, as its offset field
says. -/
def mapGapArchive : List Nat :=
  le32 MARC_HEADER ++ le32 1 ++ le32 80 ++ le32 128 ++ ([97] ++ List.replicate 63 0)
    ++ (le32 16 ++ le32 1 ++ List.replicate 24 0) ++ List.replicate 16 0
    ++ le32 MAPF_HEADER ++ le32 1 ++ le32 1 ++ le32 1 ++ [0]

/-- A well-formed archive with one catalog entry and a grid of one cell that holds the index 0. -/
def oneCellArchive : List Nat :=
  le32 MARC_HEADER ++ le32 1 ++ le32 80 ++ le32 112 ++ ([97] ++ List.replicate 63 0)
    ++ (le32 16 ++ le32 1 ++ List.replicate 24 0)
    ++ le32 MAPF_HEADER ++ le32 1 ++ le32 1 ++ le32 1 ++ [0]

/-! ## Part 2 : lemmas and theorems -/

theorem ext_getD {l₁ l₂ : List Nat} (hl : l₁.length = l₂.length)
    (h : ∀ i, l₁.getD i 0 = l₂.getD i 0) : l₁ = l₂ := by
  apply List.ext_getElem hl
  intro i h₁ h₂
  have := h i
  rwa [List.getD_eq_getElem _ _ h₁, List.getD_eq_getElem _ _ h₂] at this

theorem length_writeAt (f : List Nat) (pos : Nat) (bs : List Nat) :
    (writeAt f pos bs).length = max f.length (pos + bs.length) := by
  simp only [writeAt, List.length_append, List.length_take, List.length_drop,
    List.length_replicate]
  omega

theorem getD_writeAt (f : List Nat) (pos : Nat) (bs : List Nat) (i : Nat) :
    (writeAt f pos bs).getD i 0 =
      if i < pos then f.getD i 0 else if i < pos + bs.length then bs.getD (i - pos) 0
      else f.getD i 0 := by
  unfold writeAt
  simp only [List.getD_eq_getElem?_getD, List.getElem?_append, List.length_append,
    List.length_take, List.length_replicate, List.getElem?_take, List.getElem?_drop,
    List.getElem?_replicate]
  split_ifs <;> first | rfl | omega | (congr 2; omega) | skip
  rw [List.getElem?_eq_none (by omega)]
  rfl

theorem getD_of_length_le {l : List Nat} {i : Nat} (h : l.length ≤ i) : l.getD i 0 = 0 := by
  rw [List.getD_eq_getElem?_getD, List.getElem?_eq_none h]
  rfl

theorem writeAt_writeAt (f : List Nat) (pos : Nat) (a b : List Nat) :
    writeAt (writeAt f pos a) (pos + a.length) b = writeAt f pos (a ++ b) := by
  apply ext_getD
  · simp only [length_writeAt, List.length_append]
    omega
  · intro i
    simp only [getD_writeAt, List.length_append]
    split_ifs <;> first | rfl | omega | skip
    · rw [List.getD_append _ _ _ _ (by omega)]
    · rw [List.getD_append_right _ _ _ _ (by omega)]
      congr 1
      omega

theorem length_ftruncate (f : List Nat) (n : Nat) : (ftruncate f n).length = n := by
  simp only [ftruncate, List.length_append, List.length_take, List.length_replicate]
  omega

theorem getD_ftruncate (f : List Nat) (n i : Nat) :
    (ftruncate f n).getD i 0 = if i < n then f.getD i 0 else 0 := by
  unfold ftruncate
  simp only [List.getD_eq_getElem?_getD, List.getElem?_append, List.length_take,
    List.getElem?_take, List.getElem?_replicate]
  split_ifs <;> first | rfl | omega | skip
  rw [List.getElem?_eq_none (by omega)]
  rfl

theorem length_readAt (f : List Nat) (pos n : Nat) :
    (readAt f pos n).length = min n (f.length - pos) := by
  simp [readAt, List.length_take, List.length_drop]

theorem getD_readAt (f : List Nat) (pos n i : Nat) :
    (readAt f pos n).getD i 0 = if i < n then f.getD (pos + i) 0 else 0 := by
  unfold readAt
  simp only [List.getD_eq_getElem?_getD, List.getElem?_take, List.getElem?_drop]
  split_ifs <;> rfl

theorem u32At_le32 (f : List Nat) (pos v : Nat) :
    u32At (writeAt f pos (le32 v)) pos = v % 4294967296 := by
  simp only [u32At, getD_writeAt, le32, List.length_cons, List.length_nil]
  simp
  omega

theorem forN_succ {σ ε : Type} (k : Nat) (body : σ → Except ε σ) (s : σ) :
    forN (k + 1) body s =
      match body s with
      | .error e => .error e
      | .ok t => forN k body t := rfl

theorem forN_add {σ ε : Type} (a b : Nat) (body : σ → Except ε σ) (s : σ) :
    forN (a + b) body s =
      match forN a body s with
      | .error e => .error e
      | .ok t => forN b body t := by
  induction a generalizing s with
  | zero => simp [forN]
  | succ k ih =>
    rw [Nat.add_right_comm, forN_succ, forN_succ]
    cases body s with
    | error e => rfl
    | ok t => exact ih t

theorem forN_forN {σ ε : Type} (a b : Nat) (body : σ → Except ε σ) (s : σ) :
    forN a (fun t => forN b body t) s = forN (a * b) body s := by
  induction a generalizing s with
  | zero => simp [forN]
  | succ k ih =>
    have h := forN_add b (k * b) body s
    rw [forN_succ, Nat.succ_mul, Nat.add_comm (k * b) b, h]
    cases forN b body s with
    | error e => rfl
    | ok t => exact ih t

theorem writeAt_nil (f : List Nat) (pos : Nat) (h : pos ≤ f.length) : writeAt f pos [] = f := by
  apply ext_getD
  · simp only [length_writeAt, List.length_nil]; omega
  · intro i
    simp only [getD_writeAt, List.length_nil]
    split_ifs <;> first | rfl | omega

theorem readAt_zero (f : List Nat) (pos : Nat) : readAt f pos 0 = [] := by
  simp [readAt]

theorem readAt_succ (f : List Nat) (pos n : Nat) (h : pos < f.length) :
    readAt f pos (n + 1) = f.getD pos 0 :: readAt f (pos + 1) n := by
  apply ext_getD
  · simp only [length_readAt, List.length_cons]
    omega
  · intro i
    cases i with
    | zero =>
      rw [getD_readAt, List.getD_cons_zero, if_pos (Nat.succ_pos n), Nat.add_zero]
    | succ j =>
      simp only [List.getD_cons_succ, getD_readAt]
      split_ifs <;> first | rfl | omega | (congr 1; omega)

theorem forN_copy_cell (bak : List Nat) (k : Nat) (s : Copy) (h : s.bpos + k ≤ bak.length)
    (hn : s.npos ≤ s.new.length) :
    ∃ md, forN k (copy_cell bak) s =
      .ok ⟨s.bpos + k, writeAt s.new s.npos (readAt bak s.bpos k), s.npos + k, md⟩ := by
  induction k generalizing s with
  | zero =>
    refine ⟨s.map_data, ?_⟩
    simp only [forN, readAt_zero, writeAt_nil _ _ hn, Nat.add_zero]
  | succ k ih =>
    have hb : s.bpos < bak.length := by omega
    have hget : bak[s.bpos]? = some (bak.getD s.bpos 0) := by
      rw [List.getElem?_eq_getElem hb, List.getD_eq_getElem _ _ hb]
    obtain ⟨md, hmd⟩ := ih
      ⟨s.bpos + 1, writeAt s.new s.npos [bak.getD s.bpos 0], s.npos + 1, some (bak.getD s.bpos 0)⟩
      (by dsimp only; omega)
      (by dsimp only; simp only [length_writeAt, List.length_cons, List.length_nil]; omega)
    dsimp only at hmd
    refine ⟨md, ?_⟩
    simp only [forN, copy_cell, read_map_data, hget, write_map_data]
    rw [hmd]
    have := writeAt_writeAt s.new s.npos [bak.getD s.bpos 0] (readAt bak (s.bpos + 1) k)
    simp only [List.length_cons, List.length_nil, List.singleton_append, Nat.zero_add] at this
    rw [readAt_succ _ _ _ hb, this]
    congr 2 <;> omega

theorem forN_write_none (k : Nat) (s : Copy) (hn : s.npos ≤ s.new.length) :
    forN k write_none s =
      .ok ⟨s.bpos, writeAt s.new s.npos (List.replicate k 255), s.npos + k, s.map_data⟩ := by
  induction k generalizing s with
  | zero =>
    simp only [forN, List.replicate_zero, writeAt_nil _ _ hn, Nat.add_zero]
  | succ k ih =>
    simp only [forN, write_none]
    rw [ih _ (by dsimp only; simp only [length_writeAt, List.length_cons, List.length_nil]; omega)]
    have := writeAt_writeAt s.new s.npos [255] (List.replicate k 255)
    simp only [List.length_cons, List.length_nil, List.singleton_append, Nat.zero_add] at this
    simp only [toChar, MAP_OBJECT_NONE]
    rw [this, List.replicate_succ]
    congr 2
    omega

theorem length_rows (bak : List Nat) (stride tk pad H bpos : Nat) (htk : tk ≤ stride)
    (h : bpos + H * stride ≤ bak.length) :
    (rows bak bpos stride tk pad H).length = H * (tk + pad) := by
  induction H generalizing bpos with
  | zero => simp [rows]
  | succ k ih =>
    have h1 : bpos + stride + k * stride ≤ bak.length := by
      rw [Nat.succ_mul] at h; omega
    have h2 : bpos + tk ≤ bak.length := by
      rw [Nat.succ_mul] at h; omega
    simp only [rows, List.length_append, length_readAt, List.length_replicate, ih _ h1,
      Nat.succ_mul]
    omega

theorem getD_rows (bak : List Nat) (stride tk pad H bpos x y : Nat) (htk : tk ≤ stride)
    (h : bpos + H * stride ≤ bak.length) (hy : y < H) (hx : x < tk + pad) :
    (rows bak bpos stride tk pad H).getD (y * (tk + pad) + x) 0 =
      if x < tk then bak.getD (bpos + y * stride + x) 0 else 255 := by
  induction H generalizing bpos y with
  | zero => omega
  | succ k ih =>
    have h1 : bpos + stride + k * stride ≤ bak.length := by
      rw [Nat.succ_mul] at h; omega
    have h2 : bpos + tk ≤ bak.length := by
      rw [Nat.succ_mul] at h; omega
    have hlen : (readAt bak bpos tk ++ List.replicate pad 255).length = tk + pad := by
      simp only [List.length_append, length_readAt, List.length_replicate]; omega
    simp only [rows]
    cases y with
    | zero =>
      simp only [Nat.zero_mul, Nat.zero_add, Nat.add_zero]
      rw [List.getD_append _ _ _ _ (by omega)]
      by_cases hxt : x < tk
      · rw [List.getD_append _ _ _ _ (by rw [length_readAt]; omega), getD_readAt, if_pos hxt,
          if_pos hxt]
      · rw [List.getD_append_right _ _ _ _ (by rw [length_readAt]; omega), if_neg hxt,
          List.getD_eq_getElem?_getD, List.getElem?_replicate, if_pos (by rw [length_readAt]; omega)]
        rfl
    | succ j =>
      rw [List.getD_append_right _ _ _ _ (by rw [hlen, Nat.succ_mul]; omega), hlen]
      have : (j + 1) * (tk + pad) + x - (tk + pad) = j * (tk + pad) + x := by
        rw [Nat.succ_mul]; omega
      rw [this, ih (bpos + stride) j h1 (by omega)]
      have : bpos + stride + j * stride = bpos + (j + 1) * stride := by
        rw [Nat.succ_mul]; omega
      rw [this]

theorem forN_rows (bak : List Nat) (body : Copy → Except (Stop × List Nat) Copy)
    (stride tk pad : Nat)
    (hbody : ∀ s : Copy, s.bpos + tk ≤ bak.length → s.npos ≤ s.new.length →
      ∃ md, body s = .ok ⟨s.bpos + stride,
        writeAt s.new s.npos (readAt bak s.bpos tk ++ List.replicate pad 255),
        s.npos + (tk + pad), md⟩)
    (htk : tk ≤ stride) (H : Nat) (s : Copy) (h : s.bpos + H * stride ≤ bak.length)
    (hn : s.npos ≤ s.new.length) :
    ∃ md, forN H body s = .ok ⟨s.bpos + H * stride,
      writeAt s.new s.npos (rows bak s.bpos stride tk pad H), s.npos + H * (tk + pad), md⟩ := by
  induction H generalizing s with
  | zero =>
    refine ⟨s.map_data, ?_⟩
    simp only [forN, rows, writeAt_nil _ _ hn, Nat.zero_mul, Nat.add_zero]
  | succ k ih =>
    have h1 : s.bpos + stride + k * stride ≤ bak.length := by
      rw [Nat.succ_mul] at h; omega
    have h2 : s.bpos + tk ≤ bak.length := by
      rw [Nat.succ_mul] at h; omega
    have hlen : (readAt bak s.bpos tk ++ List.replicate pad 255).length = tk + pad := by
      simp only [List.length_append, length_readAt, List.length_replicate]; omega
    obtain ⟨md, hmd⟩ := hbody s h2 hn
    obtain ⟨md2, hmd2⟩ := ih ⟨s.bpos + stride,
        writeAt s.new s.npos (readAt bak s.bpos tk ++ List.replicate pad 255),
        s.npos + (tk + pad), md⟩ h1 (by dsimp only; rw [length_writeAt, hlen]; omega)
    dsimp only at hmd2
    refine ⟨md2, ?_⟩
    rw [forN_succ, hmd]
    dsimp only
    rw [hmd2]
    have := writeAt_writeAt s.new s.npos (readAt bak s.bpos tk ++ List.replicate pad 255)
      (rows bak (s.bpos + stride) stride tk pad k)
    rw [hlen] at this
    rw [this]
    simp only [rows, Nat.succ_mul]
    congr 2 <;> omega

theorem read32_ok {f : List Nat} {pos : Nat} (h : pos + 4 ≤ f.length) :
    read32 f pos = .ok (u32At f pos) := by
  simp [read32, h]

theorem getElem?_eq_some_getD {l : List Nat} {i : Nat} (h : i < l.length) :
    l[i]? = some (l.getD i 0) := by
  rw [List.getElem?_eq_getElem h, List.getD_eq_getElem _ _ h]

theorem cell_index_lt {x y W H : Nat} (hx : x < W) (hy : y < H) : y * W + x < H * W :=
  Nat.lt_of_lt_of_le (Nat.add_lt_add_left hx _)
    (by rw [← Nat.succ_mul]; exact Nat.mul_le_mul_right _ hy)

theorem getD_writeAt_of_lt (f : List Nat) (pos : Nat) (bs : List Nat) (i : Nat)
    (h : i < pos) : (writeAt f pos bs).getD i 0 = f.getD i 0 := by
  rw [getD_writeAt, if_pos h]

theorem getD_writeAt_of_ge (f : List Nat) (pos : Nat) (bs : List Nat) (i : Nat)
    (h : pos + bs.length ≤ i) : (writeAt f pos bs).getD i 0 = f.getD i 0 := by
  have h1 : ¬ i < pos := by omega
  have h2 : ¬ i < pos + bs.length := by omega
  rw [getD_writeAt, if_neg h1, if_neg h2]

theorem u32At_writeAt_of_le (f : List Nat) (pos : Nat) (bs : List Nat) (p : Nat)
    (h : p + 4 ≤ pos) : u32At (writeAt f pos bs) p = u32At f p := by
  have h0 : p < pos := by omega
  have h1 : p + 1 < pos := by omega
  have h2 : p + 2 < pos := by omega
  have h3 : p + 3 < pos := by omega
  simp only [u32At, getD_writeAt_of_lt, h0, h1, h2, h3]

theorem u32At_writeAt_of_ge (f : List Nat) (pos : Nat) (bs : List Nat) (p : Nat)
    (h : pos + bs.length ≤ p) : u32At (writeAt f pos bs) p = u32At f p := by
  have h0 : pos + bs.length ≤ p := h
  have h1 : pos + bs.length ≤ p + 1 := by omega
  have h2 : pos + bs.length ≤ p + 2 := by omega
  have h3 : pos + bs.length ≤ p + 3 := by omega
  simp only [u32At, getD_writeAt_of_ge, h0, h1, h2, h3]

theorem length_le32 (v : Nat) : (le32 v).length = 4 := rfl

theorem set_map_width_open_eq {f : List Nat} {m W H newW : Nat} (hm : HasMap f m W H)
    (hne : newW ≠ W) : set_map_width_open f newW = .ok (some ⟨m + 16, W, H⟩) := by
  obtain ⟨h0, h12, hm16, hsig, hw, hh, hlen⟩ := hm
  have r0 : read32 f 0 = .ok MARC_HEADER := by rw [read32_ok (by omega), h0]
  have r12 : read32 f 0xc = .ok m := by rw [read32_ok (by omega), h12]
  have rm : read32 f m = .ok MAPF_HEADER := by rw [read32_ok (by omega), hsig]
  have rw4 : read32 f (m + 4) = .ok W := by rw [read32_ok (by omega), hw]
  have rh : read32 f (m + 4 + 4) = .ok H := by rw [read32_ok (by omega), hh]
  simp only [set_map_width_open, validate_marc_header, seek_mapf_header, validate_mapf_header,
    r0, r12, rm, rw4, rh, ne_eq, not_true_eq_false, if_false, if_neg hne]

theorem expand_row (bak : List Nat) (W pad : Nat) (s : Copy) (h : s.bpos + W ≤ bak.length)
    (hn : s.npos ≤ s.new.length) :
    ∃ md, (match forN W (copy_cell bak) s with
      | .error e => Except.error e
      | .ok s => forN pad write_none s) = .ok ⟨s.bpos + W,
        writeAt s.new s.npos (readAt bak s.bpos W ++ List.replicate pad 255),
        s.npos + (W + pad), md⟩ := by
  obtain ⟨md, hmd⟩ := forN_copy_cell bak W s h hn
  refine ⟨md, ?_⟩
  have hl : (readAt bak s.bpos W).length = W := by rw [length_readAt]; omega
  rw [hmd]
  dsimp only
  rw [forN_write_none _ _ (by dsimp only; rw [length_writeAt, hl]; omega)]
  dsimp only
  have := writeAt_writeAt s.new s.npos (readAt bak s.bpos W) (List.replicate pad 255)
  rw [hl] at this
  rw [this, Nat.add_assoc]

theorem shrink_row (bak : List Nat) (W newW : Nat) (s : Copy) (h : s.bpos + newW ≤ bak.length)
    (hn : s.npos ≤ s.new.length) (hle : newW ≤ W) :
    ∃ md, (match forN newW (copy_cell bak) s with
      | .error e => Except.error e
      | .ok s => (Except.ok { s with bpos := s.bpos + (W - newW) } :
          Except (Stop × List Nat) Copy)) =
      .ok ⟨s.bpos + W, writeAt s.new s.npos (readAt bak s.bpos newW ++ List.replicate 0 255),
        s.npos + (newW + 0), md⟩ := by
  obtain ⟨md, hmd⟩ := forN_copy_cell bak newW s h hn
  refine ⟨md, ?_⟩
  rw [hmd]
  simp only [List.replicate_zero, List.append_nil, Nat.add_zero]
  congr 2
  omega

/-- Closed form of `set_map_width` when the map grows. -/
theorem set_map_width_expand_eq {f : List Nat} {m W H newW : Nat} (hm : HasMap f m W H)
    (hlt : W < newW) :
    set_map_width f newW =
      ⟨writeAt (writeAt (writeAt f (m + 4) (le32 newW)) (m + 12)
        (le32 (newW * H % 4294967296))) (m + 16) (rows f (m + 16) W W (newW - W) H),
        true, none⟩ := by
  have hopen := set_map_width_open_eq hm (Nat.ne_of_gt hlt)
  obtain ⟨h0, h12, hm16, hsig, hw, hh, hlen⟩ := hm
  have r12 : seek_mapf_header f = .ok m := by
    rw [seek_mapf_header, read32_ok (by omega), h12]
  obtain ⟨md, hmd⟩ := forN_rows f
    (fun s => match forN W (copy_cell f) s with
      | .error e => .error e
      | .ok s => forN (newW - W) write_none s) W W (newW - W)
    (fun s h1 h2 => expand_row f W (newW - W) s h1 h2) (Nat.le_refl _) H
    ⟨m + 16, writeAt (writeAt f (m + 4) (le32 newW)) (m + 12) (le32 (newW * H % 4294967296)),
      m + 16, none⟩
    (by dsimp only; rw [Nat.mul_comm]; omega)
    (by dsimp only; simp only [length_writeAt, length_le32]; omega)
  dsimp only at hmd
  simp only [set_map_width, hopen, r12, set_map_width_rows, gt_iff_lt, hlt, if_true]
  rw [hmd]

/-- Closed form of `set_map_width` when the map shrinks. -/
theorem set_map_width_shrink_eq {f : List Nat} {m W H newW : Nat} (hm : HasMap f m W H)
    (hlt : newW < W) :
    set_map_width f newW =
      ⟨ftruncate (writeAt (writeAt (writeAt f (m + 4) (le32 newW)) (m + 12)
        (le32 (newW * H % 4294967296))) (m + 16) (rows f (m + 16) W newW 0 H))
        (m + 16 + H * newW), true, none⟩ := by
  have hopen := set_map_width_open_eq hm (Nat.ne_of_lt hlt)
  obtain ⟨h0, h12, hm16, hsig, hw, hh, hlen⟩ := hm
  have r12 : seek_mapf_header f = .ok m := by
    rw [seek_mapf_header, read32_ok (by omega), h12]
  obtain ⟨md, hmd⟩ := forN_rows f
    (fun s => match forN newW (copy_cell f) s with
      | .error e => .error e
      | .ok s => .ok { s with bpos := s.bpos + (W - newW) }) W newW 0
    (fun s h1 h2 => shrink_row f W newW s h1 h2 (Nat.le_of_lt hlt)) (Nat.le_of_lt hlt) H
    ⟨m + 16, writeAt (writeAt f (m + 4) (le32 newW)) (m + 12) (le32 (newW * H % 4294967296)),
      m + 16, none⟩
    (by dsimp only; rw [Nat.mul_comm]; omega)
    (by dsimp only; simp only [length_writeAt, length_le32]; omega)
  dsimp only at hmd
  simp only [set_map_width, hopen, r12, set_map_width_rows, gt_iff_lt, Nat.lt_asymm hlt,
    if_false]
  rw [hmd]
  simp only [Nat.add_zero]

theorem getD_lt_256 {f : List Nat} (hb : ∀ b ∈ f, b < 256) (i : Nat) : f.getD i 0 < 256 := by
  by_cases h : i < f.length
  · rw [List.getD_eq_getElem _ _ h]
    exact hb _ (List.getElem_mem _)
  · rw [getD_of_length_le (Nat.le_of_not_lt h)]
    decide

theorem u32At_lt {f : List Nat} (hb : ∀ b ∈ f, b < 256) (p : Nat) : u32At f p < 4294967296 := by
  have h0 := getD_lt_256 hb p
  have h1 := getD_lt_256 hb (p + 1)
  have h2 := getD_lt_256 hb (p + 2)
  have h3 := getD_lt_256 hb (p + 3)
  simp only [u32At]
  omega

theorem WellFormed.hasMap {f : List Nat} {N W H : Nat} (h : WellFormed f N W H) :
    HasMap f (16 + 96 * N) W H := h.2.2.2.2.1

theorem WellFormed.width_lt {f : List Nat} {N W H : Nat} (h : WellFormed f N W H) :
    W < 4294967296 := by
  have := u32At_lt h.1 (16 + 96 * N + 4)
  rwa [h.hasMap.2.2.2.2.1] at this

theorem WellFormed.height_lt {f : List Nat} {N W H : Nat} (h : WellFormed f N W H) :
    H < 4294967296 := by
  have := u32At_lt h.1 (16 + 96 * N + 8)
  rwa [h.hasMap.2.2.2.2.2.1] at this

theorem WellFormed.size_lt {f : List Nat} {N W H : Nat} (h : WellFormed f N W H) :
    W * H < 4294967296 := by
  have := u32At_lt h.1 (16 + 96 * N + 12)
  rwa [h.2.2.2.2.2.1] at this

/-- The cell `(x, y)` of a file with a map block is the byte at `m + 16 + y * W + x`. -/
theorem HasMap.cellAt_eq {f : List Nat} {m W H : Nat} (hm : HasMap f m W H) {x y : Nat}
    (hx : x < W) (hy : y < H) : cellAt f x y = some (f.getD (m + 16 + y * W + x) 0) := by
  obtain ⟨h0, h12, hm16, hsig, hw, hh, hlen⟩ := hm
  have := cell_index_lt hx hy
  rw [cellAt, h12, hw, getElem?_eq_some_getD (by rw [Nat.mul_comm W H] at hlen; omega)]

/-- The header and the cells of the archive written by a growing `set_map_width`. -/
theorem set_map_width_expand_core {f : List Nat} {m W H newW : Nat} (hm : HasMap f m W H)
    (hlt : W < newW) (h32 : newW < 4294967296) :
    ∃ g, set_map_width f newW = ⟨g, true, none⟩ ∧ HasMap g m newW H ∧
      ∀ x y, x < newW → y < H →
        g.getD (m + 16 + y * newW + x) 0 = if x < W then f.getD (m + 16 + y * W + x) 0 else 255 := by
  refine ⟨_, set_map_width_expand_eq hm hlt, ?_, ?_⟩
  · obtain ⟨h0, h12, hm16, hsig, hw, hh, hlen⟩ := hm
    have hrl := length_rows f W W (newW - W) H (m + 16) (Nat.le_refl _)
      (by rw [Nat.mul_comm]; omega)
    have hWn : W + (newW - W) = newW := by omega
    rw [hWn] at hrl
    refine ⟨?_, ?_, hm16, ?_, ?_, ?_, ?_⟩
    · rw [u32At_writeAt_of_le _ _ _ _ (by omega), u32At_writeAt_of_le _ _ _ _ (by omega),
        u32At_writeAt_of_le _ _ _ _ (by omega), h0]
    · rw [u32At_writeAt_of_le _ _ _ _ (by omega), u32At_writeAt_of_le _ _ _ _ (by omega),
        u32At_writeAt_of_le _ _ _ _ (by omega), h12]
    · rw [u32At_writeAt_of_le _ _ _ _ (by omega), u32At_writeAt_of_le _ _ _ _ (by omega),
        u32At_writeAt_of_le _ _ _ _ (by omega), hsig]
    · rw [u32At_writeAt_of_le _ _ _ _ (by omega), u32At_writeAt_of_le _ _ _ _ (by omega),
        u32At_le32, Nat.mod_eq_of_lt h32]
    · rw [u32At_writeAt_of_le _ _ _ _ (by omega), u32At_writeAt_of_le _ _ _ _ (by omega),
        u32At_writeAt_of_ge _ _ _ _ (by rw [length_le32]), hh]
    · rw [length_writeAt, hrl, Nat.mul_comm newW H]
      omega
  · intro x y hx hy
    obtain ⟨h0, h12, hm16, hsig, hw, hh, hlen⟩ := hm
    have hrl := length_rows f W W (newW - W) H (m + 16) (Nat.le_refl _)
      (by rw [Nat.mul_comm]; omega)
    have hWn : W + (newW - W) = newW := by omega
    have hidx := cell_index_lt hx hy
    have hr := getD_rows f W W (newW - W) H (m + 16) x y (Nat.le_refl _)
      (by rw [Nat.mul_comm]; omega) hy (by omega)
    rw [hWn] at hr hrl
    rw [getD_writeAt, if_neg (by omega), if_pos (by omega)]
    have : m + 16 + y * newW + x - (m + 16) = y * newW + x := by omega
    rw [this, hr]

theorem u32At_ftruncate (f : List Nat) (n p : Nat) (h : p + 4 ≤ n) :
    u32At (ftruncate f n) p = u32At f p := by
  simp only [u32At, getD_ftruncate]
  rw [if_pos (by omega), if_pos (by omega), if_pos (by omega), if_pos (by omega)]

/-- The header, the cells and the length of the archive written by a shrinking
`set_map_width`. -/
theorem set_map_width_shrink_core {f : List Nat} {m W H newW : Nat} (hm : HasMap f m W H)
    (hlt : newW < W) (h32 : newW < 4294967296) :
    ∃ g, set_map_width f newW = ⟨g, true, none⟩ ∧ HasMap g m newW H ∧
      g.length = m + 16 + newW * H ∧
      ∀ x y, x < newW → y < H →
        g.getD (m + 16 + y * newW + x) 0 = f.getD (m + 16 + y * W + x) 0 := by
  refine ⟨_, set_map_width_shrink_eq hm hlt, ?_, ?_, ?_⟩
  · obtain ⟨h0, h12, hm16, hsig, hw, hh, hlen⟩ := hm
    refine ⟨?_, ?_, hm16, ?_, ?_, ?_, ?_⟩
    · rw [u32At_ftruncate _ _ _ (by omega),
        u32At_writeAt_of_le _ _ _ _ (by omega), u32At_writeAt_of_le _ _ _ _ (by omega),
        u32At_writeAt_of_le _ _ _ _ (by omega), h0]
    · rw [u32At_ftruncate _ _ _ (by omega),
        u32At_writeAt_of_le _ _ _ _ (by omega), u32At_writeAt_of_le _ _ _ _ (by omega),
        u32At_writeAt_of_le _ _ _ _ (by omega), h12]
    · rw [u32At_ftruncate _ _ _ (by omega),
        u32At_writeAt_of_le _ _ _ _ (by omega), u32At_writeAt_of_le _ _ _ _ (by omega),
        u32At_writeAt_of_le _ _ _ _ (by omega), hsig]
    · rw [u32At_ftruncate _ _ _ (by omega),
        u32At_writeAt_of_le _ _ _ _ (by omega), u32At_writeAt_of_le _ _ _ _ (by omega),
        u32At_le32, Nat.mod_eq_of_lt h32]
    · rw [u32At_ftruncate _ _ _ (by omega),
        u32At_writeAt_of_le _ _ _ _ (by omega), u32At_writeAt_of_le _ _ _ _ (by omega),
        u32At_writeAt_of_ge _ _ _ _ (by rw [length_le32]), hh]
    · rw [length_ftruncate, Nat.mul_comm newW H]
  · rw [length_ftruncate, Nat.mul_comm newW H]
  · intro x y hx hy
    obtain ⟨h0, h12, hm16, hsig, hw, hh, hlen⟩ := hm
    have hle : H * W ≤ W * H := by rw [Nat.mul_comm]
    have hrl := length_rows f W newW 0 H (m + 16) (Nat.le_of_lt hlt) (by omega)
    have hidx := cell_index_lt hx hy
    have hr := getD_rows f W newW 0 H (m + 16) x y (Nat.le_of_lt hlt) (by omega) hy (by omega)
    simp only [Nat.add_zero] at hr hrl
    rw [getD_ftruncate, if_pos (by omega), getD_writeAt, if_neg (by omega), if_pos (by omega)]
    have : m + 16 + y * newW + x - (m + 16) = y * newW + x := by omega
    rw [this, hr, if_pos hx]

/-- C7: on a well-formed archive, `set_map_width` with a larger width keeps every cell `(x, y)`
with `x < W` and fills the cells `(x, y)` with `W ≤ x < newW` with the empty byte `0xFF`, for
every row `y < H`. -/
theorem set_map_width_expand_cells (f : List Nat) (N W H newW : Nat)
    (hwf : WellFormed f N W H) (hlt : W < newW) (h32 : newW < 4294967296) :
    ∃ g, set_map_width f newW = ⟨g, true, none⟩ ∧
      (∀ x y, x < W → y < H → ∃ v, cellAt f x y = some v ∧ cellAt g x y = some v) ∧
      (∀ x y, W ≤ x → x < newW → y < H → cellAt g x y = some MAP_OBJECT_NONE) := by
  obtain ⟨g, hg, hmg, hcell⟩ := set_map_width_expand_core hwf.hasMap hlt h32
  refine ⟨g, hg, ?_, ?_⟩
  · intro x y hx hy
    refine ⟨_, hwf.hasMap.cellAt_eq hx hy, ?_⟩
    rw [hmg.cellAt_eq (Nat.lt_trans hx hlt) hy, hcell x y (Nat.lt_trans hx hlt) hy, if_pos hx]
  · intro x y hWx hx hy
    rw [hmg.cellAt_eq hx hy, hcell x y hx hy, if_neg (Nat.not_lt.mpr hWx)]
    rfl

set_option maxRecDepth 100000 in
theorem set_map_width_expand_cells_witness :
    WellFormed sampleArchive 1 2 2 ∧
    ∃ g, set_map_width sampleArchive 3 = ⟨g, true, none⟩ ∧
      (∀ x y, x < 2 → y < 2 → ∃ v, cellAt sampleArchive x y = some v ∧ cellAt g x y = some v) ∧
      (∀ x y, 2 ≤ x → x < 3 → y < 2 → cellAt g x y = some MAP_OBJECT_NONE) :=
  ⟨by decide, set_map_width_expand_cells sampleArchive 1 2 2 3 (by decide) (by decide)
    (by decide)⟩

/-- C8: on a well-formed archive, `set_map_width` with a smaller width keeps every cell
`(x, y)` with `x < newW` and `y < H`, and leaves a file of exactly
`map block offset + 16 + newW * H` bytes. -/
theorem set_map_width_shrink_cells (f : List Nat) (N W H newW : Nat)
    (hwf : WellFormed f N W H) (hlt : newW < W) :
    ∃ g, set_map_width f newW = ⟨g, true, none⟩ ∧
      (∀ x y, x < newW → y < H → ∃ v, cellAt f x y = some v ∧ cellAt g x y = some v) ∧
      g.length = u32At g 0xc + 16 + newW * H := by
  obtain ⟨g, hg, hmg, hlen, hcell⟩ :=
    set_map_width_shrink_core hwf.hasMap hlt (Nat.lt_trans hlt hwf.width_lt)
  refine ⟨g, hg, ?_, ?_⟩
  · intro x y hx hy
    refine ⟨_, hwf.hasMap.cellAt_eq (Nat.lt_trans hx hlt) hy, ?_⟩
    rw [hmg.cellAt_eq hx hy, hcell x y hx hy]
  · rw [hmg.2.1, hlen]

set_option maxRecDepth 100000 in
theorem set_map_width_shrink_cells_witness :
    WellFormed sampleArchive 1 2 2 ∧
    ∃ g, set_map_width sampleArchive 1 = ⟨g, true, none⟩ ∧
      (∀ x y, x < 1 → y < 2 → ∃ v, cellAt sampleArchive x y = some v ∧ cellAt g x y = some v) ∧
      g.length = u32At g 0xc + 16 + 1 * 2 :=
  ⟨by decide, set_map_width_shrink_cells sampleArchive 1 2 2 1 (by decide) (by decide)⟩



theorem set_map_height_open_eq {f : List Nat} {m W H newH : Nat} (hm : HasMap f m W H)
    (hne : newH ≠ H) : set_map_height_open f newH = .ok (some ⟨m + 16, W, H⟩) := by
  obtain ⟨h0, h12, hm16, hsig, hw, hh, hlen⟩ := hm
  have r0 : read32 f 0 = .ok MARC_HEADER := by rw [read32_ok (by omega), h0]
  have r12 : read32 f 0xc = .ok m := by rw [read32_ok (by omega), h12]
  have rm : read32 f m = .ok MAPF_HEADER := by rw [read32_ok (by omega), hsig]
  have rw4 : read32 f (m + 4) = .ok W := by rw [read32_ok (by omega), hw]
  have rh : read32 f (m + 4 + 4) = .ok H := by rw [read32_ok (by omega), hh]
  simp only [set_map_height_open, validate_marc_header, seek_mapf_header, validate_mapf_header,
    r0, r12, rm, rw4, rh, ne_eq, not_true_eq_false, if_false, if_neg hne]

/-- Closed form of `set_map_height` when the map grows. -/
theorem set_map_height_expand_eq {f : List Nat} {m W H newH : Nat} (hm : HasMap f m W H)
    (hlt : H < newH) :
    set_map_height f newH =
      ⟨writeAt (writeAt (writeAt f (m + 8) (le32 newH)) (m + 12)
        (le32 (W * newH % 4294967296))) (m + 16)
        (List.replicate ((newH - H) * W) 255 ++ readAt f (m + 16) (H * W)), true, none⟩ := by
  have hopen := set_map_height_open_eq hm (Nat.ne_of_gt hlt)
  obtain ⟨h0, h12, hm16, hsig, hw, hh, hlen⟩ := hm
  have r12 : seek_mapf_header f = .ok m := by
    rw [seek_mapf_header, read32_ok (by omega), h12]
  have hle : H * W ≤ W * H := by rw [Nat.mul_comm]
  have h1 := forN_write_none ((newH - H) * W)
    ⟨m + 16, writeAt (writeAt f (m + 8) (le32 newH)) (m + 12) (le32 (W * newH % 4294967296)),
      m + 16, none⟩
    (by dsimp only; simp only [length_writeAt, length_le32]; omega)
  dsimp only at h1
  obtain ⟨md, h2⟩ := forN_copy_cell f (H * W)
    ⟨m + 16, writeAt (writeAt (writeAt f (m + 8) (le32 newH)) (m + 12)
      (le32 (W * newH % 4294967296))) (m + 16) (List.replicate ((newH - H) * W) 255),
      m + 16 + (newH - H) * W, none⟩ (by dsimp only; omega)
    (by dsimp only; simp only [length_writeAt, length_le32, List.length_replicate]; omega)
  dsimp only at h2
  simp only [set_map_height, hopen, r12, set_map_height_rows, gt_iff_lt, hlt, if_true, forN_forN]
  rw [h1]
  dsimp only
  rw [h2]
  dsimp only
  have := writeAt_writeAt (writeAt (writeAt f (m + 8) (le32 newH)) (m + 12)
    (le32 (W * newH % 4294967296))) (m + 16) (List.replicate ((newH - H) * W) 255)
    (readAt f (m + 16) (H * W))
  rw [List.length_replicate] at this
  rw [this]

/-- Closed form of `set_map_height` when the map shrinks. -/
theorem set_map_height_shrink_eq {f : List Nat} {m W H newH : Nat} (hm : HasMap f m W H)
    (hlt : newH < H) (hsz : (H - newH) * W < 4294967296) :
    set_map_height f newH =
      ⟨ftruncate (writeAt (writeAt (writeAt f (m + 8) (le32 newH)) (m + 12)
        (le32 (W * newH % 4294967296))) (m + 16)
        (readAt f (m + 16 + (H - newH) * W) (newH * W))) (m + 16 + newH * W), true, none⟩ := by
  have hopen := set_map_height_open_eq hm (Nat.ne_of_lt hlt)
  obtain ⟨h0, h12, hm16, hsig, hw, hh, hlen⟩ := hm
  have r12 : seek_mapf_header f = .ok m := by
    rw [seek_mapf_header, read32_ok (by omega), h12]
  have hsplit : (H - newH) * W + newH * W = W * H := by
    rw [← Nat.add_mul, Nat.mul_comm]
    congr 1
    omega
  obtain ⟨md, h2⟩ := forN_copy_cell f (newH * W)
    ⟨m + 16 + (H - newH) * W, writeAt (writeAt f (m + 8) (le32 newH)) (m + 12)
      (le32 (W * newH % 4294967296)), m + 16, none⟩ (by dsimp only; omega)
    (by dsimp only; simp only [length_writeAt, length_le32]; omega)
  dsimp only at h2
  simp only [set_map_height, hopen, r12, set_map_height_rows, gt_iff_lt, Nat.lt_asymm hlt,
    if_false, forN_forN, Nat.mod_eq_of_lt hsz]
  rw [h2]

/-- The header and the cells of the archive written by a growing `set_map_height`. -/
theorem set_map_height_expand_core {f : List Nat} {m W H newH : Nat} (hm : HasMap f m W H)
    (hlt : H < newH) (h32 : newH < 4294967296) :
    ∃ g, set_map_height f newH = ⟨g, true, none⟩ ∧ HasMap g m W newH ∧
      ∀ x y, x < W → y < newH →
        g.getD (m + 16 + y * W + x) 0 =
          if y < newH - H then 255 else f.getD (m + 16 + (y - (newH - H)) * W + x) 0 := by
  have hsplit : (newH - H) * W + H * W = W * newH := by
    rw [← Nat.add_mul, Nat.mul_comm]
    congr 1
    omega
  refine ⟨_, set_map_height_expand_eq hm hlt, ?_, ?_⟩
  · obtain ⟨h0, h12, hm16, hsig, hw, hh, hlen⟩ := hm
    have hle : H * W ≤ W * H := by rw [Nat.mul_comm]
    refine ⟨?_, ?_, hm16, ?_, ?_, ?_, ?_⟩
    · rw [u32At_writeAt_of_le _ _ _ _ (by omega), u32At_writeAt_of_le _ _ _ _ (by omega),
        u32At_writeAt_of_le _ _ _ _ (by omega), h0]
    · rw [u32At_writeAt_of_le _ _ _ _ (by omega), u32At_writeAt_of_le _ _ _ _ (by omega),
        u32At_writeAt_of_le _ _ _ _ (by omega), h12]
    · rw [u32At_writeAt_of_le _ _ _ _ (by omega), u32At_writeAt_of_le _ _ _ _ (by omega),
        u32At_writeAt_of_le _ _ _ _ (by omega), hsig]
    · rw [u32At_writeAt_of_le _ _ _ _ (by omega), u32At_writeAt_of_le _ _ _ _ (by omega),
        u32At_writeAt_of_le _ _ _ _ (by omega), hw]
    · rw [u32At_writeAt_of_le _ _ _ _ (by omega), u32At_writeAt_of_le _ _ _ _ (by omega),
        u32At_le32, Nat.mod_eq_of_lt h32]
    · rw [length_writeAt, List.length_append, List.length_replicate, length_readAt]
      omega
  · intro x y hx hy
    obtain ⟨h0, h12, hm16, hsig, hw, hh, hlen⟩ := hm
    have hle : H * W ≤ W * H := by rw [Nat.mul_comm]
    have hidx := cell_index_lt hx hy
    rw [Nat.mul_comm newH W] at hidx
    rw [getD_writeAt, if_neg (by omega), if_pos (by
      rw [List.length_append, List.length_replicate, length_readAt]; omega)]
    have : m + 16 + y * W + x - (m + 16) = y * W + x := by omega
    rw [this]
    by_cases hyk : y < newH - H
    · have := cell_index_lt hx hyk
      rw [if_pos hyk, List.getD_append _ _ _ _ (by rw [List.length_replicate]; exact this),
        List.getD_eq_getElem?_getD, List.getElem?_replicate, if_pos this]
      rfl
    · have hge : (newH - H) * W ≤ y * W := Nat.mul_le_mul_right _ (Nat.le_of_not_lt hyk)
      have hyW : y * W = (newH - H) * W + (y - (newH - H)) * W := by
        rw [← Nat.add_mul]; congr 1; omega
      have hsub : y * W + x - (newH - H) * W = (y - (newH - H)) * W + x := by omega
      have hlt2 : (y - (newH - H)) * W + x < H * W := cell_index_lt hx (by omega)
      rw [if_neg hyk, List.getD_append_right _ _ _ _ (by rw [List.length_replicate]; omega),
        List.length_replicate, hsub, getD_readAt, if_pos hlt2]
      congr 1
      omega

/-- The header, the cells and the length of the archive written by a shrinking
`set_map_height`. -/
theorem set_map_height_shrink_core {f : List Nat} {m W H newH : Nat} (hm : HasMap f m W H)
    (hlt : newH < H) (hsz : (H - newH) * W < 4294967296) (h32 : newH < 4294967296) :
    ∃ g, set_map_height f newH = ⟨g, true, none⟩ ∧ HasMap g m W newH ∧
      g.length = m + 16 + W * newH ∧
      ∀ x y, x < W → y < newH →
        g.getD (m + 16 + y * W + x) 0 = f.getD (m + 16 + (y + (H - newH)) * W + x) 0 := by
  refine ⟨_, set_map_height_shrink_eq hm hlt hsz, ?_, ?_, ?_⟩
  · obtain ⟨h0, h12, hm16, hsig, hw, hh, hlen⟩ := hm
    refine ⟨?_, ?_, hm16, ?_, ?_, ?_, ?_⟩
    · rw [u32At_ftruncate _ _ _ (by omega),
        u32At_writeAt_of_le _ _ _ _ (by omega), u32At_writeAt_of_le _ _ _ _ (by omega),
        u32At_writeAt_of_le _ _ _ _ (by omega), h0]
    · rw [u32At_ftruncate _ _ _ (by omega),
        u32At_writeAt_of_le _ _ _ _ (by omega), u32At_writeAt_of_le _ _ _ _ (by omega),
        u32At_writeAt_of_le _ _ _ _ (by omega), h12]
    · rw [u32At_ftruncate _ _ _ (by omega),
        u32At_writeAt_of_le _ _ _ _ (by omega), u32At_writeAt_of_le _ _ _ _ (by omega),
        u32At_writeAt_of_le _ _ _ _ (by omega), hsig]
    · rw [u32At_ftruncate _ _ _ (by omega),
        u32At_writeAt_of_le _ _ _ _ (by omega), u32At_writeAt_of_le _ _ _ _ (by omega),
        u32At_writeAt_of_le _ _ _ _ (by omega), hw]
    · rw [u32At_ftruncate _ _ _ (by omega),
        u32At_writeAt_of_le _ _ _ _ (by omega), u32At_writeAt_of_le _ _ _ _ (by omega),
        u32At_le32, Nat.mod_eq_of_lt h32]
    · rw [length_ftruncate, Nat.mul_comm W newH]
  · rw [length_ftruncate, Nat.mul_comm W newH]
  · intro x y hx hy
    obtain ⟨h0, h12, hm16, hsig, hw, hh, hlen⟩ := hm
    have hidx := cell_index_lt hx hy
    have hsplit : (H - newH) * W + newH * W = W * H := by
      rw [← Nat.add_mul, Nat.mul_comm]
      congr 1
      omega
    rw [getD_ftruncate, if_pos (by omega), getD_writeAt, if_neg (by omega),
      if_pos (by rw [length_readAt]; omega)]
    have : m + 16 + y * W + x - (m + 16) = y * W + x := by omega
    rw [this, getD_readAt, if_pos hidx, Nat.add_mul]
    congr 1
    omega



/-- C9: on a well-formed archive, `set_map_height (H + k)` with `k > 0` makes the rows
`0 .. k-1` empty and moves the original cell `(x, y)` to `(x, y + k)`, so that the original
row 0 is row `k`. -/
theorem set_map_height_expand_rows (f : List Nat) (N W H k : Nat)
    (hwf : WellFormed f N W H) (hk : 0 < k) (h32 : H + k < 4294967296) :
    ∃ g, set_map_height f (H + k) = ⟨g, true, none⟩ ∧
      (∀ x y, x < W → y < k → cellAt g x y = some MAP_OBJECT_NONE) ∧
      (∀ x y, x < W → y < H → ∃ v, cellAt f x y = some v ∧ cellAt g x (y + k) = some v) := by
  obtain ⟨g, hg, hmg, hcell⟩ :=
    set_map_height_expand_core hwf.hasMap (Nat.lt_add_of_pos_right hk) h32
  have hsub : H + k - H = k := by omega
  refine ⟨g, hg, ?_, ?_⟩
  · intro x y hx hy
    rw [hmg.cellAt_eq hx (by omega), hcell x y hx (by omega), hsub, if_pos hy]
    rfl
  · intro x y hx hy
    refine ⟨_, hwf.hasMap.cellAt_eq hx hy, ?_⟩
    rw [hmg.cellAt_eq hx (by omega), hcell x (y + k) hx (by omega), hsub,
      if_neg (by omega), Nat.add_sub_cancel]

set_option maxRecDepth 100000 in
theorem set_map_height_expand_rows_witness :
    WellFormed sampleArchive 1 2 2 ∧
    ∃ g, set_map_height sampleArchive (2 + 1) = ⟨g, true, none⟩ ∧
      (∀ x y, x < 2 → y < 1 → cellAt g x y = some MAP_OBJECT_NONE) ∧
      (∀ x y, x < 2 → y < 2 →
        ∃ v, cellAt sampleArchive x y = some v ∧ cellAt g x (y + 1) = some v) :=
  ⟨by decide, set_map_height_expand_rows sampleArchive 1 2 2 1 (by decide) (by decide)
    (by decide)⟩

/-- C10: on a well-formed archive, `set_map_height` with a smaller height drops the leading
`H - newH` rows: the cell `(x, y)` holds the original cell `(x, y + (H - newH))`, and the file
has exactly `map block offset + 16 + W * newH` bytes. -/
theorem set_map_height_shrink_rows (f : List Nat) (N W H newH : Nat)
    (hwf : WellFormed f N W H) (hlt : newH < H) :
    ∃ g, set_map_height f newH = ⟨g, true, none⟩ ∧
      (∀ x y, x < W → y < newH →
        ∃ v, cellAt f x (y + (H - newH)) = some v ∧ cellAt g x y = some v) ∧
      g.length = u32At g 0xc + 16 + W * newH := by
  have hsz : (H - newH) * W < 4294967296 :=
    Nat.lt_of_le_of_lt (by rw [Nat.mul_comm W H]; exact Nat.mul_le_mul_right _ (Nat.sub_le _ _))
      hwf.size_lt
  obtain ⟨g, hg, hmg, hlen, hcell⟩ :=
    set_map_height_shrink_core hwf.hasMap hlt hsz (Nat.lt_trans hlt hwf.height_lt)
  refine ⟨g, hg, ?_, ?_⟩
  · intro x y hx hy
    refine ⟨_, hwf.hasMap.cellAt_eq hx (by omega), ?_⟩
    rw [hmg.cellAt_eq hx hy, hcell x y hx hy]
  · rw [hmg.2.1, hlen]

set_option maxRecDepth 100000 in
theorem set_map_height_shrink_rows_witness :
    WellFormed sampleArchive 1 2 2 ∧
    ∃ g, set_map_height sampleArchive 1 = ⟨g, true, none⟩ ∧
      (∀ x y, x < 2 → y < 1 →
        ∃ v, cellAt sampleArchive x (y + (2 - 1)) = some v ∧ cellAt g x y = some v) ∧
      g.length = u32At g 0xc + 16 + 2 * 1 :=
  ⟨by decide, set_map_height_shrink_rows sampleArchive 1 2 2 1 (by decide) (by decide)⟩




set_option maxRecDepth 1000000 in
/-- C2 (failing input): on the well-formed archive `sampleThree` (three catalog entries, cells
0, 2, empty, 2) `prune_objects` writes the catalog count 2 and leaves the cell `(1, 0)`, which
held index 2, at 2, although the rank of index 2 among the referenced indices 0 and 2 is 1. -/
theorem prune_objects_keeps_stale_index :
    WellFormed sampleThree 3 2 2 ∧ cellAt sampleThree 1 0 = some 2 ∧
    (prune_objects sampleThree).stop = none ∧
    u32At (prune_objects sampleThree).archive 4 = 2 ∧
    cellAt (prune_objects sampleThree).archive 1 0 = some 2 := by
  decide

set_option maxRecDepth 1000000 in
/-- C4 (failing input): on the well-formed archive `sampleArchive` (one catalog entry, 2 by 2
cells) `set_map_objects` with two definitions copies only 15 + 4 bytes of the 16 + 4 bytes of
the map block: the new file ends one byte early and the cell `(1, 1)` is gone. -/
theorem set_map_objects_drops_last_cell :
    WellFormed sampleArchive 1 2 2 ∧ cellAt sampleArchive 1 1 = some 0 ∧
    (set_map_objects sampleArchive sampleDefinitions).stop = none ∧
    u32At (set_map_objects sampleArchive sampleDefinitions).archive 0xc = 208 ∧
    (set_map_objects sampleArchive sampleDefinitions).archive.length = 208 + 15 + 4 ∧
    cellAt (set_map_objects sampleArchive sampleDefinitions).archive 1 1 = none := by
  decide

/-- C5: when the archive holds more catalog entries than there are new definitions,
`set_map_objects` returns without writing: the archive is byte-identical and the backup is
removed. -/
theorem set_map_objects_refusal (f : List Nat) (properties : List MapObjectProperties)
    (hlen : 8 ≤ f.length) (hsig : u32At f 0 = MARC_HEADER)
    (hlt : properties.length < u32At f 4) :
    set_map_objects f properties = ⟨f, false, none⟩ := by
  have r0 : read32 f 0 = .ok MARC_HEADER := by rw [read32_ok (by omega), hsig]
  have r4 : read32 f (0 + 4) = .ok (u32At f 4) := read32_ok (by omega)
  simp only [set_map_objects, set_map_objects_open, validate_marc_header, r0, r4, ne_eq,
    not_true_eq_false, if_false, gt_iff_lt, hlt, if_true]

set_option maxRecDepth 100000 in
theorem set_map_objects_refusal_witness :
    8 ≤ sampleThree.length ∧ u32At sampleThree 0 = MARC_HEADER ∧
    sampleDefinitions.length < u32At sampleThree 4 ∧
    set_map_objects sampleThree sampleDefinitions = ⟨sampleThree, false, none⟩ :=
  ⟨by decide, by decide, by decide,
    set_map_objects_refusal sampleThree sampleDefinitions (by decide) (by decide) (by decide)⟩

theorem forEach_cons {α σ ε : Type} (x : α) (xs : List α) (body : α → σ → Except ε σ) (s : σ) :
    forEach (x :: xs) body s =
      match body x s with
      | .error e => .error e
      | .ok t => forEach xs body t := rfl

theorem length_tableOf {α : Type} (record : α → List Nat) (L : Nat) (xs : List α)
    (h : ∀ x ∈ xs, (record x).length = L) : (tableOf record xs).length = L * xs.length := by
  induction xs with
  | nil => simp [tableOf]
  | cons x xs ih =>
    simp only [tableOf, List.length_append, List.length_cons,
      h x (List.mem_cons_self _ _), ih (fun y hy => h y (List.mem_cons_of_mem _ hy)),
      Nat.mul_succ]
    omega

theorem readAt_append_left (a b : List Nat) : readAt (a ++ b) 0 a.length = a := by
  simp [readAt]

theorem readAt_append_right (a b : List Nat) (p n : Nat) :
    readAt (a ++ b) (a.length + p) n = readAt b p n := by
  simp [readAt]

theorem readAt_tableOf {α : Type} (record : α → List Nat) (L : Nat) (xs : List α)
    (h : ∀ x ∈ xs, (record x).length = L) (i : Nat) (x : α) (hx : xs[i]? = some x) :
    readAt (tableOf record xs) (L * i) L = record x := by
  induction xs generalizing i with
  | nil => simp at hx
  | cons y ys ih =>
    have hy := h y (List.mem_cons_self _ _)
    cases i with
    | zero =>
      simp only [List.getElem?_cons_zero, Option.some.injEq] at hx
      subst hx
      rw [tableOf, Nat.mul_zero, ← hy, readAt]
      simp
    | succ j =>
      simp only [List.getElem?_cons_succ] at hx
      rw [tableOf, Nat.mul_succ, Nat.add_comm, ← hy, readAt_append_right, hy]
      exact ih (fun z hz => h z (List.mem_cons_of_mem _ hz)) j hx

theorem strcpy_zero (path : List Nat) (h : path.length ≤ 63) :
    strcpy (List.replicate 0x40 0) path = .ok (pathRecord path) := by
  have h1 : path.length + 1 ≤ (List.replicate 0x40 0).length := by
    rw [List.length_replicate]; omega
  rw [strcpy, if_pos h1, pathRecord]
  congr 1
  rw [List.drop_replicate, List.append_assoc]
  congr 1
  have : 0x40 - path.length = (0x40 - (path.length + 1)) + 1 := by omega
  rw [this, List.replicate_succ]
  rfl

theorem length_pathRecord (path : List Nat) (h : path.length ≤ 63) :
    (pathRecord path).length = 64 := by
  rw [pathRecord, List.length_append, List.length_replicate]
  omega

theorem length_tile_properties (p : MapObjectProperties) : (tile_properties p).length = 32 := rfl

theorem forEach_write_tile_path (properties : List MapObjectProperties) (s : Writer)
    (h : ∀ p ∈ properties, p.path.length ≤ 63) (hn : s.npos ≤ s.new.length) :
    forEach properties write_tile_path s =
      .ok ⟨writeAt s.new s.npos (tableOf (fun p => pathRecord p.path) properties),
        s.npos + 64 * properties.length⟩ := by
  induction properties generalizing s with
  | nil => simp [forEach, tableOf, writeAt_nil _ _ hn]
  | cons p ps ih =>
    have hp := h p (List.mem_cons_self _ _)
    rw [forEach_cons, write_tile_path, strcpy_zero _ hp]
    dsimp only
    rw [ih _ (fun q hq => h q (List.mem_cons_of_mem _ hq))
      (by dsimp only; rw [length_writeAt, length_pathRecord _ hp]; omega)]
    dsimp only
    have := writeAt_writeAt s.new s.npos (pathRecord p.path)
      (tableOf (fun p => pathRecord p.path) ps)
    rw [length_pathRecord _ hp] at this
    rw [this, tableOf, List.length_cons]
    congr 2
    omega

theorem forEach_write_tile_properties (properties : List MapObjectProperties) (s : Writer)
    (hn : s.npos ≤ s.new.length) :
    forEach properties write_tile_properties s =
      .ok ⟨writeAt s.new s.npos (tableOf tile_properties properties),
        s.npos + 32 * properties.length⟩ := by
  induction properties generalizing s with
  | nil => simp [forEach, tableOf, writeAt_nil _ _ hn]
  | cons p ps ih =>
    rw [forEach_cons, write_tile_properties]
    dsimp only
    rw [ih _ (by dsimp only; rw [length_writeAt, length_tile_properties]; omega)]
    dsimp only
    have := writeAt_writeAt s.new s.npos (tile_properties p) (tableOf tile_properties ps)
    rw [length_tile_properties] at this
    rw [this, tableOf, List.length_cons]
    congr 2
    omega

theorem readAt_writeAt_of_le (f : List Nat) (pos : Nat) (bs : List Nat) (p n : Nat)
    (h : p + n ≤ pos) (hlen : p + n ≤ f.length) :
    readAt (writeAt f pos bs) p n = readAt f p n := by
  apply ext_getD
  · simp only [length_readAt, length_writeAt]; omega
  · intro i
    simp only [getD_readAt, getD_writeAt]
    split_ifs <;> first | rfl | omega

theorem readAt_writeAt_of_ge (f : List Nat) (pos : Nat) (bs : List Nat) (p n : Nat)
    (h : pos + bs.length ≤ p) : readAt (writeAt f pos bs) p n = readAt f p n := by
  apply ext_getD
  · simp only [length_readAt, length_writeAt]; omega
  · intro i
    simp only [getD_readAt, getD_writeAt]
    split_ifs <;> first | rfl | omega

theorem readAt_writeAt_inside (f : List Nat) (pos : Nat) (bs : List Nat) (k n : Nat)
    (h : k + n ≤ bs.length) : readAt (writeAt f pos bs) (pos + k) n = readAt bs k n := by
  apply ext_getD
  · simp only [length_readAt, length_writeAt]; omega
  · intro i
    simp only [getD_readAt, getD_writeAt]
    split_ifs <;> first | rfl | omega | (congr 1; omega)

theorem set_map_objects_open_eq {f : List Nat} {m W H M : Nat} (hm : HasMap f m W H)
    (hle : u32At f 4 ≤ M) : set_map_objects_open f M = .ok (some ⟨m, W, H⟩) := by
  obtain ⟨h0, h12, hm16, hsig, hw, hh, hlen⟩ := hm
  have r0 : read32 f 0 = .ok MARC_HEADER := by rw [read32_ok (by omega), h0]
  have r4 : read32 f (0 + 4) = .ok (u32At f 4) := read32_ok (by omega)
  have r12 : read32 f 0xc = .ok m := by rw [read32_ok (by omega), h12]
  have rm : read32 f m = .ok MAPF_HEADER := by rw [read32_ok (by omega), hsig]
  have rw4 : read32 f (m + 4) = .ok W := by rw [read32_ok (by omega), hw]
  have rh : read32 f (m + 4 + 4) = .ok H := by rw [read32_ok (by omega), hh]
  simp only [set_map_objects_open, validate_marc_header, seek_mapf_header,
    validate_mapf_header, r0, r4, r12, rm, rw4, rh, ne_eq, not_true_eq_false, if_false,
    gt_iff_lt, Nat.not_lt.mpr hle]
  congr 3

/-- Closed form of `set_map_objects` when the catalog does not shrink: count, path table,
property-table offset, property table, map-block offset, then 15 bytes of map block header and
`H * W` further bytes of the backup. -/
theorem set_map_objects_eq {f : List Nat} {m W H : Nat} (properties : List MapObjectProperties)
    (hm : HasMap f m W H) (hle : u32At f 4 ≤ properties.length)
    (hpath : ∀ p ∈ properties, p.path.length ≤ 63)
    (hfit : 16 + 96 * properties.length < 4294967296) :
    set_map_objects f properties =
      ⟨writeAt (writeAt (writeAt (writeAt (writeAt (writeAt f 4 (le32 properties.length)) 16
        (tableOf (fun p => pathRecord p.path) properties)) 8
        (le32 (16 + 64 * properties.length))) (16 + 64 * properties.length)
        (tableOf tile_properties properties)) 12 (le32 (16 + 96 * properties.length)))
        (16 + 96 * properties.length) (readAt f m 15 ++ readAt f (m + 15) (H * W)),
        true, none⟩ := by
  have hopen := set_map_objects_open_eq hm hle
  obtain ⟨h0, h12, hm16, hsig, hw, hh, hlen⟩ := hm
  have hHW : H * W = W * H := Nat.mul_comm _ _
  have hl1 := length_tableOf (fun p : MapObjectProperties => pathRecord p.path) 64 properties
    (fun p hp => length_pathRecord _ (hpath p hp))
  have hl2 := length_tableOf tile_properties 32 properties
    (fun p _ => length_tile_properties p)
  have e1 := forEach_write_tile_path properties ⟨writeAt f 4 (le32 properties.length), 16⟩
    hpath (by dsimp only; simp only [length_writeAt, length_le32]; omega)
  dsimp only at e1
  have e2 := forEach_write_tile_properties properties
    ⟨writeAt (writeAt (writeAt f 4 (le32 properties.length)) 16
      (tableOf (fun p => pathRecord p.path) properties)) 8
      (le32 (16 + 64 * properties.length)), 16 + 64 * properties.length⟩
    (by dsimp only; simp only [length_writeAt, length_le32, hl1]; omega)
  dsimp only at e2
  have hrd : readExact f m 0xf = .ok (readAt f m 15) := by
    rw [readExact, if_pos (by omega)]
  obtain ⟨md, e3⟩ := forN_copy_cell f (H * W)
    ⟨m + 15, writeAt (writeAt (writeAt (writeAt (writeAt (writeAt f 4
        (le32 properties.length)) 16 (tableOf (fun p => pathRecord p.path) properties)) 8
        (le32 (16 + 64 * properties.length))) (16 + 64 * properties.length)
        (tableOf tile_properties properties)) 12 (le32 (16 + 96 * properties.length)))
        (16 + 96 * properties.length) (readAt f m 15), 16 + 96 * properties.length + 15, none⟩
    (by dsimp only; omega)
    (by dsimp only; simp only [length_writeAt, length_le32, hl1, hl2, length_readAt]; omega)
  dsimp only at e3
  have hmod1 : (16 + 64 * properties.length) % 4294967296 = 16 + 64 * properties.length :=
    Nat.mod_eq_of_lt (by omega)
  have hmod2 : (16 + 64 * properties.length + 32 * properties.length) % 4294967296
      = 16 + 96 * properties.length := by
    rw [Nat.mod_eq_of_lt (by omega)]; omega
  have hw15 := writeAt_writeAt (writeAt (writeAt (writeAt (writeAt (writeAt f 4
        (le32 properties.length)) 16 (tableOf (fun p => pathRecord p.path) properties)) 8
        (le32 (16 + 64 * properties.length))) (16 + 64 * properties.length)
        (tableOf tile_properties properties)) 12 (le32 (16 + 96 * properties.length)))
        (16 + 96 * properties.length) (readAt f m 15) (readAt f (m + 15) (H * W))
  rw [length_readAt, Nat.min_eq_left (by omega)] at hw15
  simp only [set_map_objects, hopen, set_map_objects_write, Nat.reduceAdd, e1, hmod1, e2, hmod2,
    copy_mapf_header, hrd, forN_forN, e3, hw15]

theorem lt_length_of_getElem? {α : Type} {l : List α} {k : Nat} {a : α}
    (h : l[k]? = some a) : k < l.length := by
  by_contra hn
  rw [List.getElem?_eq_none (Nat.le_of_not_lt hn)] at h
  cases h

/-- C6: on a well-formed archive with `N` entries, `set_map_objects` with `M ≥ N` definitions
whose paths have at most 63 characters (and whose layout fits the 32-bit offset fields) writes
the count `M`, the `i`-th path followed by zero bytes as the 64 bytes at `16 + 64 * i`, and the
words `0x10, frames, solidity, destructible, collectible, generator, 0, 0` as the `i`-th
property record. -/
theorem set_map_objects_catalog (f : List Nat) (N W H : Nat)
    (properties : List MapObjectProperties) (hwf : WellFormed f N W H)
    (hge : N ≤ properties.length) (hpath : ∀ p ∈ properties, p.path.length ≤ 63)
    (hfit : 16 + 96 * properties.length < 4294967296) :
    ∃ g, set_map_objects f properties = ⟨g, true, none⟩ ∧
      u32At g 4 = properties.length ∧
      ∀ i p, properties[i]? = some p →
        readAt g (16 + 64 * i) 64 = p.path ++ List.replicate (64 - p.path.length) 0 ∧
        readAt g (u32At g 8 + 32 * i) 32 =
          le32 0x10 ++ le32 p.frames ++ le32 p.solidity ++ le32 p.destructible
            ++ le32 p.collectible ++ le32 p.generator ++ le32 0 ++ le32 0 := by
  have hN : u32At f 4 ≤ properties.length := by rw [hwf.2.1]; exact hge
  have hl1 := length_tableOf (fun p : MapObjectProperties => pathRecord p.path) 64 properties
    (fun p hp => length_pathRecord _ (hpath p hp))
  have hl2 := length_tableOf tile_properties 32 properties
    (fun p _ => length_tile_properties p)
  have h8 : u32At (writeAt (writeAt (writeAt (writeAt (writeAt (writeAt f 4
      (le32 properties.length)) 16 (tableOf (fun p => pathRecord p.path) properties)) 8
      (le32 (16 + 64 * properties.length))) (16 + 64 * properties.length)
      (tableOf tile_properties properties)) 12 (le32 (16 + 96 * properties.length)))
      (16 + 96 * properties.length)
      (readAt f (16 + 96 * N) 15 ++ readAt f (16 + 96 * N + 15) (H * W))) 8
      = 16 + 64 * properties.length := by
    rw [u32At_writeAt_of_le _ _ _ _ (by omega), u32At_writeAt_of_le _ _ _ _ (by omega),
      u32At_writeAt_of_le _ _ _ _ (by omega), u32At_le32, Nat.mod_eq_of_lt (by omega)]
  refine ⟨_, set_map_objects_eq properties hwf.hasMap hN hpath hfit, ?_, ?_⟩
  · rw [u32At_writeAt_of_le _ _ _ _ (by omega), u32At_writeAt_of_le _ _ _ _ (by omega),
      u32At_writeAt_of_le _ _ _ _ (by omega), u32At_writeAt_of_le _ _ _ _ (by omega),
      u32At_writeAt_of_le _ _ _ _ (by omega), u32At_le32, Nat.mod_eq_of_lt (by omega)]
  · intro i p hp
    have hi := lt_length_of_getElem? hp
    constructor
    · rw [readAt_writeAt_of_le _ _ _ _ _ (by omega)
          (by simp only [length_writeAt, length_le32, hl1, hl2]; omega),
        readAt_writeAt_of_ge _ _ _ _ _ (by rw [length_le32]; omega),
        readAt_writeAt_of_le _ _ _ _ _ (by omega)
          (by simp only [length_writeAt, length_le32, hl1]; omega),
        readAt_writeAt_of_ge _ _ _ _ _ (by rw [length_le32]; omega),
        readAt_writeAt_inside _ _ _ _ _ (by rw [hl1]; omega),
        readAt_tableOf _ 64 properties (fun p hp => length_pathRecord _ (hpath p hp)) i p hp]
      rfl
    · rw [h8, readAt_writeAt_of_le _ _ _ _ _ (by omega)
          (by simp only [length_writeAt, length_le32, hl1, hl2]; omega),
        readAt_writeAt_of_ge _ _ _ _ _ (by rw [length_le32]; omega),
        readAt_writeAt_inside _ _ _ _ _ (by rw [hl2]; omega),
        readAt_tableOf _ 32 properties (fun p _ => length_tile_properties p) i p hp]
      rfl

set_option maxRecDepth 100000 in
theorem set_map_objects_catalog_witness :
    WellFormed sampleArchive 1 2 2 ∧ 1 ≤ sampleDefinitions.length ∧
    (∀ p ∈ sampleDefinitions, p.path.length ≤ 63) ∧
    ∃ g, set_map_objects sampleArchive sampleDefinitions = ⟨g, true, none⟩ ∧
      u32At g 4 = sampleDefinitions.length ∧
      ∀ i p, sampleDefinitions[i]? = some p →
        readAt g (16 + 64 * i) 64 = p.path ++ List.replicate (64 - p.path.length) 0 ∧
        readAt g (u32At g 8 + 32 * i) 32 =
          le32 0x10 ++ le32 p.frames ++ le32 p.solidity ++ le32 p.destructible
            ++ le32 p.collectible ++ le32 p.generator ++ le32 0 ++ le32 0 :=
  ⟨by decide, by decide, by decide,
    set_map_objects_catalog sampleArchive 1 2 2 sampleDefinitions (by decide) (by decide)
      (by decide) (by decide)⟩

theorem length_tally (used cs : List Nat) : (tally used cs).length = used.length := by
  induction cs generalizing used with
  | nil => rfl
  | cons c cs ih =>
    rw [tally, ih]
    split_ifs
    · rw [List.length_set]
    · rfl

theorem getD_set (l : List Nat) (i j v : Nat) (hi : i < l.length) :
    (l.set i v).getD j 0 = if j = i then v else l.getD j 0 := by
  simp only [List.getD_eq_getElem?_getD, List.getElem?_set]
  by_cases h : i = j
  · subst h
    simp [hi]
  · rw [if_neg h, if_neg (Ne.symm h)]

/-- Without overflow, the counter of `i` grows by the number of cells that hold `i`. -/
theorem getD_tally (used cs : List Nat) (i : Nat)
    (hcs : ∀ c ∈ cs, c = MAP_OBJECT_NONE ∨ c < used.length)
    (hb : ∀ j, used.getD j 0 + cs.length < 4294967296) :
    (tally used cs).getD i 0 =
      used.getD i 0 + (cs.filter (fun c => c ≠ MAP_OBJECT_NONE)).count i := by
  induction cs generalizing used with
  | nil => rfl
  | cons c cs ih =>
    have hc := hcs c (List.mem_cons_self _ _)
    rw [tally]
    by_cases hne : c = MAP_OBJECT_NONE
    · rw [if_neg (by simpa using hne), List.filter_cons_of_neg (by simpa using hne)]
      exact ih used (fun d hd => hcs d (List.mem_cons_of_mem _ hd))
        (fun j => by have := hb j; rw [List.length_cons] at this; omega)
    · have hlt : c < used.length := hc.resolve_left hne
      have hbc := hb c
      rw [List.length_cons] at hbc
      rw [if_pos hne, List.filter_cons_of_pos (by simpa using hne),
        Nat.mod_eq_of_lt (by omega)]
      have key := ih (used.set c (used.getD c 0 + 1))
        (fun d hd => by rw [List.length_set]; exact hcs d (List.mem_cons_of_mem _ hd))
        (fun j => by
          rw [getD_set _ _ _ _ hlt]
          have := hb j
          rw [List.length_cons] at this
          split_ifs with hj
          · omega
          · omega)
      rw [key, getD_set _ _ _ _ hlt]
      by_cases hic : i = c
      · subst hic
        rw [if_pos rfl, List.count_cons_self]
        omega
      · rw [if_neg hic, List.count_cons_of_ne hic]

theorem getD_replicate_zero (n i : Nat) : (List.replicate n 0).getD i 0 = 0 := by
  simp [List.getD_eq_getElem?_getD, List.getElem?_replicate]
  split_ifs <;> rfl

/-- After the count over cells that are empty or indices below `N`, a counter is nonzero exactly
for the indices held by some cell. -/
theorem tally_ne_zero_iff (N : Nat) (cs : List Nat) (i : Nat)
    (hcs : ∀ c ∈ cs, c = MAP_OBJECT_NONE ∨ c < N) (hlen : cs.length < 4294967296) :
    (tally (List.replicate N 0) cs).getD i 0 ≠ 0 ↔ (i ≠ MAP_OBJECT_NONE ∧ i ∈ cs) := by
  rw [getD_tally _ _ _ (by rw [List.length_replicate]; exact hcs)
    (fun j => by rw [getD_replicate_zero]; omega), getD_replicate_zero, Nat.zero_add,
    Nat.ne_zero_iff_zero_lt, List.count_pos_iff, List.mem_filter]
  simp [and_comm]
theorem valid_cell_cases {N c : Nat} (hc : c < 256)
    (h : c = MAP_OBJECT_NONE ∨ (0 ≤ charToInt c ∧ charToInt c < (N : Int))) :
    c = MAP_OBJECT_NONE ∨ (c < 128 ∧ c < N) := by
  rcases h with h | ⟨h0, h1⟩
  · exact Or.inl h
  · right
    unfold charToInt at h0 h1
    split_ifs at h0 h1 with hlt
    · exact ⟨hlt, by omega⟩
    · omega

theorem count_cell_eq (bak : List Nat) (N bpos : Nat) (used : List Nat) (md : Option Nat)
    (c : Nat) (hget : bak[bpos]? = some c) (hc : c = MAP_OBJECT_NONE ∨ (c < 128 ∧ c < N)) :
    count_cell bak N ⟨bpos, used, md⟩ =
      .ok ⟨bpos + 1, if c ≠ MAP_OBJECT_NONE then used.set c ((used.getD c 0 + 1) % 4294967296)
        else used, some c⟩ := by
  rcases hc with hc | ⟨h128, hN⟩
  · subst hc
    simp [count_cell, hget, charToInt, toChar, MAP_OBJECT_NONE]
  · have hne : c ≠ MAP_OBJECT_NONE := by unfold MAP_OBJECT_NONE; omega
    have h1 : charToInt c = (c : Int) := by rw [charToInt, if_pos h128]
    have h2 : charToInt (toChar MAP_OBJECT_NONE) = -1 := by decide
    have h3 : (c : Int) ≠ -1 := by omega
    have h4 : (0 : Int) ≤ (c : Int) ∧ (c : Int) < (N : Int) := ⟨by omega, by omega⟩
    simp only [count_cell, hget, h1, h2, ne_eq, h3, not_false_eq_true, if_true, h4, and_self,
      Int.toNat_ofNat, hne]

theorem forN_count_cell (bak : List Nat) (N k : Nat) (s : Count)
    (h : s.bpos + k ≤ bak.length)
    (hv : ∀ j < k, bak.getD (s.bpos + j) 0 = MAP_OBJECT_NONE ∨
      (bak.getD (s.bpos + j) 0 < 128 ∧ bak.getD (s.bpos + j) 0 < N)) :
    ∃ md, forN k (count_cell bak N) s =
      .ok ⟨s.bpos + k, tally s.used_tiles (readAt bak s.bpos k), md⟩ := by
  induction k generalizing s with
  | zero => exact ⟨s.map_data, by simp [forN, readAt_zero, tally]⟩
  | succ k ih =>
    have hb : s.bpos < bak.length := by omega
    have hget : bak[s.bpos]? = some (bak.getD s.bpos 0) := getElem?_eq_some_getD hb
    have hv0 := hv 0 (Nat.succ_pos _)
    rw [Nat.add_zero] at hv0
    obtain ⟨md, hmd⟩ := ih ⟨s.bpos + 1,
      if bak.getD s.bpos 0 ≠ MAP_OBJECT_NONE then
        s.used_tiles.set (bak.getD s.bpos 0)
          ((s.used_tiles.getD (bak.getD s.bpos 0) 0 + 1) % 4294967296)
      else s.used_tiles, some (bak.getD s.bpos 0)⟩ (by dsimp only; omega)
      (fun j hj => by
        dsimp only
        have := hv (j + 1) (by omega)
        rwa [← Nat.add_assoc, Nat.add_right_comm] at this)
    dsimp only at hmd
    refine ⟨md, ?_⟩
    rw [forN_succ]
    have := count_cell_eq bak N s.bpos s.used_tiles s.map_data _ hget hv0
    rw [this]
    dsimp only
    rw [hmd, readAt_succ _ _ _ hb, tally]
    congr 2
    omega

theorem WellFormed.cell_valid {f : List Nat} {N W H : Nat} (h : WellFormed f N W H)
    {k : Nat} (hk : k < W * H) :
    f.getD (16 + 96 * N + 16 + k) 0 = MAP_OBJECT_NONE ∨
      (f.getD (16 + 96 * N + 16 + k) 0 < 128 ∧ f.getD (16 + 96 * N + 16 + k) 0 < N) :=
  valid_cell_cases (getD_lt_256 h.1 _) (h.2.2.2.2.2.2 k hk)

theorem WellFormed.cellsOf_eq {f : List Nat} {N W H : Nat} (h : WellFormed f N W H) :
    cellsOf f = readAt f (16 + 96 * N + 16) (W * H) := by
  obtain ⟨h0, h12, hm16, hsig, hw, hh, hlen⟩ := h.hasMap
  rw [cellsOf, h12, hw, hh]

theorem WellFormed.mem_cellsOf {f : List Nat} {N W H : Nat} (h : WellFormed f N W H)
    {c : Nat} (hc : c ∈ cellsOf f) : c = MAP_OBJECT_NONE ∨ (c < 128 ∧ c < N) := by
  rw [h.cellsOf_eq] at hc
  obtain ⟨k, hk, rfl⟩ := List.mem_iff_getElem.mp hc
  have hlen := h.hasMap.2.2.2.2.2.2
  rw [length_readAt] at hk
  have hk2 : k < W * H := by omega
  have := h.cell_valid hk2
  have e : (readAt f (16 + 96 * N + 16) (W * H))[k] = f.getD (16 + 96 * N + 16 + k) 0 := by
    rw [← List.getD_eq_getElem _ 0, getD_readAt, if_pos hk2]
  rw [e]
  exact this

/-- The counting part of `prune_objects` on a well-formed archive. -/
theorem prune_objects_count_eq {f : List Nat} {N W H : Nat} (hwf : WellFormed f N W H) :
    ∃ md, prune_objects_count f =
      .ok ⟨N, tally (List.replicate N 0) (cellsOf f), W, H, md⟩ := by
  have hcells := hwf.cellsOf_eq
  obtain ⟨h0, h12, hm16, hsig, hw, hh, hlen⟩ := hwf.hasMap
  have r0 : read32 f 0 = .ok MARC_HEADER := by rw [read32_ok (by omega), h0]
  have r4 : read32 f (0 + 4) = .ok N := by rw [read32_ok (by omega), hwf.2.1]
  have r12 : read32 f 0xc = .ok (16 + 96 * N) := by rw [read32_ok (by omega), h12]
  have rm : read32 f (16 + 96 * N) = .ok MAPF_HEADER := by rw [read32_ok (by omega), hsig]
  have rw4 : read32 f (16 + 96 * N + 4) = .ok W := by rw [read32_ok (by omega), hw]
  have rh : read32 f (16 + 96 * N + 4 + 4) = .ok H := by rw [read32_ok (by omega), hh]
  obtain ⟨md, hmd⟩ := forN_count_cell f N (H * W)
    ⟨16 + 96 * N + 16, List.replicate N 0, none⟩
    (by dsimp only; rw [Nat.mul_comm H W]; omega)
    (fun j hj => by dsimp only; exact hwf.cell_valid (by rwa [Nat.mul_comm W H]))
  dsimp only at hmd
  refine ⟨md, ?_⟩
  simp only [prune_objects_count, validate_marc_header, seek_mapf_header, validate_mapf_header,
    r0, r4, r12, rm, rw4, rh, ne_eq, not_true_eq_false, if_false, forN_forN, hmd]
  rw [hcells, Nat.mul_comm W H]
theorem count_used_cons (u : Nat) (us : List Nat) :
    count_used (u :: us) = (if u ≠ 0 then 1 else 0) + count_used us := by
  unfold count_used
  by_cases h : u = 0
  · subst h; simp
  · rw [List.filter_cons_of_pos (by simpa using h), List.length_cons, if_pos h]
    omega

theorem count_used_le (us : List Nat) : count_used us ≤ us.length :=
  List.length_filter_le _ _

theorem length_keep (bak : List Nat) (pos size : Nat) (us : List Nat)
    (h : pos + size * us.length ≤ bak.length) :
    (keep bak pos size us).length = size * count_used us := by
  induction us generalizing pos with
  | nil => simp [keep, count_used]
  | cons u us ih =>
    rw [List.length_cons, Nat.mul_succ] at h
    rw [keep, List.length_append, ih (pos + size) (by omega), count_used_cons]
    split_ifs
    · rw [length_readAt, Nat.mul_add, Nat.mul_one]; omega
    · rw [List.length_nil, Nat.zero_add, Nat.zero_add]

theorem forEach_prune_path (bak : List Nat) (us : List Nat) (s : Records)
    (h : s.bpos + 64 * us.length ≤ bak.length) (hn : s.npos ≤ s.new.length) :
    forEach us (prune_path bak) s =
      .ok ⟨s.bpos + 64 * us.length, writeAt s.new s.npos (keep bak s.bpos 64 us),
        s.npos + 64 * count_used us⟩ := by
  induction us generalizing s with
  | nil => simp [forEach, keep, count_used, writeAt_nil _ _ hn]
  | cons u us ih =>
    rw [List.length_cons, Nat.mul_succ] at h
    have hr : readExact bak s.bpos 0x40 = .ok (readAt bak s.bpos 64) := by
      rw [readExact, if_pos (by omega)]
    have hl : (readAt bak s.bpos 64).length = 64 := by rw [length_readAt]; omega
    rw [forEach_cons, prune_path, count_used_cons, keep]
    by_cases hu : u = 0
    · subst hu
      simp only [ne_eq, not_true_eq_false, if_false, List.nil_append, Nat.zero_add]
      rw [ih ⟨s.bpos + 64, s.new, s.npos⟩ (by dsimp only; omega) hn]
      dsimp only
      rw [List.length_cons]
      congr 2
      omega
    · simp only [ne_eq, hu, not_false_eq_true, if_true, hr]
      rw [ih _ (by dsimp only; omega) (by dsimp only; rw [length_writeAt, hl]; omega)]
      dsimp only
      have := writeAt_writeAt s.new s.npos (readAt bak s.bpos 64) (keep bak (s.bpos + 64) 64 us)
      rw [hl] at this
      rw [this, List.length_cons]
      congr 2 <;> omega

theorem forEach_prune_properties (bak : List Nat) (us : List Nat) (s : Records)
    (h : s.bpos + 32 * us.length ≤ bak.length) (hn : s.npos ≤ s.new.length)
    (hsig : ∀ j < us.length, u32At bak (s.bpos + 32 * j) = OBJECT_PROPERTIES_HEADER) :
    forEach us (prune_properties bak) s =
      .ok ⟨s.bpos + 32 * us.length, writeAt s.new s.npos (keep bak s.bpos 32 us),
        s.npos + 32 * count_used us⟩ := by
  induction us generalizing s with
  | nil => simp [forEach, keep, count_used, writeAt_nil _ _ hn]
  | cons u us ih =>
    rw [List.length_cons, Nat.mul_succ] at h
    have hr : readExact bak s.bpos 0x20 = .ok (readAt bak s.bpos 32) := by
      rw [readExact, if_pos (by omega)]
    have hl : (readAt bak s.bpos 32).length = 32 := by rw [length_readAt]; omega
    have hs0 := hsig 0 (by rw [List.length_cons]; omega)
    rw [Nat.mul_zero, Nat.add_zero] at hs0
    have hv : validate_object_properties_header bak s.bpos = .ok (s.bpos + 4) := by
      rw [validate_object_properties_header, read32_ok (by omega), hs0]
      simp
    have hsig2 : ∀ j < us.length,
        u32At bak (s.bpos + 32 + 32 * j) = OBJECT_PROPERTIES_HEADER := by
      intro j hj
      have := hsig (j + 1) (by rw [List.length_cons]; omega)
      rwa [Nat.mul_succ, Nat.add_comm (32 * j) 32, ← Nat.add_assoc] at this
    rw [forEach_cons, prune_properties, hv, count_used_cons, keep]
    dsimp only
    rw [Nat.add_sub_cancel]
    by_cases hu : u = 0
    · subst hu
      simp only [ne_eq, not_true_eq_false, if_false, List.nil_append, Nat.zero_add]
      rw [ih ⟨s.bpos + 32, s.new, s.npos⟩ (by dsimp only; omega) hn
        (by dsimp only; exact hsig2)]
      dsimp only
      rw [List.length_cons]
      congr 2
      omega
    · simp only [ne_eq, hu, not_false_eq_true, if_true, hr]
      rw [ih _ (by dsimp only; omega) (by dsimp only; rw [length_writeAt, hl]; omega)
        (by dsimp only; exact hsig2)]
      dsimp only
      have := writeAt_writeAt s.new s.npos (readAt bak s.bpos 32) (keep bak (s.bpos + 32) 32 us)
      rw [hl] at this
      rw [this, List.length_cons]
      congr 2 <;> omega

theorem forN_prune_cell (bak : List Nat) (n d k : Nat) (s : Copy)
    (h : s.bpos + k ≤ bak.length) (hn : s.npos ≤ s.new.length) :
    ∃ md, forN k (prune_cell bak n d) s =
      .ok ⟨s.bpos + k, writeAt s.new s.npos ((readAt bak s.bpos k).map (renumber n d)),
        s.npos + k, md⟩ := by
  induction k generalizing s with
  | zero =>
    refine ⟨s.map_data, ?_⟩
    simp only [forN, readAt_zero, List.map_nil, writeAt_nil _ _ hn, Nat.add_zero]
  | succ k ih =>
    have hb : s.bpos < bak.length := by omega
    have hget : bak[s.bpos]? = some (bak.getD s.bpos 0) := getElem?_eq_some_getD hb
    obtain ⟨md, hmd⟩ := ih
      ⟨s.bpos + 1, writeAt s.new s.npos [renumber n d (bak.getD s.bpos 0)], s.npos + 1,
        some (renumber n d (bak.getD s.bpos 0))⟩
      (by dsimp only; omega)
      (by dsimp only; simp only [length_writeAt, List.length_cons, List.length_nil]; omega)
    dsimp only at hmd
    refine ⟨md, ?_⟩
    have hstep : prune_cell bak n d s = .ok ⟨s.bpos + 1,
        writeAt s.new s.npos [renumber n d (bak.getD s.bpos 0)], s.npos + 1,
        some (renumber n d (bak.getD s.bpos 0))⟩ := by
      simp only [prune_cell, read_map_data, hget, renumber]
    rw [forN_succ, hstep]
    dsimp only
    rw [hmd]
    have := writeAt_writeAt s.new s.npos [renumber n d (bak.getD s.bpos 0)]
      ((readAt bak (s.bpos + 1) k).map (renumber n d))
    simp only [List.length_cons, List.length_nil, List.singleton_append, Nat.zero_add] at this
    rw [readAt_succ _ _ _ hb, List.map_cons, this]
    congr 2 <;> omega
theorem WellFormed.layout_lt {f : List Nat} {N W H : Nat} (h : WellFormed f N W H) :
    16 + 96 * N < 4294967296 := by
  have := u32At_lt h.1 0xc
  rwa [h.hasMap.2.1] at this

theorem length_usedOf (f : List Nat) (N : Nat) : (usedOf f N).length = N := by
  rw [usedOf, length_tally, List.length_replicate]

/-- Closed form of `prune_objects` on a well-formed archive. -/
theorem prune_objects_eq {f : List Nat} {N W H : Nat} (hwf : WellFormed f N W H) :
    prune_objects f = ⟨prunedArchive f N W H, true, none⟩ := by
  obtain ⟨md, hcount⟩ := prune_objects_count_eq hwf
  have hfit := hwf.layout_lt
  have hsigs := hwf.2.2.2.1
  obtain ⟨h0, h12, hm16, hsig, hw, hh, hlen⟩ := hwf.hasMap
  have hul : (usedOf f N).length = N := length_usedOf f N
  have hn : count_used (usedOf f N) ≤ N := by
    have := count_used_le (usedOf f N); rwa [hul] at this
  have hk1 := length_keep f 16 64 (usedOf f N) (by rw [hul]; omega)
  have hk2 := length_keep f (16 + 64 * N) 32 (usedOf f N) (by rw [hul]; omega)
  have e1 := forEach_prune_path f (usedOf f N)
    ⟨16, writeAt f 4 (le32 (count_used (usedOf f N))), 16⟩
    (by dsimp only; rw [hul]; omega)
    (by dsimp only; simp only [length_writeAt, length_le32]; omega)
  dsimp only at e1
  rw [hul] at e1
  have e2 := forEach_prune_properties f (usedOf f N)
    ⟨16 + 64 * N, writeAt (writeAt (writeAt f 4 (le32 (count_used (usedOf f N)))) 16
      (keep f 16 64 (usedOf f N))) 8 (le32 (16 + 64 * count_used (usedOf f N))),
      16 + 64 * count_used (usedOf f N)⟩
    (by dsimp only; rw [hul]; omega)
    (by dsimp only; simp only [length_writeAt, length_le32, hk1]; omega)
    (by dsimp only; rw [hul]; exact hsigs)
  dsimp only at e2
  rw [hul] at e2
  have hbp : 16 + 64 * N + 32 * N = 16 + 96 * N := by omega
  rw [hbp] at e2
  have hrd : readExact f (16 + 96 * N) 0xf = .ok (readAt f (16 + 96 * N) 15) := by
    rw [readExact, if_pos (by omega)]
  have hHW : H * W = W * H := Nat.mul_comm _ _
  obtain ⟨md2, e3⟩ := forN_prune_cell f (count_used (usedOf f N))
    (toChar ((N + 4294967296 - count_used (usedOf f N)) % 4294967296)) (H * W)
    ⟨16 + 96 * N + 15, writeAt (writeAt (writeAt (writeAt (writeAt (writeAt f 4
      (le32 (count_used (usedOf f N)))) 16 (keep f 16 64 (usedOf f N))) 8
      (le32 (16 + 64 * count_used (usedOf f N)))) (16 + 64 * count_used (usedOf f N))
      (keep f (16 + 64 * N) 32 (usedOf f N))) 12 (le32 (16 + 96 * count_used (usedOf f N))))
      (16 + 96 * count_used (usedOf f N)) (readAt f (16 + 96 * N) 15),
      16 + 96 * count_used (usedOf f N) + 15, md⟩
    (by dsimp only; omega)
    (by dsimp only; simp only [length_writeAt, length_le32, hk1, hk2, length_readAt]; omega)
  dsimp only at e3
  have hmod1 : (16 + 64 * count_used (usedOf f N)) % 4294967296
      = 16 + 64 * count_used (usedOf f N) := Nat.mod_eq_of_lt (by omega)
  have hmod2 : (16 + 64 * count_used (usedOf f N) + 32 * count_used (usedOf f N)) % 4294967296
      = 16 + 96 * count_used (usedOf f N) := by
    rw [Nat.mod_eq_of_lt (by omega)]; omega
  have hw15 := writeAt_writeAt (writeAt (writeAt (writeAt (writeAt (writeAt f 4
      (le32 (count_used (usedOf f N)))) 16 (keep f 16 64 (usedOf f N))) 8
      (le32 (16 + 64 * count_used (usedOf f N)))) (16 + 64 * count_used (usedOf f N))
      (keep f (16 + 64 * N) 32 (usedOf f N))) 12 (le32 (16 + 96 * count_used (usedOf f N))))
      (16 + 96 * count_used (usedOf f N)) (readAt f (16 + 96 * N) 15)
      ((readAt f (16 + 96 * N + 15) (H * W)).map
        (renumber (count_used (usedOf f N))
          (toChar ((N + 4294967296 - count_used (usedOf f N)) % 4294967296))))
  rw [length_readAt, Nat.min_eq_left (by omega)] at hw15
  rw [usedOf] at *
  simp only [prune_objects, hcount, prune_objects_write, Nat.reduceAdd, e1, hmod1, e2, hmod2,
    copy_mapf_header, hrd, forN_forN, e3, hw15, prunedArchive, usedOf]
theorem keep_eq_tableOf (bak : List Nat) (pos size : Nat) (us : List Nat) (lo : Nat) :
    keep bak (pos + size * lo) size us =
      tableOf (fun i => readAt bak (pos + size * i) size)
        ((List.range' lo us.length).filter (fun i => decide (us.getD (i - lo) 0 ≠ 0))) := by
  induction us generalizing lo with
  | nil => simp [keep, tableOf]
  | cons u us ih =>
    have hcongr : (List.range' (lo + 1) us.length).filter
          (fun i => decide ((u :: us).getD (i - lo) 0 ≠ 0)) =
        (List.range' (lo + 1) us.length).filter
          (fun i => decide (us.getD (i - (lo + 1)) 0 ≠ 0)) := by
      apply List.filter_congr
      intro i hi
      rw [List.mem_range'_1] at hi
      have : i - lo = (i - (lo + 1)) + 1 := by omega
      rw [this, List.getD_cons_succ]
    have hpos : pos + size * lo + size = pos + size * (lo + 1) := by
      rw [Nat.mul_succ]; omega
    rw [keep, hpos, ih (lo + 1), List.length_cons, List.range'_succ]
    by_cases hu : u = 0
    · subst hu
      rw [List.filter_cons_of_neg (by simp), hcongr]
      simp
    · rw [List.filter_cons_of_pos (by simpa using hu), hcongr, tableOf, if_pos hu]

theorem count_used_eq_length (us : List Nat) (lo : Nat) :
    count_used us =
      ((List.range' lo us.length).filter (fun i => decide (us.getD (i - lo) 0 ≠ 0))).length := by
  induction us generalizing lo with
  | nil => simp [count_used]
  | cons u us ih =>
    have hcongr : (List.range' (lo + 1) us.length).filter
          (fun i => decide ((u :: us).getD (i - lo) 0 ≠ 0)) =
        (List.range' (lo + 1) us.length).filter
          (fun i => decide (us.getD (i - (lo + 1)) 0 ≠ 0)) := by
      apply List.filter_congr
      intro i hi
      rw [List.mem_range'_1] at hi
      have : i - lo = (i - (lo + 1)) + 1 := by omega
      rw [this, List.getD_cons_succ]
    rw [count_used_cons, ih (lo + 1), List.length_cons, List.range'_succ]
    by_cases hu : u = 0
    · subst hu
      rw [List.filter_cons_of_neg (by simp), hcongr]
      simp
    · rw [List.filter_cons_of_pos (by simpa using hu), hcongr, if_pos hu, List.length_cons]
      omega

theorem WellFormed.referenced_iff {f : List Nat} {N W H : Nat} (h : WellFormed f N W H)
    (i : Nat) : referenced f i = true ↔ (i ≠ MAP_OBJECT_NONE ∧ i ∈ cellsOf f) := by
  rw [referenced, List.any_eq_true]
  constructor
  · rintro ⟨c, hc, hp⟩
    simp only [Bool.and_eq_true, decide_eq_true_eq] at hp
    rcases h.mem_cellsOf hc with h1 | ⟨h128, _⟩
    · exact absurd h1 hp.1
    · have : charToInt c = (c : Int) := by rw [charToInt, if_pos h128]
      rw [this] at hp
      have hci : c = i := by exact_mod_cast hp.2
      subst hci
      exact ⟨hp.1, hc⟩
  · rintro ⟨hne, hi⟩
    refine ⟨i, hi, ?_⟩
    rcases h.mem_cellsOf hi with h1 | ⟨h128, _⟩
    · exact absurd h1 hne
    · simp only [Bool.and_eq_true, decide_eq_true_eq]
      exact ⟨hne, by rw [charToInt, if_pos h128]⟩

/-- On a well-formed archive the nonzero counters are those of the referenced indices. -/
theorem WellFormed.referencedIndices_eq {f : List Nat} {N W H : Nat} (h : WellFormed f N W H) :
    referencedIndices f =
      (List.range' 0 (usedOf f N).length).filter
        (fun i => decide ((usedOf f N).getD (i - 0) 0 ≠ 0)) := by
  rw [referencedIndices, h.2.1, length_usedOf, List.range_eq_range']
  apply List.filter_congr
  intro i _
  have hlen : (cellsOf f).length < 4294967296 := by
    rw [h.cellsOf_eq, length_readAt]
    exact Nat.lt_of_le_of_lt (Nat.min_le_left _ _) h.size_lt
  have key := tally_ne_zero_iff N (cellsOf f) i
    (fun c hc => (h.mem_cellsOf hc).imp_right (fun hh => hh.2)) hlen
  rw [Nat.sub_zero, usedOf]
  by_cases hr : referenced f i = true
  · rw [hr]
    exact (decide_eq_true (key.mpr ((h.referenced_iff i).mp hr))).symm
  · have hr2 : referenced f i = false := by simpa using hr
    rw [hr2]
    refine (decide_eq_false ?_).symm
    intro hne
    exact hr ((h.referenced_iff i).mpr (key.mp hne))
theorem readAt_ftruncate (f : List Nat) (k p n : Nat) (h : p + n ≤ k) (hlen : p + n ≤ f.length) :
    readAt (ftruncate f k) p n = readAt f p n := by
  apply ext_getD
  · simp only [length_readAt, length_ftruncate]; omega
  · intro i
    simp only [getD_readAt, getD_ftruncate]
    split_ifs <;> first | rfl | omega

theorem readAt_writeAt_le32_of_ge (f : List Nat) (pos v p n : Nat) (h : pos + 4 ≤ p) :
    readAt (writeAt f pos (le32 v)) p n = readAt f p n :=
  readAt_writeAt_of_ge f pos (le32 v) p n h

theorem readAt_self (bs : List Nat) : readAt bs 0 bs.length = bs := by
  simp [readAt]

/-- On an archive whose blocks follow one another and whose cells are read as signed `char`
indices (`WellFormed`), `prune_objects` writes as catalog count the number of referenced catalog
indices, and its path table and property table are exactly the 64-byte path records and 32-byte
property records of the referenced indices, in increasing index order. -/
theorem prune_objects_catalog (f : List Nat) (N W H : Nat) (hwf : WellFormed f N W H) :
    ∃ g, prune_objects f = ⟨g, true, none⟩ ∧
      u32At g 4 = (referencedIndices f).length ∧
      readAt g 16 (64 * (referencedIndices f).length) =
        tableOf (fun i => readAt f (16 + 64 * i) 64) (referencedIndices f) ∧
      readAt g (u32At g 8) (32 * (referencedIndices f).length) =
        tableOf (fun i => readAt f (u32At f 8 + 32 * i) 32) (referencedIndices f) := by
  have hfit := hwf.layout_lt
  have hul : (usedOf f N).length = N := length_usedOf f N
  have hn : count_used (usedOf f N) ≤ N := by
    have := count_used_le (usedOf f N); rwa [hul] at this
  have hlenf := hwf.hasMap.2.2.2.2.2.2
  have hk1 := length_keep f 16 64 (usedOf f N) (by rw [hul]; omega)
  have hk2 := length_keep f (16 + 64 * N) 32 (usedOf f N) (by rw [hul]; omega)
  have hcnt : (referencedIndices f).length = count_used (usedOf f N) := by
    rw [hwf.referencedIndices_eq, ← count_used_eq_length]
  have ht1 : tableOf (fun i => readAt f (16 + 64 * i) 64) (referencedIndices f)
      = keep f 16 64 (usedOf f N) := by
    rw [hwf.referencedIndices_eq, ← keep_eq_tableOf, Nat.mul_zero, Nat.add_zero]
  have ht2 : tableOf (fun i => readAt f (u32At f 8 + 32 * i) 32) (referencedIndices f)
      = keep f (16 + 64 * N) 32 (usedOf f N) := by
    rw [hwf.referencedIndices_eq, hwf.2.2.1, ← keep_eq_tableOf, Nat.mul_zero, Nat.add_zero]
  have h8 : u32At (prunedArchive f N W H) 8 = 16 + 64 * count_used (usedOf f N) := by
    rw [prunedArchive]
    rw [u32At_ftruncate _ _ _ (by omega), u32At_writeAt_of_le _ _ _ _ (by omega),
      u32At_writeAt_of_le _ _ _ _ (by omega), u32At_writeAt_of_le _ _ _ _ (by omega),
      u32At_le32, Nat.mod_eq_of_lt (by omega)]
  refine ⟨_, prune_objects_eq hwf, ?_, ?_, ?_⟩
  · rw [hcnt, prunedArchive]
    rw [u32At_ftruncate _ _ _ (by omega), u32At_writeAt_of_le _ _ _ _ (by omega),
      u32At_writeAt_of_le _ _ _ _ (by omega), u32At_writeAt_of_le _ _ _ _ (by omega),
      u32At_writeAt_of_le _ _ _ _ (by omega), u32At_writeAt_of_le _ _ _ _ (by omega),
      u32At_le32, Nat.mod_eq_of_lt (by omega)]
  · rw [ht1, hcnt, prunedArchive]
    rw [readAt_ftruncate _ _ _ _ (by omega)
        (by simp only [length_writeAt, length_le32, hk1, hk2]; omega),
      readAt_writeAt_of_le _ _ _ _ _ (by omega)
        (by simp only [length_writeAt, length_le32, hk1, hk2]; omega),
      readAt_writeAt_le32_of_ge _ _ _ _ _ (by omega),
      readAt_writeAt_of_le _ _ _ _ _ (by omega)
        (by simp only [length_writeAt, length_le32, hk1]; omega),
      readAt_writeAt_le32_of_ge _ _ _ _ _ (by omega), ← hk1]
    have := readAt_writeAt_inside (writeAt f 4 (le32 (count_used (usedOf f N)))) 16
      (keep f 16 64 (usedOf f N)) 0 (keep f 16 64 (usedOf f N)).length (by omega)
    rw [Nat.add_zero] at this
    rw [this, readAt_self]
  · rw [ht2, hcnt, h8, prunedArchive]
    rw [readAt_ftruncate _ _ _ _ (by omega)
        (by simp only [length_writeAt, length_le32, hk1, hk2]; omega),
      readAt_writeAt_of_le _ _ _ _ _ (by omega)
        (by simp only [length_writeAt, length_le32, hk1, hk2]; omega),
      readAt_writeAt_le32_of_ge _ _ _ _ _ (by omega), ← hk2]
    have := readAt_writeAt_inside (writeAt (writeAt (writeAt f 4
      (le32 (count_used (usedOf f N)))) 16 (keep f 16 64 (usedOf f N))) 8
      (le32 (16 + 64 * count_used (usedOf f N)))) (16 + 64 * count_used (usedOf f N))
      (keep f (16 + 64 * N) 32 (usedOf f N)) 0 (keep f (16 + 64 * N) 32 (usedOf f N)).length
      (by omega)
    rw [Nat.add_zero] at this
    rw [this, readAt_self]

set_option maxRecDepth 1000000 in
theorem prune_objects_catalog_witness :
    WellFormed sampleThree 3 2 2 ∧
    ∃ g, prune_objects sampleThree = ⟨g, true, none⟩ ∧
      u32At g 4 = (referencedIndices sampleThree).length ∧
      readAt g 16 (64 * (referencedIndices sampleThree).length) =
        tableOf (fun i => readAt sampleThree (16 + 64 * i) 64) (referencedIndices sampleThree) ∧
      readAt g (u32At g 8) (32 * (referencedIndices sampleThree).length) =
        tableOf (fun i => readAt sampleThree (u32At sampleThree 8 + 32 * i) 32)
          (referencedIndices sampleThree) :=
  ⟨by decide, prune_objects_catalog sampleThree 3 2 2 (by decide)⟩

theorem writeAt_length (f bs : List Nat) : writeAt f f.length bs = f ++ bs := by
  simp [writeAt]

theorem put_end (bs out : List Nat) (co : Nat) :
    put bs ⟨out, out.length, co⟩ = ⟨out ++ bs, (out ++ bs).length, co + bs.length⟩ := by
  simp [put, writeAt_length]

theorem forI_succ {σ ε : Type} (k : Nat) (body : Nat → σ → Except ε σ) (lo : Nat) (s : σ) :
    forI (k + 1) body lo s =
      match body lo s with
      | .error e => .error e
      | .ok t => forI k body (lo + 1) t := rfl

theorem length_pathRecords (buf : List Nat) (os : List TileDefinition)
    (hbuf : buf.length = 64) (h : ∀ o ∈ os, o.name.length ≤ 63) :
    ∀ r ∈ pathRecords buf os, r.length = 64 := by
  induction os generalizing buf with
  | nil => intro r hr; simp [pathRecords] at hr
  | cons o os ih =>
    have ho := h o (List.mem_cons_self _ _)
    have hl : (o.name ++ [0] ++ buf.drop (o.name.length + 1)).length = 64 := by
      simp only [List.length_append, List.length_cons, List.length_nil, List.length_drop, hbuf]
      omega
    intro r hr
    rw [pathRecords, List.mem_cons] at hr
    rcases hr with hr | hr
    · rw [hr, hl]
    · exact ih _ hl (fun q hq => h q (List.mem_cons_of_mem _ hq)) r hr

theorem forEach_save_tile_path (os : List TileDefinition) (out buf : List Nat) (co : Nat)
    (hbuf : buf.length = 64) (h : ∀ o ∈ os, o.name.length ≤ 63) :
    ∃ buf2, forEach os save_tile_path (⟨out, out.length, co⟩, buf) =
      .ok (⟨out ++ tableOf (fun r => r) (pathRecords buf os),
        (out ++ tableOf (fun r => r) (pathRecords buf os)).length, co + 64 * os.length⟩, buf2) := by
  induction os generalizing out buf co with
  | nil => exact ⟨buf, by simp [forEach, pathRecords, tableOf]⟩
  | cons o os ih =>
    have ho := h o (List.mem_cons_self _ _)
    have hl : (o.name ++ [0] ++ buf.drop (o.name.length + 1)).length = 64 := by
      simp only [List.length_append, List.length_cons, List.length_nil, List.length_drop, hbuf]
      omega
    have hs : strcpy buf o.name = .ok (o.name ++ [0] ++ buf.drop (o.name.length + 1)) := by
      rw [strcpy, if_pos (by omega)]
    obtain ⟨buf2, hb2⟩ := ih (out ++ (o.name ++ [0] ++ buf.drop (o.name.length + 1)))
      (o.name ++ [0] ++ buf.drop (o.name.length + 1)) (co + 64) hl
      (fun q hq => h q (List.mem_cons_of_mem _ hq))
    refine ⟨buf2, ?_⟩
    rw [forEach_cons, save_tile_path]
    dsimp only
    rw [hs]
    dsimp only
    rw [put_end, hl, hb2, pathRecords, tableOf, List.length_cons]
    simp only [List.append_assoc]
    congr 3
    omega

theorem forEach_save_attributes (os : List TileDefinition) (out : List Nat) (co : Nat) :
    forEach os (fun o s => (Except.ok (put (tile_attributes o) s) : Except Stop Saver))
        ⟨out, out.length, co⟩ =
      .ok ⟨out ++ tableOf tile_attributes os, (out ++ tableOf tile_attributes os).length,
        co + 32 * os.length⟩ := by
  induction os generalizing out co with
  | nil => simp [forEach, tableOf]
  | cons o os ih =>
    have hl : (tile_attributes o).length = 32 := rfl
    rw [forEach_cons]
    dsimp only
    rw [put_end, hl, ih, tableOf, List.length_cons]
    simp only [List.append_assoc]
    congr 2
    omega

theorem forI_save_row (m : Map) (j n lo : Nat) (out : List Nat) (co : Nat) :
    forI n (fun i s => (Except.ok (put [intToChar (m.cells i j)] s) : Except Stop Saver)) lo
        ⟨out, out.length, co⟩ =
      .ok ⟨out ++ rowBytes m j lo n, (out ++ rowBytes m j lo n).length, co + n⟩ := by
  induction n generalizing lo out co with
  | zero => simp [forI, rowBytes]
  | succ k ih =>
    rw [forI_succ]
    dsimp only
    rw [put_end, ih, rowBytes, rowBytes, List.range'_succ, List.map_cons]
    simp only [List.append_assoc, List.singleton_append, List.length_cons, List.length_nil]
    congr 2
    omega

theorem length_rowBytes (m : Map) (j lo n : Nat) : (rowBytes m j lo n).length = n := by
  simp [rowBytes]

theorem length_cellBytes (m : Map) (lo n : Nat) : (cellBytes m lo n).length = m.width * n := by
  have := length_tableOf (fun j => rowBytes m j 0 m.width) m.width (List.range' lo n)
    (fun j _ => length_rowBytes m j 0 m.width)
  rw [List.length_range'] at this
  exact this

theorem forI_save_rows (m : Map) (n lo : Nat) (out : List Nat) (co : Nat) :
    forI n (fun j s =>
        forI m.width (fun i s =>
          (Except.ok (put [intToChar (m.cells i j)] s) : Except Stop Saver)) 0 s) lo
        ⟨out, out.length, co⟩ =
      .ok ⟨out ++ cellBytes m lo n, (out ++ cellBytes m lo n).length, co + n * m.width⟩ := by
  induction n generalizing lo out co with
  | zero => simp [forI, cellBytes, tableOf]
  | succ k ih =>
    rw [forI_succ, forI_save_row]
    dsimp only
    rw [ih, cellBytes, cellBytes, List.range'_succ, tableOf, Nat.succ_mul]
    simp only [List.append_assoc]
    congr 2
    omega

theorem forN_save_zero (k : Nat) (out : List Nat) (co : Nat) :
    forN k (fun s => (Except.ok (put (le32 0) s) : Except Stop Saver)) ⟨out, out.length, co⟩ =
      .ok ⟨out ++ List.replicate (4 * k) 0, (out ++ List.replicate (4 * k) 0).length,
        co + 4 * k⟩ := by
  induction k generalizing out co with
  | zero => simp [forN]
  | succ k ih =>
    rw [forN_succ]
    dsimp only
    rw [put_end, ih]
    have h4 : le32 0 = List.replicate 4 0 := rfl
    have hk : 4 * (k + 1) = 4 + 4 * k := by omega
    rw [h4, hk, List.replicate_add]
    simp only [List.append_assoc, List.length_replicate]
    congr 2
    omega

theorem patch_offset_8 (a b c d v : Nat) (X : List Nat) :
    writeAt (le32 a ++ (le32 b ++ (le32 c ++ (le32 d ++ X)))) 0x8 (le32 v) =
      le32 a ++ (le32 b ++ (le32 v ++ (le32 d ++ X))) := by
  simp [writeAt, le32]

theorem patch_offset_c (a b c d v : Nat) (X : List Nat) :
    writeAt (le32 a ++ (le32 b ++ (le32 c ++ (le32 d ++ X)))) 0xc (le32 v) =
      le32 a ++ (le32 b ++ (le32 c ++ (le32 v ++ X))) := by
  simp [writeAt, le32]

/-- The file that `map_save` writes when every path fits its record. -/
theorem map_save_eq (m : Map) (h : ∀ o ∈ m.objects, o.name.length ≤ 63) :
    map_save m = .ok (savedFile m) := by
  have h0 : put (le32 0) (put (le32 0) (put (le32 m.objects.length)
      (put (le32 MARC_HEADER) ⟨[], 0, 0⟩))) =
      ⟨le32 MARC_HEADER ++ le32 m.objects.length ++ le32 0 ++ le32 0,
        (le32 MARC_HEADER ++ le32 m.objects.length ++ le32 0 ++ le32 0).length, 16⟩ := by
    simp [put, writeAt, le32]
  obtain ⟨buf2, e1⟩ := forEach_save_tile_path m.objects
    (le32 MARC_HEADER ++ le32 m.objects.length ++ le32 0 ++ le32 0) (List.replicate 0x40 0) 16
    (by simp) h
  simp only [List.append_assoc] at h0 e1
  have hco : 16 + 64 * m.objects.length + 32 * m.objects.length + 4 + 4 + 4 + 4
      + m.height * m.width
      = 16 + 64 * m.objects.length + 32 * m.objects.length + 16 + m.height * m.width := by
    omega
  simp only [map_save, h0, e1, patch_offset_8, patch_offset_c, List.append_assoc,
    forEach_save_attributes, put_end, forI_save_rows, length_le32, save_padding,
    forN_save_zero, hco, savedFile, paddingBytes]
  split_ifs <;> simp only [List.append_assoc, List.append_nil]

theorem load_cell_eq (f : List Nat) (y x : Nat) (s : Loader) (h : s.pos < f.length) :
    load_cell f y x s =
      .ok ⟨s.pos + 1, f.getD s.pos 0, map_set s.grid x y (charToInt (f.getD s.pos 0))⟩ := by
  simp only [load_cell, getElem?_eq_some_getD h]

theorem forI_load_row (f : List Nat) (y n lo : Nat) (s : Loader) (h : s.pos + n ≤ f.length) :
    ∃ md, forI n (load_cell f y) lo s =
      .ok ⟨s.pos + n, md, fun i j =>
        if j = y ∧ lo ≤ i ∧ i < lo + n then charToInt (f.getD (s.pos + (i - lo)) 0)
        else s.grid i j⟩ := by
  induction n generalizing lo s with
  | zero =>
    refine ⟨s.map_data, ?_⟩
    have : (fun i j => if j = y ∧ lo ≤ i ∧ i < lo + 0 then
        charToInt (f.getD (s.pos + (i - lo)) 0) else s.grid i j) = s.grid := by
      funext i j
      rw [if_neg (by omega)]
    rw [this]
    rfl
  | succ k ih =>
    obtain ⟨md, hmd⟩ := ih (lo + 1)
      ⟨s.pos + 1, f.getD s.pos 0, map_set s.grid lo y (charToInt (f.getD s.pos 0))⟩
      (by dsimp only; omega)
    dsimp only at hmd
    refine ⟨md, ?_⟩
    rw [forI_succ, load_cell_eq f y lo s (by omega)]
    dsimp only
    rw [hmd]
    congr 2
    · omega
    · funext i j
      simp only [map_set]
      by_cases hj : j = y
      · by_cases h1 : lo + 1 ≤ i ∧ i < lo + 1 + k
        · rw [if_pos ⟨hj, h1⟩, if_pos ⟨hj, by omega, by omega⟩]
          congr 2
          omega
        · rw [if_neg (fun hh => h1 hh.2)]
          by_cases h2 : i = lo
          · rw [if_pos ⟨h2, hj⟩, if_pos ⟨hj, by omega, by omega⟩, h2, Nat.sub_self,
              Nat.add_zero]
          · rw [if_neg (fun hh => h2 hh.1), if_neg (fun hh => by omega)]
      · rw [if_neg (fun hh => hj hh.1), if_neg (fun hh => hj hh.2), if_neg (fun hh => hj hh.1)]

theorem forI_load_rows (f : List Nat) (W h lo : Nat) (s : Loader)
    (hlen : s.pos + h * W ≤ f.length) :
    ∃ md, forI h (fun y s => forI W (load_cell f y) 0 s) lo s =
      .ok ⟨s.pos + h * W, md, fun i j =>
        if lo ≤ j ∧ j < lo + h ∧ i < W then charToInt (f.getD (s.pos + (j - lo) * W + i) 0)
        else s.grid i j⟩ := by
  induction h generalizing lo s with
  | zero =>
    refine ⟨s.map_data, ?_⟩
    have : (fun i j => if lo ≤ j ∧ j < lo + 0 ∧ i < W then
        charToInt (f.getD (s.pos + (j - lo) * W + i) 0) else s.grid i j) = s.grid := by
      funext i j
      rw [if_neg (by omega)]
    rw [this, Nat.zero_mul]
    rfl
  | succ k ih =>
    rw [Nat.succ_mul] at hlen
    obtain ⟨md1, h1⟩ := forI_load_row f lo W 0 s (by omega)
    obtain ⟨md, hmd⟩ := ih (lo + 1)
      ⟨s.pos + W, md1, fun i j =>
        if j = lo ∧ 0 ≤ i ∧ i < 0 + W then charToInt (f.getD (s.pos + (i - 0)) 0)
        else s.grid i j⟩ (by dsimp only; omega)
    dsimp only at hmd
    refine ⟨md, ?_⟩
    rw [forI_succ, h1]
    dsimp only
    rw [hmd, Nat.succ_mul]
    congr 2
    · omega
    · funext i j
      by_cases hi : i < W
      · by_cases h2 : lo + 1 ≤ j ∧ j < lo + 1 + k
        · have hjl : (j - lo) * W = W + (j - (lo + 1)) * W := by
            have : j - lo = (j - (lo + 1)) + 1 := by omega
            rw [this, Nat.succ_mul]; omega
          rw [if_pos ⟨h2.1, h2.2, hi⟩, if_pos ⟨by omega, by omega, hi⟩, hjl]
          congr 2
          omega
        · rw [if_neg (fun hh => h2 ⟨hh.1, hh.2.1⟩)]
          by_cases h3 : j = lo
          · rw [if_pos ⟨h3, by omega, by omega⟩, if_pos ⟨by omega, by omega, hi⟩, h3,
              Nat.sub_self, Nat.zero_mul, Nat.add_zero, Nat.sub_zero]
          · rw [if_neg (fun hh => h3 hh.1), if_neg (fun hh => by omega)]
      · rw [if_neg (fun hh => hi hh.2.2), if_neg (fun hh => by omega),
          if_neg (fun hh => hi hh.2.2)]

theorem readAt_add (f : List Nat) (p a b : Nat) :
    readAt f p (a + b) = readAt f p a ++ readAt f (p + a) b := by
  simp only [readAt, List.take_add, List.drop_drop]

theorem le_length_of_readAt {f B : List Nat} {p : Nat} (h : readAt f p B.length = B)
    (hpos : 0 < B.length) : p + B.length ≤ f.length := by
  have := congrArg List.length h
  rw [length_readAt] at this
  omega

theorem readAt_append_split {f A B : List Nat} {p : Nat}
    (h : readAt f p (A.length + B.length) = A ++ B) :
    readAt f p A.length = A ∧ readAt f (p + A.length) B.length = B := by
  have hl := congrArg List.length h
  rw [length_readAt, List.length_append] at hl
  rw [readAt_add] at h
  have h1 : (readAt f p A.length).length = A.length := by
    rw [length_readAt]; omega
  exact List.append_inj h h1

theorem u32At_of_readAt {f B : List Nat} {p : Nat} (h : readAt f p B.length = B) (k : Nat)
    (hk : k + 4 ≤ B.length) : u32At f (p + k) = u32At B k ∧ p + k + 4 ≤ f.length := by
  have hlen := le_length_of_readAt h (by omega)
  have hg : ∀ i, i < B.length → f.getD (p + i) 0 = B.getD i 0 := by
    intro i hi
    have := getD_readAt f p B.length i
    rw [h, if_pos hi] at this
    exact this.symm
  refine ⟨?_, by omega⟩
  simp only [u32At]
  rw [Nat.add_assoc p k 1, Nat.add_assoc p k 2, Nat.add_assoc p k 3, hg k (by omega),
    hg (k + 1) (by omega), hg (k + 2) (by omega), hg (k + 3) (by omega)]

theorem loadWord_ok {f : List Nat} {pos : Nat} (h : pos + 4 ≤ f.length) :
    loadWord f pos = .ok (u32At f pos) := by
  simp [loadWord, h]

theorem loadHeader_full (f : List Nat) (pos old : Nat) (h : pos + 4 ≤ f.length) :
    loadHeader f pos old = (u32At f pos, pos + 4) := by
  have hl : (readAt f pos 4).length = 4 := by rw [length_readAt]; omega
  have hd : (le32 old).drop 4 = [] := rfl
  simp only [loadHeader, hl, hd, List.append_nil]
  congr 1
  simp only [u32At, getD_readAt]
  simp

theorem load_paths_eq (f : List Nat) (recs : List (List Nat)) (pos : Nat)
    (hl : ∀ r ∈ recs, r.length = 64)
    (h : readAt f pos (64 * recs.length) = tableOf (fun r => r) recs) :
    load_paths f pos recs.length = .ok recs := by
  induction recs generalizing pos with
  | nil => rfl
  | cons r rs ih =>
    have hr := hl r (List.mem_cons_self _ _)
    have hrs : ∀ q ∈ rs, q.length = 64 := fun q hq => hl q (List.mem_cons_of_mem _ hq)
    have hlt := length_tableOf (fun r : List Nat => r) 64 rs hrs
    rw [List.length_cons, Nat.mul_succ, Nat.add_comm, tableOf] at h
    have h2 : readAt f pos (r.length + (tableOf (fun r => r) rs).length) =
        r ++ tableOf (fun r => r) rs := by rw [hr, hlt]; exact h
    obtain ⟨h3, h4⟩ := readAt_append_split h2
    have hle := le_length_of_readAt h3 (by omega)
    rw [hr] at h3 h4 hle
    rw [hlt] at h4
    rw [List.length_cons, load_paths, if_pos hle, ih (pos + 64) hrs h4, h3]

theorem cstring_eq (name rest : List Nat) (h : 0 ∉ name) :
    cstring (name ++ [0] ++ rest) = .ok name := by
  have hmem : 0 ∈ name ++ [0] ++ rest := by simp
  rw [cstring, if_pos hmem]
  congr 1
  induction name with
  | nil => simp
  | cons c cs ih =>
    have hc : c ≠ 0 := fun hc => h (by rw [hc]; exact List.mem_cons_self _ _)
    have hcs : 0 ∉ cs := fun hh => h (List.mem_cons_of_mem _ hh)
    simp only [List.cons_append, List.takeWhile_cons, ne_eq, hc, not_false_eq_true,
      decide_True, if_true]
    rw [ih hcs (by simp)]

theorem u32At_words (a b c d e g : Nat) :
    u32At (le32 a ++ le32 b ++ le32 c ++ le32 d ++ le32 e ++ le32 g ++ le32 0 ++ le32 0) 0
        = a % 4294967296 ∧
    u32At (le32 a ++ le32 b ++ le32 c ++ le32 d ++ le32 e ++ le32 g ++ le32 0 ++ le32 0) 4
        = b % 4294967296 ∧
    u32At (le32 a ++ le32 b ++ le32 c ++ le32 d ++ le32 e ++ le32 g ++ le32 0 ++ le32 0) 8
        = c % 4294967296 ∧
    u32At (le32 a ++ le32 b ++ le32 c ++ le32 d ++ le32 e ++ le32 g ++ le32 0 ++ le32 0) 12
        = d % 4294967296 ∧
    u32At (le32 a ++ le32 b ++ le32 c ++ le32 d ++ le32 e ++ le32 g ++ le32 0 ++ le32 0) 16
        = e % 4294967296 ∧
    u32At (le32 a ++ le32 b ++ le32 c ++ le32 d ++ le32 e ++ le32 g ++ le32 0 ++ le32 0) 20
        = g % 4294967296 := by
  simp only [le32, u32At, List.cons_append, List.nil_append, List.getD_cons_succ,
    List.getD_cons_zero, Nat.reduceAdd]
  refine ⟨?_, ?_, ?_, ?_, ?_, ?_⟩ <;> omega

theorem map_object_add_eq (o : TileDefinition) (hf : o.frames < 4294967296) :
    map_object_add o.name (u32At (tile_attributes o) 4)
      (u32At (tile_attributes o) 8 ||| u32At (tile_attributes o) 12
        ||| u32At (tile_attributes o) 16 ||| u32At (tile_attributes o) 20) = o := by
  obtain ⟨_, h4, h8, h12, h16, h20⟩ := u32At_words OBJECT_PROPERTIES_HEADER o.frames
    (map_get_solidity o) (if o.destructible then MAP_OBJECT_DESTRUCTIBLE else 0)
    (if o.collectible then MAP_OBJECT_COLLECTIBLE else 0)
    (if o.generator then MAP_OBJECT_GENERATOR else 0)
  rw [tile_attributes, h4, h8, h12, h16, h20, Nat.mod_eq_of_lt hf]
  obtain ⟨name, frames, sol, d, c, g⟩ := o
  cases sol <;> cases d <;> cases c <;> cases g <;>
    simp [map_object_add, map_get_solidity, MAP_OBJECT_AIR, MAP_OBJECT_SEMI_SOLID,
      MAP_OBJECT_SOLID, MAP_OBJECT_DESTRUCTIBLE, MAP_OBJECT_COLLECTIBLE, MAP_OBJECT_GENERATOR]

theorem length_tile_attributes (o : TileDefinition) : (tile_attributes o).length = 32 := rfl

theorem load_object_eq (f : List Nat) (o : TileDefinition) (rest : List Nat) (s : Catalog)
    (h : readAt f s.pos 32 = tile_attributes o) (hn : 0 ∉ o.name)
    (hf : o.frames < 4294967296) :
    load_object f (o.name ++ [0] ++ rest) s =
      .ok ⟨s.pos + 32, OBJECT_PROPERTIES_HEADER, s.objects ++ [o]⟩ := by
  have hB : readAt f s.pos (tile_attributes o).length = tile_attributes o := h
  obtain ⟨w0, b0⟩ := u32At_of_readAt hB 0 (by rw [length_tile_attributes]; omega)
  obtain ⟨w4, b4⟩ := u32At_of_readAt hB 4 (by rw [length_tile_attributes]; omega)
  obtain ⟨w8, b8⟩ := u32At_of_readAt hB 8 (by rw [length_tile_attributes]; omega)
  obtain ⟨w12, b12⟩ := u32At_of_readAt hB 12 (by rw [length_tile_attributes]; omega)
  obtain ⟨w16, b16⟩ := u32At_of_readAt hB 16 (by rw [length_tile_attributes]; omega)
  obtain ⟨w20, b20⟩ := u32At_of_readAt hB 20 (by rw [length_tile_attributes]; omega)
  have hsig : u32At (tile_attributes o) 0 = OBJECT_PROPERTIES_HEADER :=
    (u32At_words OBJECT_PROPERTIES_HEADER _ _ _ _ _).1
  rw [Nat.add_zero] at w0
  have e4 : s.pos + 4 + 4 = s.pos + 8 := by omega
  have e8 : s.pos + 4 + 8 = s.pos + 12 := by omega
  have e12 : s.pos + 4 + 12 = s.pos + 16 := by omega
  have e16 : s.pos + 4 + 16 = s.pos + 20 := by omega
  have e32 : s.pos + 4 + 20 + 8 = s.pos + 32 := by omega
  simp only [load_object, loadHeader_full f s.pos s.header (by omega), w0, hsig, ne_eq,
    not_true_eq_false, if_false, e4, e8, e12, e16, e32, loadWord_ok b4,
    loadWord_ok (show s.pos + 8 + 4 ≤ f.length by omega),
    loadWord_ok (show s.pos + 12 + 4 ≤ f.length by omega),
    loadWord_ok (show s.pos + 16 + 4 ≤ f.length by omega),
    loadWord_ok (show s.pos + 20 + 4 ≤ f.length by omega), w4, w8, w12, w16, w20,
    cstring_eq _ _ hn, map_object_add_eq o hf]

theorem forEach_load_object (f : List Nat) (os : List TileDefinition) (buf : List Nat)
    (s : Catalog) (hn : ∀ o ∈ os, 0 ∉ o.name) (hf : ∀ o ∈ os, o.frames < 4294967296)
    (h : readAt f s.pos (32 * os.length) = tableOf tile_attributes os) :
    ∃ hdr, forEach (pathRecords buf os) (load_object f) s =
      .ok ⟨s.pos + 32 * os.length, hdr, s.objects ++ os⟩ := by
  induction os generalizing buf s with
  | nil => exact ⟨s.header, by simp [forEach, pathRecords]⟩
  | cons o os ih =>
    have hlt := length_tableOf tile_attributes 32 os (fun p _ => length_tile_attributes p)
    rw [List.length_cons, Nat.mul_succ, Nat.add_comm, tableOf] at h
    have h2 : readAt f s.pos ((tile_attributes o).length + (tableOf tile_attributes os).length)
        = tile_attributes o ++ tableOf tile_attributes os := by
      rw [length_tile_attributes, hlt]; exact h
    obtain ⟨h3, h4⟩ := readAt_append_split h2
    rw [length_tile_attributes] at h3 h4
    rw [hlt] at h4
    obtain ⟨hdr, hh⟩ := ih (o.name ++ [0] ++ buf.drop (o.name.length + 1))
      ⟨s.pos + 32, OBJECT_PROPERTIES_HEADER, s.objects ++ [o]⟩
      (fun q hq => hn q (List.mem_cons_of_mem _ hq))
      (fun q hq => hf q (List.mem_cons_of_mem _ hq)) h4
    dsimp only at hh
    refine ⟨hdr, ?_⟩
    rw [pathRecords, forEach_cons,
      load_object_eq f o _ s h3 (hn o (List.mem_cons_self _ _)) (hf o (List.mem_cons_self _ _))]
    dsimp only
    rw [hh, List.length_cons, List.append_assoc, List.singleton_append]
    congr 2
    omega

theorem readAt_block {B X : List Nat} {n : Nat} (hn : n = B.length) :
    readAt (B ++ X) 0 n = B := by
  subst hn
  exact readAt_append_left B X

theorem readAt_skip {A X : List Nat} {p q n : Nat} (hp : p = A.length + q) :
    readAt (A ++ X) p n = readAt X q n := by
  subst hp
  exact readAt_append_right A X q n

theorem getD_of_readAt {f B : List Nat} {p : Nat} (h : readAt f p B.length = B) (k : Nat)
    (hk : k < B.length) : f.getD (p + k) 0 = B.getD k 0 := by
  have := getD_readAt f p B.length k
  rw [h, if_pos hk] at this
  exact this.symm

theorem getD_rowBytes (m : Map) (j i : Nat) (hi : i < m.width) :
    (rowBytes m j 0 m.width).getD i 0 = intToChar (m.cells i j) := by
  simp [rowBytes, List.getD_eq_getElem?_getD, List.getElem?_map, List.getElem?_range', hi]

theorem getD_cellBytes (m : Map) (i j : Nat) (hi : i < m.width) (hj : j < m.height) :
    (cellBytes m 0 m.height).getD (j * m.width + i) 0 = intToChar (m.cells i j) := by
  have hrow := readAt_tableOf (fun j => rowBytes m j 0 m.width) m.width
    (List.range' 0 m.height) (fun j _ => length_rowBytes m j 0 m.width) j j
    (by simp [List.getElem?_range', hj])
  have := getD_readAt (cellBytes m 0 m.height) (m.width * j) m.width i
  rw [if_pos hi] at this
  rw [Nat.mul_comm j m.width, ← this, cellBytes, hrow, getD_rowBytes m j i hi]

theorem length_pathRecords_eq (buf : List Nat) (os : List TileDefinition) :
    (pathRecords buf os).length = os.length := by
  induction os generalizing buf with
  | nil => rfl
  | cons o os ih => rw [pathRecords, List.length_cons, List.length_cons, ih]

theorem u32At_header (a b c d : Nat) :
    u32At (le32 a ++ le32 b ++ le32 c ++ le32 d) 0 = a % 4294967296 ∧
    u32At (le32 a ++ le32 b ++ le32 c ++ le32 d) 4 = b % 4294967296 ∧
    u32At (le32 a ++ le32 b ++ le32 c ++ le32 d) 8 = c % 4294967296 ∧
    u32At (le32 a ++ le32 b ++ le32 c ++ le32 d) 12 = d % 4294967296 := by
  simp only [le32, u32At, List.cons_append, List.nil_append, List.getD_cons_succ,
    List.getD_cons_zero, Nat.reduceAdd]
  refine ⟨?_, ?_, ?_, ?_⟩ <;> omega

theorem length_header (a b c d : Nat) : (le32 a ++ le32 b ++ le32 c ++ le32 d).length = 16 :=
  rfl

/-- What `map_load` builds from the file written by `map_save`: width, height and catalog of
the saved map, and in every cell the saved value cast to `char` and back. -/
theorem map_load_savedFile (m : Map) (map_data : Nat) (hrep : m.Representable)
    (hpath : ∀ o ∈ m.objects, o.name.length ≤ 63)
    (hfit : 16 + 96 * m.objects.length < 4294967296) :
    ∃ grid, map_load (savedFile m) map_data = .ok ⟨m.width, m.height, grid, m.objects⟩ ∧
      ∀ i j, i < m.width → j < m.height → grid i j = charToInt (intToChar (m.cells i j)) := by
  obtain ⟨hW, hH, hobj⟩ := hrep
  have hrecl := length_pathRecords (List.replicate 0x40 0) m.objects (by simp) hpath
  have hlP := length_tableOf (fun r : List Nat => r) 64
    (pathRecords (List.replicate 0x40 0) m.objects) hrecl
  rw [length_pathRecords_eq] at hlP
  have hlR := length_tableOf tile_attributes 32 m.objects (fun p _ => length_tile_attributes p)
  have hlC := length_cellBytes m 0 m.height
  have hlH := length_header MARC_HEADER m.objects.length
    ((16 + 64 * m.objects.length) % 4294967296)
    ((16 + 64 * m.objects.length + 32 * m.objects.length) % 4294967296)
  have hlM := length_header MAPF_HEADER m.width m.height (m.width * m.height % 4294967296)
  have bH : readAt (savedFile m) 0 (le32 MARC_HEADER ++ le32 m.objects.length
      ++ le32 ((16 + 64 * m.objects.length) % 4294967296)
      ++ le32 ((16 + 64 * m.objects.length + 32 * m.objects.length) % 4294967296)).length
      = le32 MARC_HEADER ++ le32 m.objects.length
      ++ le32 ((16 + 64 * m.objects.length) % 4294967296)
      ++ le32 ((16 + 64 * m.objects.length + 32 * m.objects.length) % 4294967296) :=
    readAt_append_left _ _
  have bP : readAt (savedFile m) 16 (64 * m.objects.length)
      = tableOf (fun r => r) (pathRecords (List.replicate 0x40 0) m.objects) := by
    rw [savedFile, readAt_skip (q := 0) (by omega)]
    exact readAt_block hlP.symm
  have bR : readAt (savedFile m) (16 + 64 * m.objects.length) (32 * m.objects.length)
      = tableOf tile_attributes m.objects := by
    rw [savedFile, readAt_skip (q := 64 * m.objects.length) (by omega),
      readAt_skip (q := 0) (by omega)]
    exact readAt_block hlR.symm
  have bM : readAt (savedFile m) (16 + 64 * m.objects.length + 32 * m.objects.length)
      (le32 MAPF_HEADER ++ le32 m.width ++ le32 m.height
        ++ le32 (m.width * m.height % 4294967296)).length
      = le32 MAPF_HEADER ++ le32 m.width ++ le32 m.height
        ++ le32 (m.width * m.height % 4294967296) := by
    rw [savedFile,
      readAt_skip (q := 64 * m.objects.length + 32 * m.objects.length)
        (by omega),
      readAt_skip (q := 32 * m.objects.length) (by omega),
      readAt_skip (q := 0) (by omega)]
    exact readAt_block rfl
  have bC : readAt (savedFile m) (16 + 64 * m.objects.length + 32 * m.objects.length + 16)
      (cellBytes m 0 m.height).length = cellBytes m 0 m.height := by
    rw [savedFile,
      readAt_skip (q := 64 * m.objects.length + 32 * m.objects.length + 16)
        (by omega),
      readAt_skip (q := 32 * m.objects.length + 16) (by omega),
      readAt_skip (q := 16) (by omega),
      readAt_skip (q := 0) (by omega)]
    exact readAt_block rfl
  have hlen : 16 + 64 * m.objects.length + 32 * m.objects.length + 16 + m.height * m.width
      ≤ (savedFile m).length := by
    simp only [savedFile, List.length_append, hlH, hlP, hlR, hlM, hlC]
    rw [Nat.mul_comm m.height m.width]
    omega
  -- the words of the two headers
  obtain ⟨hh0, hh4, _, hh12⟩ := u32At_header MARC_HEADER m.objects.length
    ((16 + 64 * m.objects.length) % 4294967296)
    ((16 + 64 * m.objects.length + 32 * m.objects.length) % 4294967296)
  obtain ⟨w0, _⟩ := u32At_of_readAt bH 0 (by omega)
  obtain ⟨w4, _⟩ := u32At_of_readAt bH 4 (by omega)
  obtain ⟨w12, _⟩ := u32At_of_readAt bH 12 (by omega)
  obtain ⟨hm0, hm4, hm8, _⟩ := u32At_header MAPF_HEADER m.width m.height
    (m.width * m.height % 4294967296)
  obtain ⟨v0, _⟩ := u32At_of_readAt bM 0 (by omega)
  obtain ⟨v4, _⟩ := u32At_of_readAt bM 4 (by omega)
  obtain ⟨v8, _⟩ := u32At_of_readAt bM 8 (by omega)
  have hmarc : MARC_HEADER % 4294967296 = MARC_HEADER := by decide
  have hmapf : MAPF_HEADER % 4294967296 = MAPF_HEADER := by decide
  rw [Nat.zero_add, hh0, hmarc] at w0
  rw [Nat.zero_add, hh4, Nat.mod_eq_of_lt (by omega)] at w4
  rw [Nat.zero_add, hh12, Nat.mod_mod, Nat.mod_eq_of_lt (by omega)] at w12
  rw [Nat.add_zero, hm0, hmapf] at v0
  rw [hm4, Nat.mod_eq_of_lt hW] at v4
  rw [hm8, Nat.mod_eq_of_lt hH] at v8
  have l0 : loadWord (savedFile m) 0 = .ok MARC_HEADER := by
    rw [loadWord_ok (by omega), w0]
  have l4 : loadWord (savedFile m) 4 = .ok m.objects.length := by
    rw [loadWord_ok (by omega), w4]
  have l8 : loadWord (savedFile m) 8 = .ok (u32At (savedFile m) 8) := loadWord_ok (by omega)
  have l12 : loadWord (savedFile m) 12 =
      .ok (16 + 64 * m.objects.length + 32 * m.objects.length) := by
    rw [loadWord_ok (by omega), w12]
  have lh := loadHeader_full (savedFile m)
    (16 + 64 * m.objects.length + 32 * m.objects.length) MARC_HEADER (by omega)
  rw [v0] at lh
  have lw : loadWord (savedFile m) (16 + 64 * m.objects.length + 32 * m.objects.length + 4)
      = .ok m.width := by rw [loadWord_ok (by omega), v4]
  have lht : loadWord (savedFile m)
      (16 + 64 * m.objects.length + 32 * m.objects.length + 4 + 4) = .ok m.height := by
    rw [loadWord_ok (by omega)]
    have : 16 + 64 * m.objects.length + 32 * m.objects.length + 4 + 4
        = 16 + 64 * m.objects.length + 32 * m.objects.length + 8 := by omega
    rw [this, v8]
  -- the three loops
  obtain ⟨md, hcells⟩ := forI_load_rows (savedFile m) m.width m.height 0
    ⟨16 + 64 * m.objects.length + 32 * m.objects.length + 4 + 4 + 4 + 0x4, map_data,
      map_allocate⟩
    (by dsimp only; omega)
  dsimp only at hcells
  have hpaths := load_paths_eq (savedFile m) (pathRecords (List.replicate 0x40 0) m.objects) 16
    hrecl (by rw [length_pathRecords_eq]; exact bP)
  rw [length_pathRecords_eq] at hpaths
  obtain ⟨hdr, hobjs⟩ := forEach_load_object (savedFile m) m.objects (List.replicate 0x40 0)
    ⟨0x10 + 0x40 * m.objects.length, MAPF_HEADER, []⟩
    (fun o ho h0 => by have := ((hobj o ho).2 0 h0).1; omega)
    (fun o ho => (hobj o ho).1) bR
  dsimp only at hobjs
  refine ⟨fun i j =>
    if 0 ≤ j ∧ j < 0 + m.height ∧ i < m.width then
      charToInt ((savedFile m).getD
        (16 + 64 * m.objects.length + 32 * m.objects.length + 4 + 4 + 4 + 0x4
          + (j - 0) * m.width + i) 0)
    else map_allocate i j, ?_, ?_⟩
  · simp only [map_load, l0, l4, l8, l12, lh, lw, lht, ne_eq, not_true_eq_false, if_false,
      hcells, hpaths, hobjs, List.nil_append]
  · intro i j hi hj
    have hidx := cell_index_lt hi hj
    have hc := getD_of_readAt bC (j * m.width + i) (by rw [hlC, Nat.mul_comm m.width m.height]; exact hidx)
    dsimp only
    rw [if_pos ⟨Nat.zero_le _, by omega, hi⟩, Nat.sub_zero, ← getD_cellBytes m i j hi hj, ← hc]
    congr 2
    omega

theorem charToInt_intToChar (v : Int) (h1 : -128 ≤ v) (h2 : v ≤ 127) :
    charToInt (intToChar v) = v := by
  unfold charToInt intToChar
  split_ifs <;> omega

/-- C1 (amended): for every in-memory map with `N ≥ 1` catalog entries whose paths have at most
63 characters, whose layout fits the 32-bit offsets and whose cell values lie between -128 and
127, `map_load` applied to the file written by `map_save` gives the same width, the same height,
the same value in every cell and the same catalog entries in the same order (whatever byte the
uninitialised `map_data` of `map_load` holds). -/
theorem map_load_map_save (m : Map) (map_data : Nat) (hrep : m.Representable)
    (_hN : 1 ≤ m.objects.length)
    (hpath : ∀ o ∈ m.objects, o.name.length ≤ 63)
    (hfit : 16 + 96 * m.objects.length < 4294967296)
    (hcell : ∀ x, x < m.width → ∀ y, y < m.height → -128 ≤ m.cells x y ∧ m.cells x y ≤ 127) :
    ∃ f m', map_save m = .ok f ∧ map_load f map_data = .ok m' ∧
      m'.width = m.width ∧ m'.height = m.height ∧
      (∀ x y, x < m.width → y < m.height → m'.cells x y = m.cells x y) ∧
      m'.objects = m.objects := by
  obtain ⟨grid, hload, hgrid⟩ := map_load_savedFile m map_data hrep hpath hfit
  refine ⟨savedFile m, _, map_save_eq m hpath, hload, rfl, rfl, ?_, rfl⟩
  intro x y hx hy
  have := hcell x hx y hy
  exact (hgrid x y hx hy).trans (charToInt_intToChar _ this.1 this.2)

set_option maxRecDepth 100000 in
theorem map_load_map_save_witness :
    sampleMap.Representable ∧ 1 ≤ sampleMap.objects.length ∧
    (∀ o ∈ sampleMap.objects, o.name.length ≤ 63) ∧
    (∀ x, x < sampleMap.width → ∀ y, y < sampleMap.height →
      -128 ≤ sampleMap.cells x y ∧ sampleMap.cells x y ≤ 127) ∧
    ∃ f m', map_save sampleMap = .ok f ∧ map_load f 170 = .ok m' ∧
      m'.width = sampleMap.width ∧ m'.height = sampleMap.height ∧
      (∀ x y, x < sampleMap.width → y < sampleMap.height →
        m'.cells x y = sampleMap.cells x y) ∧
      m'.objects = sampleMap.objects :=
  ⟨by decide, by decide, by decide, by decide,
    map_load_map_save sampleMap 170 (by decide) (by decide) (by decide) (by decide)
      (by decide)⟩

/-- C1 (counterexample): the in-memory map `wideCatalogMap` has 201 catalog entries and one
cell that holds the index 200; `map_save` stores the byte 200 and `map_load` reads it back
through a `char` as -56, not 200. -/
theorem map_load_map_save_loses_cell :
    wideCatalogMap.Representable ∧ 1 ≤ wideCatalogMap.objects.length ∧
    (∀ o ∈ wideCatalogMap.objects, o.name.length ≤ 63) ∧
    ∃ f m', map_save wideCatalogMap = .ok f ∧ map_load f 170 = .ok m' ∧
      wideCatalogMap.cells 0 0 = 200 ∧ m'.cells 0 0 = -56 := by
  have hrep : wideCatalogMap.Representable := by
    refine ⟨by decide, by decide, ?_⟩
    intro o ho
    rw [wideCatalogMap] at ho
    rw [List.eq_of_mem_replicate ho]
    decide
  have hpath : ∀ o ∈ wideCatalogMap.objects, o.name.length ≤ 63 := by
    intro o ho
    rw [wideCatalogMap] at ho
    rw [List.eq_of_mem_replicate ho]
    decide
  have hlen : wideCatalogMap.objects.length = 201 := by
    rw [wideCatalogMap]
    exact List.length_replicate _ _
  obtain ⟨grid, hload, hgrid⟩ := map_load_savedFile wideCatalogMap 170 hrep hpath
    (by rw [hlen]; decide)
  refine ⟨hrep, by rw [hlen]; decide, hpath, savedFile wideCatalogMap, _,
    map_save_eq wideCatalogMap hpath, hload, rfl, ?_⟩
  have := hgrid 0 0 (by decide) (by decide)
  show grid 0 0 = -56
  rw [this]
  decide

theorem set_map_width_open_same {f : List Nat} {m W H : Nat} (hm : HasMap f m W H) :
    set_map_width_open f W = .ok none := by
  obtain ⟨h0, h12, hm16, hsig, hw, hh, hlen⟩ := hm
  have r0 : read32 f 0 = .ok MARC_HEADER := by rw [read32_ok (by omega), h0]
  have r12 : read32 f 0xc = .ok m := by rw [read32_ok (by omega), h12]
  have rm : read32 f m = .ok MAPF_HEADER := by rw [read32_ok (by omega), hsig]
  have rw4 : read32 f (m + 4) = .ok W := by rw [read32_ok (by omega), hw]
  simp only [set_map_width_open, validate_marc_header, seek_mapf_header, validate_mapf_header,
    r0, r12, rm, rw4, ne_eq, not_true_eq_false, if_false, if_true]

theorem set_map_height_open_same {f : List Nat} {m W H : Nat} (hm : HasMap f m W H) :
    set_map_height_open f H = .ok none := by
  obtain ⟨h0, h12, hm16, hsig, hw, hh, hlen⟩ := hm
  have r0 : read32 f 0 = .ok MARC_HEADER := by rw [read32_ok (by omega), h0]
  have r12 : read32 f 0xc = .ok m := by rw [read32_ok (by omega), h12]
  have rm : read32 f m = .ok MAPF_HEADER := by rw [read32_ok (by omega), hsig]
  have rw4 : read32 f (m + 4) = .ok W := by rw [read32_ok (by omega), hw]
  have rh : read32 f (m + 4 + 4) = .ok H := by rw [read32_ok (by omega), hh]
  simp only [set_map_height_open, validate_marc_header, seek_mapf_header, validate_mapf_header,
    r0, r12, rm, rw4, rh, ne_eq, not_true_eq_false, if_false, if_true]

/-- C11: on a well-formed archive with a grid of `W` by `H` cells, `set_map_width` with `W` and
`set_map_height` with `H` return at their early exit: the archive keeps every byte and the
backup has been removed. -/
theorem set_map_size_same (f : List Nat) (N W H : Nat) (hwf : WellFormed f N W H) :
    set_map_width f W = ⟨f, false, none⟩ ∧ set_map_height f H = ⟨f, false, none⟩ := by
  constructor
  · simp only [set_map_width, set_map_width_open_same hwf.hasMap]
  · simp only [set_map_height, set_map_height_open_same hwf.hasMap]

set_option maxRecDepth 100000 in
theorem set_map_size_same_witness :
    WellFormed sampleArchive 1 2 2 ∧
    set_map_width sampleArchive 2 = ⟨sampleArchive, false, none⟩ ∧
    set_map_height sampleArchive 2 = ⟨sampleArchive, false, none⟩ :=
  ⟨by decide, set_map_size_same sampleArchive 1 2 2 (by decide)⟩

theorem HasMap.get_map_width_eq {f : List Nat} {m W H : Nat} (hm : HasMap f m W H) :
    get_map_width f = .ok W := by
  obtain ⟨h0, h12, hm16, hsig, hw, hh, hlen⟩ := hm
  have r0 : read32 f 0 = .ok MARC_HEADER := by rw [read32_ok (by omega), h0]
  have r12 : read32 f 0xc = .ok m := by rw [read32_ok (by omega), h12]
  have rm : read32 f m = .ok MAPF_HEADER := by rw [read32_ok (by omega), hsig]
  have rw4 : read32 f (m + 4) = .ok W := by rw [read32_ok (by omega), hw]
  simp only [get_map_width, validate_marc_header, seek_mapf_header, validate_mapf_header,
    r0, r12, rm, rw4, ne_eq, not_true_eq_false, if_false]

theorem HasMap.get_map_height_eq {f : List Nat} {m W H : Nat} (hm : HasMap f m W H) :
    get_map_height f = .ok H := by
  obtain ⟨h0, h12, hm16, hsig, hw, hh, hlen⟩ := hm
  have r0 : read32 f 0 = .ok MARC_HEADER := by rw [read32_ok (by omega), h0]
  have r12 : read32 f 0xc = .ok m := by rw [read32_ok (by omega), h12]
  have rm : read32 f m = .ok MAPF_HEADER := by rw [read32_ok (by omega), hsig]
  have rh : read32 f (m + 4 + 4) = .ok H := by rw [read32_ok (by omega), hh]
  simp only [get_map_height, validate_marc_header, seek_mapf_header, validate_mapf_header,
    r0, r12, rm, rh, ne_eq, not_true_eq_false, if_false, Nat.reduceAdd]

/-- C12: on a well-formed archive, `set_map_width` with `W + k` followed by `set_map_width`
with `W` leaves a grid of width `W` and height `H` in which every cell `(x, y)` with `x < W`
and `y < H` holds the value it had at the start. -/
theorem set_map_width_expand_shrink (f : List Nat) (N W H k : Nat)
    (hwf : WellFormed f N W H) (hk : 0 < k) (h32 : W + k < 4294967296) :
    ∃ g1 g2, set_map_width f (W + k) = ⟨g1, true, none⟩ ∧
      set_map_width g1 W = ⟨g2, true, none⟩ ∧
      get_map_width g2 = .ok W ∧ get_map_height g2 = .ok H ∧
      ∀ x y, x < W → y < H → ∃ v, cellAt f x y = some v ∧ cellAt g2 x y = some v := by
  have hlt : W < W + k := by omega
  obtain ⟨g1, hg1, hm1, hc1⟩ := set_map_width_expand_core hwf.hasMap hlt h32
  obtain ⟨g2, hg2, hm2, _, hc2⟩ := set_map_width_shrink_core hm1 hlt hwf.width_lt
  refine ⟨g1, g2, hg1, hg2, hm2.get_map_width_eq, hm2.get_map_height_eq, ?_⟩
  intro x y hx hy
  refine ⟨_, hwf.hasMap.cellAt_eq hx hy, ?_⟩
  rw [hm2.cellAt_eq hx hy, hc2 x y hx hy, hc1 x y (Nat.lt_trans hx hlt) hy, if_pos hx]

set_option maxRecDepth 100000 in
theorem set_map_width_expand_shrink_witness :
    WellFormed sampleArchive 1 2 2 ∧
    ∃ g1 g2, set_map_width sampleArchive (2 + 3) = ⟨g1, true, none⟩ ∧
      set_map_width g1 2 = ⟨g2, true, none⟩ ∧
      get_map_width g2 = .ok 2 ∧ get_map_height g2 = .ok 2 ∧
      ∀ x y, x < 2 → y < 2 → ∃ v, cellAt sampleArchive x y = some v ∧ cellAt g2 x y = some v :=
  ⟨by decide, set_map_width_expand_shrink sampleArchive 1 2 2 3 (by decide) (by decide)
    (by decide)⟩

/-- The header of the archive left by a `set_map_width` that changes the width. -/
theorem set_map_width_header {f : List Nat} {m W H newW : Nat} (hm : HasMap f m W H)
    (hne : newW ≠ W) (h32 : newW < 4294967296) :
    ∃ g, set_map_width f newW = ⟨g, true, none⟩ ∧ HasMap g m newW H ∧
      u32At g (m + 12) = newW * H % 4294967296 := by
  rcases Nat.lt_or_gt_of_ne hne with hlt | hgt
  · obtain ⟨g, hg, hmg, hlen, _⟩ := set_map_width_shrink_core hm hlt h32
    refine ⟨g, hg, hmg, ?_⟩
    have he := hg.symm.trans (set_map_width_shrink_eq hm hlt)
    injection he with he
    rw [he, u32At_ftruncate _ _ _ (by omega), u32At_writeAt_of_le _ _ _ _ (by omega),
      u32At_le32, Nat.mod_mod]
  · obtain ⟨g, hg, hmg, _⟩ := set_map_width_expand_core hm hgt h32
    refine ⟨g, hg, hmg, ?_⟩
    have he := hg.symm.trans (set_map_width_expand_eq hm hgt)
    injection he with he
    rw [he, u32At_writeAt_of_le _ _ _ _ (by omega), u32At_le32, Nat.mod_mod]

/-- The header of the archive left by a `set_map_height` that changes the height. -/
theorem set_map_height_header {f : List Nat} {m W H newH : Nat} (hm : HasMap f m W H)
    (hsz : W * H < 4294967296) (hne : newH ≠ H) (h32 : newH < 4294967296) :
    ∃ g, set_map_height f newH = ⟨g, true, none⟩ ∧ HasMap g m W newH ∧
      u32At g (m + 12) = W * newH % 4294967296 := by
  rcases Nat.lt_or_gt_of_ne hne with hlt | hgt
  · have hsk : (H - newH) * W < 4294967296 := by
      have : (H - newH) * W ≤ W * H := by
        rw [Nat.mul_comm W H]
        exact Nat.mul_le_mul_right W (Nat.sub_le H newH)
      omega
    obtain ⟨g, hg, hmg, hlen, _⟩ := set_map_height_shrink_core hm hlt hsk h32
    refine ⟨g, hg, hmg, ?_⟩
    have he := hg.symm.trans (set_map_height_shrink_eq hm hlt hsk)
    injection he with he
    rw [he, u32At_ftruncate _ _ _ (by omega), u32At_writeAt_of_le _ _ _ _ (by omega),
      u32At_le32, Nat.mod_mod]
  · obtain ⟨g, hg, hmg, _⟩ := set_map_height_expand_core hm hgt h32
    refine ⟨g, hg, hmg, ?_⟩
    have he := hg.symm.trans (set_map_height_expand_eq hm hgt)
    injection he with he
    rw [he, u32At_writeAt_of_le _ _ _ _ (by omega), u32At_le32, Nat.mod_mod]

/-- C13: on a well-formed archive with a grid of `W` by `H` cells, a `set_map_width` with
`newW ≠ W` leaves a map block header that reads width `newW`, height `H` and cell count
`newW * H` modulo `2^32`, and a `set_map_height` with `newH ≠ H` leaves one that reads width
`W`, height `newH` and cell count `W * newH` modulo `2^32`; `get_map_width` and
`get_map_height` return these values. -/
theorem set_map_size_header (f : List Nat) (N W H newW newH : Nat) (hwf : WellFormed f N W H)
    (hW : newW ≠ W) (hW32 : newW < 4294967296) (hH : newH ≠ H) (hH32 : newH < 4294967296) :
    (∃ g, set_map_width f newW = ⟨g, true, none⟩ ∧
      u32At g (u32At g 0xc + 4) = newW ∧ u32At g (u32At g 0xc + 8) = H ∧
      u32At g (u32At g 0xc + 12) = newW * H % 4294967296 ∧
      get_map_width g = .ok newW ∧ get_map_height g = .ok H) ∧
    (∃ g, set_map_height f newH = ⟨g, true, none⟩ ∧
      u32At g (u32At g 0xc + 4) = W ∧ u32At g (u32At g 0xc + 8) = newH ∧
      u32At g (u32At g 0xc + 12) = W * newH % 4294967296 ∧
      get_map_width g = .ok W ∧ get_map_height g = .ok newH) := by
  constructor
  · obtain ⟨g, hg, hmg, hsize⟩ := set_map_width_header hwf.hasMap hW hW32
    refine ⟨g, hg, ?_, ?_, ?_, hmg.get_map_width_eq, hmg.get_map_height_eq⟩
    · rw [hmg.2.1]; exact hmg.2.2.2.2.1
    · rw [hmg.2.1]; exact hmg.2.2.2.2.2.1
    · rw [hmg.2.1]; exact hsize
  · obtain ⟨g, hg, hmg, hsize⟩ := set_map_height_header hwf.hasMap hwf.size_lt hH hH32
    refine ⟨g, hg, ?_, ?_, ?_, hmg.get_map_width_eq, hmg.get_map_height_eq⟩
    · rw [hmg.2.1]; exact hmg.2.2.2.2.1
    · rw [hmg.2.1]; exact hmg.2.2.2.2.2.1
    · rw [hmg.2.1]; exact hsize

set_option maxRecDepth 100000 in
theorem set_map_size_header_witness :
    WellFormed sampleArchive 1 2 2 ∧
    (∃ g, set_map_width sampleArchive 5 = ⟨g, true, none⟩ ∧
      u32At g (u32At g 0xc + 4) = 5 ∧ u32At g (u32At g 0xc + 8) = 2 ∧
      u32At g (u32At g 0xc + 12) = 5 * 2 % 4294967296 ∧
      get_map_width g = .ok 5 ∧ get_map_height g = .ok 2) ∧
    (∃ g, set_map_height sampleArchive 1 = ⟨g, true, none⟩ ∧
      u32At g (u32At g 0xc + 4) = 2 ∧ u32At g (u32At g 0xc + 8) = 1 ∧
      u32At g (u32At g 0xc + 12) = 2 * 1 % 4294967296 ∧
      get_map_width g = .ok 2 ∧ get_map_height g = .ok 1) :=
  ⟨by decide, set_map_size_header sampleArchive 1 2 2 5 1 (by decide) (by decide) (by decide)
    (by decide) (by decide)⟩

theorem u32At_relaid_4 (f : List Nat) (n : Nat) (P R B : List Nat) (hn : n < 4294967296) :
    u32At (relaid f n P R B) 4 = n := by
  have h1 : ∀ (g bs : List Nat) (pos : Nat), 8 ≤ pos → u32At (writeAt g pos bs) 4 = u32At g 4 :=
    fun g bs pos hpos => u32At_writeAt_of_le g pos bs 4 (by omega)
  rw [relaid, h1 _ _ _ (by omega), h1 _ _ _ (by omega), h1 _ _ _ (by omega),
    h1 _ _ _ (by omega), h1 _ _ _ (by omega), u32At_le32, Nat.mod_eq_of_lt hn]

theorem u32At_relaid_8 (f : List Nat) (n : Nat) (P R B : List Nat)
    (hn : 16 + 64 * n < 4294967296) : u32At (relaid f n P R B) 8 = 16 + 64 * n := by
  have h1 : ∀ (g bs : List Nat) (pos : Nat), 12 ≤ pos → u32At (writeAt g pos bs) 8 = u32At g 8 :=
    fun g bs pos hpos => u32At_writeAt_of_le g pos bs 8 (by omega)
  rw [relaid, h1 _ _ _ (by omega), h1 _ _ _ (by omega), h1 _ _ _ (by omega), u32At_le32,
    Nat.mod_eq_of_lt hn]

theorem u32At_relaid_12 (f : List Nat) (n : Nat) (P R B : List Nat)
    (hn : 16 + 96 * n < 4294967296) : u32At (relaid f n P R B) 12 = 16 + 96 * n := by
  rw [relaid, u32At_writeAt_of_le _ _ _ _ (by omega), u32At_le32, Nat.mod_eq_of_lt hn]

theorem getD_relaid_table (f : List Nat) (n : Nat) (P R B : List Nat) (hR : R.length = 32 * n)
    (j : Nat) (hj : j < 32 * n) : (relaid f n P R B).getD (16 + 64 * n + j) 0 = R.getD j 0 := by
  rw [relaid, getD_writeAt_of_lt _ _ _ _ (by omega),
    getD_writeAt_of_ge _ _ _ _ (by rw [length_le32]; omega), getD_writeAt,
    if_neg (by omega), if_pos (by omega)]
  congr 1
  omega

theorem getD_relaid_block (f : List Nat) (n : Nat) (P R B : List Nat) (j : Nat)
    (hj : j < B.length) : (relaid f n P R B).getD (16 + 96 * n + j) 0 = B.getD j 0 := by
  rw [relaid, getD_writeAt, if_neg (by omega), if_pos (by omega)]
  congr 1
  omega

theorem u32At_relaid_table (f : List Nat) (n : Nat) (P R B : List Nat) (hR : R.length = 32 * n)
    (k : Nat) (hk : k + 4 ≤ 32 * n) :
    u32At (relaid f n P R B) (16 + 64 * n + k) = u32At R k := by
  have e0 := getD_relaid_table f n P R B hR k (by omega)
  have e1 := getD_relaid_table f n P R B hR (k + 1) (by omega)
  have e2 := getD_relaid_table f n P R B hR (k + 2) (by omega)
  have e3 := getD_relaid_table f n P R B hR (k + 3) (by omega)
  simp only [u32At, Nat.add_assoc] at *
  rw [e0, e1, e2, e3]

theorem u32At_relaid_block (f : List Nat) (n : Nat) (P R B : List Nat) (k : Nat)
    (hB : k + 4 ≤ B.length) : u32At (relaid f n P R B) (16 + 96 * n + k) = u32At B k := by
  have e0 := getD_relaid_block f n P R B k (by omega)
  have e1 := getD_relaid_block f n P R B (k + 1) (by omega)
  have e2 := getD_relaid_block f n P R B (k + 2) (by omega)
  have e3 := getD_relaid_block f n P R B (k + 3) (by omega)
  simp only [u32At, Nat.add_assoc] at *
  rw [e0, e1, e2, e3]

theorem u32At_readAt (f : List Nat) (p n k : Nat) (hk : k + 4 ≤ n) :
    u32At (readAt f p n) k = u32At f (p + k) := by
  simp only [u32At, getD_readAt, Nat.add_assoc]
  rw [if_pos (by omega), if_pos (by omega), if_pos (by omega), if_pos (by omega)]

theorem u32At_append_left (A B : List Nat) (k : Nat) (hk : k + 4 ≤ A.length) :
    u32At (A ++ B) k = u32At A k := by
  simp only [u32At]
  rw [List.getD_append _ _ _ _ (by omega), List.getD_append _ _ _ _ (by omega),
    List.getD_append _ _ _ _ (by omega), List.getD_append _ _ _ _ (by omega)]

theorem u32At_tableOf {α : Type} (record : α → List Nat) (L : Nat) (xs : List α)
    (h : ∀ x ∈ xs, (record x).length = L) (i : Nat) (x : α) (hx : xs[i]? = some x) (k : Nat)
    (hk : k + 4 ≤ L) : u32At (tableOf record xs) (L * i + k) = u32At (record x) k := by
  have hl := h x (List.getElem?_mem hx)
  have hr := readAt_tableOf record L xs h i x hx
  rw [← hl] at hr hk
  rw [← hl]
  exact (u32At_of_readAt hr k hk).1

/-- The signature of every record that `prune_objects` keeps in the property table. -/
theorem u32At_keep (bak : List Nat) (pos : Nat) (us : List Nat)
    (hlen : pos + 32 * us.length ≤ bak.length)
    (hsig : ∀ j < us.length, u32At bak (pos + 32 * j) = OBJECT_PROPERTIES_HEADER)
    (i : Nat) (hi : i < count_used us) :
    u32At (keep bak pos 32 us) (32 * i) = OBJECT_PROPERTIES_HEADER := by
  have hk := keep_eq_tableOf bak pos 32 us 0
  rw [Nat.mul_zero, Nat.add_zero] at hk
  rw [count_used_eq_length us 0] at hi
  have hmem := List.getElem_mem hi
  have hj : ((List.range' 0 us.length).filter (fun i => decide (us.getD (i - 0) 0 ≠ 0)))[i]
      < us.length := by
    have := (List.mem_filter.mp hmem).1
    rw [List.mem_range'_1] at this
    omega
  have hrec : ∀ x ∈ (List.range' 0 us.length).filter (fun i => decide (us.getD (i - 0) 0 ≠ 0)),
      (readAt bak (pos + 32 * x) 32).length = 32 := by
    intro x hx
    have := (List.mem_filter.mp hx).1
    rw [List.mem_range'_1] at this
    rw [length_readAt]
    omega
  have key := u32At_tableOf (fun i => readAt bak (pos + 32 * i) 32) 32 _ hrec i _
    (List.getElem?_eq_getElem hi) 0 (by omega)
  rw [Nat.add_zero] at key
  rw [hk, key, u32At_readAt _ _ _ _ (by omega), Nat.add_zero]
  exact hsig _ hj

theorem u32At_tile_properties (p : MapObjectProperties) :
    u32At (tile_properties p) 0 = OBJECT_PROPERTIES_HEADER := by
  rw [tile_properties, (u32At_words _ _ _ _ _ _).1]
  decide

/-- What holds of the header and of the block starts after the catalog has been rewritten in
place with `n` entries. -/
theorem relaid_offsets (f : List Nat) (n : Nat) (P R B : List Nat)
    (hfit : 16 + 96 * n < 4294967296) (hR : R.length = 32 * n)
    (hsigR : ∀ i < n, u32At R (32 * i) = OBJECT_PROPERTIES_HEADER)
    (hB : 4 ≤ B.length) (hsigB : u32At B 0 = MAPF_HEADER) :
    u32At (relaid f n P R B) 4 = n ∧ u32At (relaid f n P R B) 8 = 16 + 64 * n ∧
    u32At (relaid f n P R B) 12 = 16 + 96 * n ∧
    (∀ i < n, u32At (relaid f n P R B) (16 + 64 * n + 32 * i) = OBJECT_PROPERTIES_HEADER) ∧
    u32At (relaid f n P R B) (16 + 96 * n) = MAPF_HEADER := by
  refine ⟨u32At_relaid_4 f n P R B (by omega), u32At_relaid_8 f n P R B (by omega),
    u32At_relaid_12 f n P R B hfit, ?_, ?_⟩
  · intro i hi
    rw [u32At_relaid_table f n P R B hR (32 * i) (by omega)]
    exact hsigR i hi
  · have := u32At_relaid_block f n P R B 0 hB
    rw [Nat.add_zero] at this
    rw [this]
    exact hsigB

theorem set_map_objects_relaid {f : List Nat} {m W H : Nat}
    (properties : List MapObjectProperties) (hm : HasMap f m W H)
    (hle : u32At f 4 ≤ properties.length) (hpath : ∀ p ∈ properties, p.path.length ≤ 63)
    (hfit : 16 + 96 * properties.length < 4294967296) :
    set_map_objects f properties =
      ⟨relaid f properties.length (tableOf (fun p => pathRecord p.path) properties)
        (tableOf tile_properties properties) (readAt f m 15 ++ readAt f (m + 15) (H * W)),
        true, none⟩ :=
  set_map_objects_eq properties hm hle hpath hfit

theorem prunedArchive_relaid (f : List Nat) (N W H : Nat) :
    prunedArchive f N W H =
      ftruncate (relaid f (count_used (usedOf f N)) (keep f 16 64 (usedOf f N))
        (keep f (16 + 64 * N) 32 (usedOf f N))
        (readAt f (16 + 96 * N) 15 ++ (readAt f (16 + 96 * N + 15) (H * W)).map
          (renumber (count_used (usedOf f N))
            (toChar ((N + 4294967296 - count_used (usedOf f N)) % 4294967296)))))
        (16 + 96 * count_used (usedOf f N) + 15 + H * W) := rfl

/-- On an archive whose blocks follow one another (`WellFormed`), after `set_map_objects` with
`M ≥ N` definitions (paths of at most 63 characters, layout within the 32-bit offsets) and after
`prune_objects`, with `n` the catalog count that the file holds, the property-table offset field
is `16 + 64 * n`, the map-block offset field is `16 + 96 * n`, each of the `n` records of 32
bytes from the first offset on starts with the record signature, and the four bytes at the
second offset are the `MAPF` signature. -/
theorem catalog_offsets_exact (f : List Nat) (N W H : Nat)
    (properties : List MapObjectProperties) (hwf : WellFormed f N W H)
    (hge : N ≤ properties.length) (hpath : ∀ p ∈ properties, p.path.length ≤ 63)
    (hfit : 16 + 96 * properties.length < 4294967296) :
    (∃ g, set_map_objects f properties = ⟨g, true, none⟩ ∧ u32At g 4 = properties.length ∧
      u32At g 8 = 16 + 64 * u32At g 4 ∧ u32At g 0xc = 16 + 96 * u32At g 4 ∧
      (∀ i < u32At g 4, u32At g (u32At g 8 + 32 * i) = OBJECT_PROPERTIES_HEADER) ∧
      u32At g (u32At g 0xc) = MAPF_HEADER) ∧
    (∃ g, prune_objects f = ⟨g, true, none⟩ ∧ u32At g 4 ≤ N ∧
      u32At g 8 = 16 + 64 * u32At g 4 ∧ u32At g 0xc = 16 + 96 * u32At g 4 ∧
      (∀ i < u32At g 4, u32At g (u32At g 8 + 32 * i) = OBJECT_PROPERTIES_HEADER) ∧
      u32At g (u32At g 0xc) = MAPF_HEADER) := by
  obtain ⟨h0, h12, hm16, hsig, hw, hh, hlen⟩ := hwf.hasMap
  have hblock : ∀ rest : List Nat,
      u32At (readAt f (16 + 96 * N) 15 ++ rest) 0 = MAPF_HEADER := by
    intro rest
    rw [u32At_append_left _ _ _ (by rw [length_readAt]; omega),
      u32At_readAt _ _ _ _ (by omega), Nat.add_zero, hsig]
  have hb15 : ∀ rest : List Nat, 4 ≤ (readAt f (16 + 96 * N) 15 ++ rest).length := by
    intro rest
    rw [List.length_append, length_readAt]
    omega
  constructor
  · have hN : u32At f 4 ≤ properties.length := by rw [hwf.2.1]; exact hge
    have hrec : ∀ i < properties.length,
        u32At (tableOf tile_properties properties) (32 * i) = OBJECT_PROPERTIES_HEADER := by
      intro i hi
      have ht := u32At_tableOf tile_properties 32 properties
        (fun p _ => length_tile_properties p) i _ (List.getElem?_eq_getElem hi) 0 (by omega)
      rw [Nat.add_zero, u32At_tile_properties] at ht
      exact ht
    obtain ⟨a4, a8, ac, arec, ablk⟩ := relaid_offsets f properties.length
      (tableOf (fun p => pathRecord p.path) properties) (tableOf tile_properties properties)
      (readAt f (16 + 96 * N) 15 ++ readAt f (16 + 96 * N + 15) (H * W)) hfit
      (length_tableOf tile_properties 32 properties (fun p _ => length_tile_properties p))
      hrec (hb15 _) (hblock _)
    refine ⟨_, set_map_objects_relaid properties hwf.hasMap hN hpath hfit, a4, ?_, ?_, ?_, ?_⟩
    · rw [a8, a4]
    · rw [ac, a4]
    · intro i hi
      rw [a4] at hi
      rw [a8]
      exact arec i hi
    · rw [ac]
      exact ablk
  · have hfitN := hwf.layout_lt
    have hul : (usedOf f N).length = N := length_usedOf f N
    have hn : count_used (usedOf f N) ≤ N := by
      have := count_used_le (usedOf f N); rwa [hul] at this
    obtain ⟨a4, a8, ac, arec, ablk⟩ := relaid_offsets f (count_used (usedOf f N))
      (keep f 16 64 (usedOf f N)) (keep f (16 + 64 * N) 32 (usedOf f N))
      (readAt f (16 + 96 * N) 15 ++ (readAt f (16 + 96 * N + 15) (H * W)).map
        (renumber (count_used (usedOf f N))
          (toChar ((N + 4294967296 - count_used (usedOf f N)) % 4294967296)))) (by omega)
      (length_keep f (16 + 64 * N) 32 (usedOf f N) (by rw [hul]; omega))
      (u32At_keep f (16 + 64 * N) (usedOf f N) (by rw [hul]; omega)
        (by rw [hul]; exact hwf.2.2.2.1))
      (hb15 _) (hblock _)
    have g4 : u32At (prunedArchive f N W H) 4 = count_used (usedOf f N) := by
      rw [prunedArchive_relaid, u32At_ftruncate _ _ _ (by omega)]
      exact a4
    have g8 : u32At (prunedArchive f N W H) 8 = 16 + 64 * count_used (usedOf f N) := by
      rw [prunedArchive_relaid, u32At_ftruncate _ _ _ (by omega)]
      exact a8
    have gc : u32At (prunedArchive f N W H) 0xc = 16 + 96 * count_used (usedOf f N) := by
      rw [prunedArchive_relaid, u32At_ftruncate _ _ _ (by omega)]
      exact ac
    refine ⟨_, prune_objects_eq hwf, ?_, ?_, ?_, ?_, ?_⟩
    · rw [g4]; exact hn
    · rw [g8, g4]
    · rw [gc, g4]
    · intro i hi
      rw [g4] at hi
      rw [g8, prunedArchive_relaid, u32At_ftruncate _ _ _ (by omega)]
      exact arec i hi
    · rw [gc, prunedArchive_relaid, u32At_ftruncate _ _ _ (by omega)]
      exact ablk

set_option maxRecDepth 1000000 in
theorem catalog_offsets_exact_witness :
    WellFormed sampleArchive 1 2 2 ∧ 1 ≤ sampleDefinitions.length ∧
    (∀ p ∈ sampleDefinitions, p.path.length ≤ 63) ∧
    (∃ g, set_map_objects sampleArchive sampleDefinitions = ⟨g, true, none⟩ ∧
      u32At g 4 = sampleDefinitions.length ∧
      u32At g 8 = 16 + 64 * u32At g 4 ∧ u32At g 0xc = 16 + 96 * u32At g 4 ∧
      (∀ i < u32At g 4, u32At g (u32At g 8 + 32 * i) = OBJECT_PROPERTIES_HEADER) ∧
      u32At g (u32At g 0xc) = MAPF_HEADER) ∧
    (∃ g, prune_objects sampleArchive = ⟨g, true, none⟩ ∧ u32At g 4 ≤ 1 ∧
      u32At g 8 = 16 + 64 * u32At g 4 ∧ u32At g 0xc = 16 + 96 * u32At g 4 ∧
      (∀ i < u32At g 4, u32At g (u32At g 8 + 32 * i) = OBJECT_PROPERTIES_HEADER) ∧
      u32At g (u32At g 0xc) = MAPF_HEADER) :=
  ⟨by decide, by decide, by decide,
    catalog_offsets_exact sampleArchive 1 2 2 sampleDefinitions (by decide) (by decide)
      (by decide) (by decide)⟩

set_option maxRecDepth 1000000 in
/-- C15 (failing input): `sampleThree` is well formed with 3 catalog entries, so each of its
cells is the empty byte or an index below 3.  `prune_objects` leaves the catalog count 2 and the
cell `(1, 0)` at 2, which is neither the empty byte nor an index below 2. -/
theorem prune_objects_cell_outside_catalog :
    WellFormed sampleThree 3 2 2 ∧ (prune_objects sampleThree).stop = none ∧
    u32At (prune_objects sampleThree).archive 4 = 2 ∧
    cellAt (prune_objects sampleThree).archive 1 0 = some 2 ∧
    ¬ ((2 : Nat) = MAP_OBJECT_NONE ∨ (0 ≤ charToInt 2 ∧
      charToInt 2 < ((u32At (prune_objects sampleThree).archive 4 : Nat) : Int))) := by
  decide

/-- The catalog count that `prune_objects` writes when every index is referenced. -/
theorem count_used_of_referenced {f : List Nat} {N W H : Nat} (hwf : WellFormed f N W H)
    (hall : ∀ i < N, referenced f i = true) : count_used (usedOf f N) = N := by
  rw [count_used_eq_length (usedOf f N) 0, ← hwf.referencedIndices_eq, referencedIndices,
    hwf.2.1, List.filter_eq_self.mpr, List.length_range]
  intro i hi
  exact hall i (List.mem_range.mp hi)

theorem length_prunedArchive (f : List Nat) (N W H : Nat) :
    (prunedArchive f N W H).length = 16 + 96 * count_used (usedOf f N) + 15 + H * W := by
  rw [prunedArchive_relaid, length_ftruncate]

theorem u32At_prunedArchive_4 {f : List Nat} {N W H : Nat} (hwf : WellFormed f N W H) :
    u32At (prunedArchive f N W H) 4 = count_used (usedOf f N) := by
  have hn : count_used (usedOf f N) ≤ N := by
    have := count_used_le (usedOf f N); rwa [length_usedOf] at this
  have := hwf.layout_lt
  rw [prunedArchive_relaid, u32At_ftruncate _ _ _ (by omega)]
  exact u32At_relaid_4 _ _ _ _ _ (by omega)

/-- C16 (divergence): on a well-formed archive in which every catalog index is referenced,
`prune_objects` keeps the catalog count `N` but leaves a file of `16 + 96 * N + 15 + W * H`
bytes, shorter than the archive it was given, and the backup stays on disk: the call is not a
no-op. -/
theorem prune_objects_full_catalog (f : List Nat) (N W H : Nat) (hwf : WellFormed f N W H)
    (hall : ∀ i < N, referenced f i = true) :
    ∃ g, prune_objects f = ⟨g, true, none⟩ ∧ u32At g 4 = N ∧
      g.length = 16 + 96 * N + 15 + W * H ∧ g.length < f.length ∧ g ≠ f := by
  have hn := count_used_of_referenced hwf hall
  have hlen := length_prunedArchive f N W H
  rw [hn, Nat.mul_comm H W] at hlen
  have hf := hwf.hasMap.2.2.2.2.2.2
  refine ⟨_, prune_objects_eq hwf, ?_, hlen, by omega, ?_⟩
  · rw [u32At_prunedArchive_4 hwf, hn]
  · intro he
    rw [he] at hlen
    omega

set_option maxRecDepth 1000000 in
theorem prune_objects_full_catalog_witness :
    WellFormed sampleArchive 1 2 2 ∧ (∀ i < 1, referenced sampleArchive i = true) ∧
    ∃ g, prune_objects sampleArchive = ⟨g, true, none⟩ ∧ u32At g 4 = 1 ∧
      g.length = 16 + 96 * 1 + 15 + 2 * 2 ∧ g.length < sampleArchive.length ∧
      g ≠ sampleArchive :=
  ⟨by decide, by decide, prune_objects_full_catalog sampleArchive 1 2 2 (by decide) (by decide)⟩

set_option maxRecDepth 1000000 in
/-- C17 (failing input): `sampleTwo` is well formed with 2 catalog entries, both referenced.
One `prune_objects` leaves the catalog count 2; a second one on the result leaves the catalog
count 1, so pruning twice does not give the archive that pruning once gives. -/
theorem prune_objects_twice_differs :
    WellFormed sampleTwo 2 2 2 ∧ (prune_objects sampleTwo).stop = none ∧
    u32At (prune_objects sampleTwo).archive 4 = 2 ∧
    (prune_objects (prune_objects sampleTwo).archive).stop = none ∧
    u32At (prune_objects (prune_objects sampleTwo).archive).archive 4 = 1 ∧
    (prune_objects (prune_objects sampleTwo).archive).archive
      ≠ (prune_objects sampleTwo).archive := by
  decide

/-- C18 (divergence): on a well-formed archive, `prune_objects` leaves a file whose length is
`16 + 64 * n + 32 * n + 15 + W * H`, with `n` the catalog count it wrote: one byte less than the
size of a complete archive, and the last cell of the grid is not in the file. -/
theorem prune_objects_drops_last_byte (f : List Nat) (N W H : Nat) (hwf : WellFormed f N W H) :
    ∃ g, prune_objects f = ⟨g, true, none⟩ ∧
      g.length = 16 + 64 * u32At g 4 + 32 * u32At g 4 + 15 + W * H ∧
      ∀ x y, x < W → y < H → y * W + x + 1 = W * H → cellAt g x y = none := by
  have hn : count_used (usedOf f N) ≤ N := by
    have := count_used_le (usedOf f N); rwa [length_usedOf] at this
  have hfit := hwf.layout_lt
  obtain ⟨h0, h12, hm16, hsig, hw, hh, hlenf⟩ := hwf.hasMap
  have hlen := length_prunedArchive f N W H
  rw [Nat.mul_comm H W] at hlen
  have g4 := u32At_prunedArchive_4 hwf
  have gc : u32At (prunedArchive f N W H) 0xc = 16 + 96 * count_used (usedOf f N) := by
    rw [prunedArchive_relaid, u32At_ftruncate _ _ _ (by omega)]
    exact u32At_relaid_12 _ _ _ _ _ (by omega)
  have gw : u32At (prunedArchive f N W H) (16 + 96 * count_used (usedOf f N) + 4) = W := by
    rw [prunedArchive_relaid, u32At_ftruncate _ _ _ (by omega),
      u32At_relaid_block _ _ _ _ _ 4 (by rw [List.length_append, length_readAt]; omega),
      u32At_append_left _ _ _ (by rw [length_readAt]; omega),
      u32At_readAt _ _ _ _ (by omega), hw]
  refine ⟨_, prune_objects_eq hwf, ?_, ?_⟩
  · rw [g4, hlen]
    omega
  · intro x y _ _ hlast
    rw [cellAt, gc, gw]
    apply List.getElem?_eq_none
    rw [hlen]
    omega

set_option maxRecDepth 1000000 in
theorem prune_objects_drops_last_byte_witness :
    WellFormed sampleArchive 1 2 2 ∧
    ∃ g, prune_objects sampleArchive = ⟨g, true, none⟩ ∧
      g.length = 16 + 64 * u32At g 4 + 32 * u32At g 4 + 15 + 2 * 2 ∧
      ∀ x y, x < 2 → y < 2 → y * 2 + x + 1 = 2 * 2 → cellAt g x y = none :=
  ⟨by decide, prune_objects_drops_last_byte sampleArchive 1 2 2 (by decide)⟩

theorem readAt_readAt (f : List Nat) (p n q k : Nat) (h : q + k ≤ n) :
    readAt (readAt f p n) q k = readAt f (p + q) k := by
  apply ext_getD
  · simp only [length_readAt]; omega
  · intro i
    simp only [getD_readAt, Nat.add_assoc]
    split_ifs <;> first | rfl | omega

theorem getElem?_pathRecords (buf : List Nat) (os : List TileDefinition) (i : Nat)
    (o : TileDefinition) (h : os[i]? = some o) :
    ∃ rest, (pathRecords buf os)[i]? = some (o.name ++ [0] ++ rest) := by
  induction os generalizing buf i with
  | nil => simp at h
  | cons a as ih =>
    cases i with
    | zero =>
      simp only [List.getElem?_cons_zero, Option.some.injEq] at h
      subst h
      exact ⟨_, by rw [pathRecords, List.getElem?_cons_zero]⟩
    | succ j =>
      simp only [List.getElem?_cons_succ] at h
      obtain ⟨rest, hr⟩ := ih (a.name ++ [0] ++ buf.drop (a.name.length + 1)) j h
      exact ⟨rest, by rw [pathRecords, List.getElem?_cons_succ]; exact hr⟩

/-- The five blocks of the file written by `map_save`, each at its position. -/
theorem savedFile_blocks (m : Map) (hpath : ∀ o ∈ m.objects, o.name.length ≤ 63) :
    readAt (savedFile m) 0 (le32 MARC_HEADER ++ le32 m.objects.length
        ++ le32 ((16 + 64 * m.objects.length) % 4294967296)
        ++ le32 ((16 + 64 * m.objects.length + 32 * m.objects.length) % 4294967296)).length
      = le32 MARC_HEADER ++ le32 m.objects.length
        ++ le32 ((16 + 64 * m.objects.length) % 4294967296)
        ++ le32 ((16 + 64 * m.objects.length + 32 * m.objects.length) % 4294967296) ∧
    readAt (savedFile m) 16 (64 * m.objects.length)
      = tableOf (fun r => r) (pathRecords (List.replicate 0x40 0) m.objects) ∧
    readAt (savedFile m) (16 + 64 * m.objects.length) (32 * m.objects.length)
      = tableOf tile_attributes m.objects ∧
    readAt (savedFile m) (16 + 64 * m.objects.length + 32 * m.objects.length)
        (le32 MAPF_HEADER ++ le32 m.width ++ le32 m.height
          ++ le32 (m.width * m.height % 4294967296)).length
      = le32 MAPF_HEADER ++ le32 m.width ++ le32 m.height
        ++ le32 (m.width * m.height % 4294967296) ∧
    readAt (savedFile m) (16 + 64 * m.objects.length + 32 * m.objects.length + 16)
        (cellBytes m 0 m.height).length = cellBytes m 0 m.height := by
  have hrecl := length_pathRecords (List.replicate 0x40 0) m.objects (by simp) hpath
  have hlP := length_tableOf (fun r : List Nat => r) 64
    (pathRecords (List.replicate 0x40 0) m.objects) hrecl
  rw [length_pathRecords_eq] at hlP
  have hlR := length_tableOf tile_attributes 32 m.objects (fun p _ => length_tile_attributes p)
  have hlH := length_header MARC_HEADER m.objects.length
    ((16 + 64 * m.objects.length) % 4294967296)
    ((16 + 64 * m.objects.length + 32 * m.objects.length) % 4294967296)
  have hlM := length_header MAPF_HEADER m.width m.height (m.width * m.height % 4294967296)
  refine ⟨readAt_append_left _ _, ?_, ?_, ?_, ?_⟩
  · rw [savedFile, readAt_skip (q := 0) (by omega)]
    exact readAt_block hlP.symm
  · rw [savedFile, readAt_skip (q := 64 * m.objects.length) (by omega),
      readAt_skip (q := 0) (by omega)]
    exact readAt_block hlR.symm
  · rw [savedFile,
      readAt_skip (q := 64 * m.objects.length + 32 * m.objects.length) (by omega),
      readAt_skip (q := 32 * m.objects.length) (by omega), readAt_skip (q := 0) (by omega)]
    exact readAt_block rfl
  · rw [savedFile,
      readAt_skip (q := 64 * m.objects.length + 32 * m.objects.length + 16) (by omega),
      readAt_skip (q := 32 * m.objects.length + 16) (by omega),
      readAt_skip (q := 16) (by omega), readAt_skip (q := 0) (by omega)]
    exact readAt_block rfl

/-- The four words of the container header written by `map_save`. -/
theorem savedFile_header (m : Map) (hpath : ∀ o ∈ m.objects, o.name.length ≤ 63)
    (hfit : 16 + 96 * m.objects.length < 4294967296) :
    u32At (savedFile m) 0 = MARC_HEADER ∧ u32At (savedFile m) 4 = m.objects.length ∧
    u32At (savedFile m) 8 = 16 + 64 * m.objects.length ∧
    u32At (savedFile m) 0xc = 16 + 96 * m.objects.length := by
  obtain ⟨bH, _⟩ := savedFile_blocks m hpath
  have hlH := length_header MARC_HEADER m.objects.length
    ((16 + 64 * m.objects.length) % 4294967296)
    ((16 + 64 * m.objects.length + 32 * m.objects.length) % 4294967296)
  obtain ⟨hh0, hh4, hh8, hh12⟩ := u32At_header MARC_HEADER m.objects.length
    ((16 + 64 * m.objects.length) % 4294967296)
    ((16 + 64 * m.objects.length + 32 * m.objects.length) % 4294967296)
  obtain ⟨w0, _⟩ := u32At_of_readAt bH 0 (by omega)
  obtain ⟨w4, _⟩ := u32At_of_readAt bH 4 (by omega)
  obtain ⟨w8, _⟩ := u32At_of_readAt bH 8 (by omega)
  obtain ⟨w12, _⟩ := u32At_of_readAt bH 12 (by omega)
  have hmarc : MARC_HEADER % 4294967296 = MARC_HEADER := by decide
  rw [Nat.zero_add, hh0, hmarc] at w0
  rw [Nat.zero_add, hh4, Nat.mod_eq_of_lt (by omega)] at w4
  rw [Nat.zero_add, hh8, Nat.mod_mod, Nat.mod_eq_of_lt (by omega)] at w8
  rw [Nat.zero_add, hh12, Nat.mod_mod, Nat.mod_eq_of_lt (by omega)] at w12
  refine ⟨w0, w4, w8, ?_⟩
  rw [w12]
  omega

/-- C19: for an in-memory map with `N` catalog entries (paths of at most 63 characters, layout
within the 32-bit offsets), the file written by `map_save` starts with the words `MARC`, `N`,
`16 + 64 * N` and `16 + 96 * N`; the 64-byte record of entry `i` at `16 + 64 * i` starts with
its path and a NUL, the 32-byte property record of entry `i` is at the property-table offset
plus `32 * i`, and the `MAPF` signature is at the map-block offset. -/
theorem map_save_layout (m : Map) (hpath : ∀ o ∈ m.objects, o.name.length ≤ 63)
    (hfit : 16 + 96 * m.objects.length < 4294967296) :
    ∃ g, map_save m = .ok g ∧
      u32At g 0 = MARC_HEADER ∧ u32At g 4 = m.objects.length ∧
      u32At g 8 = 16 + 64 * m.objects.length ∧ u32At g 0xc = 16 + 96 * m.objects.length ∧
      (∀ i o, m.objects[i]? = some o →
        (∃ rest, readAt g (16 + 64 * i) 64 = o.name ++ [0] ++ rest) ∧
        readAt g (u32At g 8 + 32 * i) 32 = tile_attributes o) ∧
      u32At g (u32At g 0xc) = MAPF_HEADER := by
  obtain ⟨_, bP, bR, bM, _⟩ := savedFile_blocks m hpath
  obtain ⟨w0, w4, w8, w12⟩ := savedFile_header m hpath hfit
  have hrecl := length_pathRecords (List.replicate 0x40 0) m.objects (by simp) hpath
  refine ⟨savedFile m, map_save_eq m hpath, w0, w4, w8, w12, ?_, ?_⟩
  · intro i o ho
    have hi := lt_length_of_getElem? ho
    constructor
    · obtain ⟨rest, hr⟩ := getElem?_pathRecords (List.replicate 0x40 0) m.objects i o ho
      refine ⟨rest, ?_⟩
      rw [← readAt_readAt (savedFile m) 16 (64 * m.objects.length) (64 * i) 64 (by omega), bP]
      exact readAt_tableOf (fun r => r) 64 _ hrecl i _ hr
    · rw [w8, ← readAt_readAt (savedFile m) (16 + 64 * m.objects.length)
        (32 * m.objects.length) (32 * i) 32 (by omega), bR]
      exact readAt_tableOf tile_attributes 32 m.objects (fun p _ => length_tile_attributes p)
        i o ho
  · have hlM := length_header MAPF_HEADER m.width m.height (m.width * m.height % 4294967296)
    obtain ⟨v0, _⟩ := u32At_of_readAt bM 0 (by omega)
    rw [(u32At_header MAPF_HEADER m.width m.height (m.width * m.height % 4294967296)).1] at v0
    have hmapf : MAPF_HEADER % 4294967296 = MAPF_HEADER := by decide
    rw [w12]
    have e : 16 + 96 * m.objects.length
        = 16 + 64 * m.objects.length + 32 * m.objects.length + 0 := by omega
    rw [e, v0, hmapf]

set_option maxRecDepth 100000 in
theorem map_save_layout_witness :
    (∀ o ∈ sampleMap.objects, o.name.length ≤ 63) ∧
    ∃ g, map_save sampleMap = .ok g ∧
      u32At g 0 = MARC_HEADER ∧ u32At g 4 = sampleMap.objects.length ∧
      u32At g 8 = 16 + 64 * sampleMap.objects.length ∧
      u32At g 0xc = 16 + 96 * sampleMap.objects.length ∧
      (∀ i o, sampleMap.objects[i]? = some o →
        (∃ rest, readAt g (16 + 64 * i) 64 = o.name ++ [0] ++ rest) ∧
        readAt g (u32At g 8 + 32 * i) 32 = tile_attributes o) ∧
      u32At g (u32At g 0xc) = MAPF_HEADER :=
  ⟨by decide, map_save_layout sampleMap (by decide) (by decide)⟩

/-- C20: for an in-memory map of `W` by `H` cells (32-bit `W` and `H`, paths of at most 63
characters, layout within the 32-bit offsets), the map block written by `map_save` at the
map-block offset is the words `MAPF`, `W`, `H` and `W * H` modulo `2^32`, and the cell
`(x, y)`, cast to `char`, is the byte at map-block offset `+ 16 + y * W + x`. -/
theorem map_save_map_block (m : Map) (hW : m.width < 4294967296) (hH : m.height < 4294967296)
    (hpath : ∀ o ∈ m.objects, o.name.length ≤ 63)
    (hfit : 16 + 96 * m.objects.length < 4294967296) :
    ∃ g, map_save m = .ok g ∧
      u32At g (u32At g 0xc) = MAPF_HEADER ∧ u32At g (u32At g 0xc + 4) = m.width ∧
      u32At g (u32At g 0xc + 8) = m.height ∧
      u32At g (u32At g 0xc + 12) = m.width * m.height % 4294967296 ∧
      ∀ x y, x < m.width → y < m.height →
        g[u32At g 0xc + 16 + y * m.width + x]? = some (intToChar (m.cells x y)) := by
  obtain ⟨_, _, _, bM, bC⟩ := savedFile_blocks m hpath
  obtain ⟨_, _, _, w12⟩ := savedFile_header m hpath hfit
  have hlC := length_cellBytes m 0 m.height
  obtain ⟨hm0, hm4, hm8, hm12⟩ := u32At_header MAPF_HEADER m.width m.height
    (m.width * m.height % 4294967296)
  have hlM := length_header MAPF_HEADER m.width m.height (m.width * m.height % 4294967296)
  obtain ⟨v0, _⟩ := u32At_of_readAt bM 0 (by omega)
  obtain ⟨v4, _⟩ := u32At_of_readAt bM 4 (by omega)
  obtain ⟨v8, _⟩ := u32At_of_readAt bM 8 (by omega)
  obtain ⟨v12, _⟩ := u32At_of_readAt bM 12 (by omega)
  have hmapf : MAPF_HEADER % 4294967296 = MAPF_HEADER := by decide
  rw [hm0, hmapf] at v0
  rw [hm4, Nat.mod_eq_of_lt hW] at v4
  rw [hm8, Nat.mod_eq_of_lt hH] at v8
  rw [hm12, Nat.mod_mod] at v12
  have e : 16 + 96 * m.objects.length = 16 + 64 * m.objects.length + 32 * m.objects.length := by
    omega
  refine ⟨savedFile m, map_save_eq m hpath, ?_, ?_, ?_, ?_, ?_⟩
  · rw [w12, e, ← v0, Nat.add_zero]
  · rw [w12, e, v4]
  · rw [w12, e, v8]
  · rw [w12, e, v12]
  · intro x y hx hy
    have hidx := cell_index_lt hx hy
    have hpos : 0 < (cellBytes m 0 m.height).length := by
      rw [hlC, Nat.mul_comm m.width m.height]; omega
    have hlen := le_length_of_readAt bC hpos
    have hc := getD_of_readAt bC (y * m.width + x)
      (by rw [hlC, Nat.mul_comm m.width m.height]; exact hidx)
    rw [getD_cellBytes m x y hx hy] at hc
    rw [hlC, Nat.mul_comm m.width m.height] at hlen
    have hlt : 16 + 96 * m.objects.length + 16 + y * m.width + x < (savedFile m).length := by
      omega
    rw [w12, getElem?_eq_some_getD hlt, ← hc]
    congr 2
    omega

set_option maxRecDepth 100000 in
theorem map_save_map_block_witness :
    sampleMap.width < 4294967296 ∧ sampleMap.height < 4294967296 ∧
    (∀ o ∈ sampleMap.objects, o.name.length ≤ 63) ∧
    ∃ g, map_save sampleMap = .ok g ∧
      u32At g (u32At g 0xc) = MAPF_HEADER ∧ u32At g (u32At g 0xc + 4) = sampleMap.width ∧
      u32At g (u32At g 0xc + 8) = sampleMap.height ∧
      u32At g (u32At g 0xc + 12) = sampleMap.width * sampleMap.height % 4294967296 ∧
      ∀ x y, x < sampleMap.width → y < sampleMap.height →
        g[u32At g 0xc + 16 + y * sampleMap.width + x]? = some (intToChar (sampleMap.cells x y)) :=
  ⟨by decide, by decide, by decide,
    map_save_map_block sampleMap (by decide) (by decide) (by decide) (by decide)⟩

/-- A property record of `map_save` at its place in the file. -/
theorem savedFile_property_record (m : Map) (hpath : ∀ o ∈ m.objects, o.name.length ≤ 63)
    (i : Nat) (o : TileDefinition) (ho : m.objects[i]? = some o) :
    readAt (savedFile m) (16 + 64 * m.objects.length + 32 * i) 32 = tile_attributes o := by
  obtain ⟨_, _, bR, _, _⟩ := savedFile_blocks m hpath
  have hi := lt_length_of_getElem? ho
  rw [← readAt_readAt (savedFile m) (16 + 64 * m.objects.length) (32 * m.objects.length)
    (32 * i) 32 (by omega), bR]
  exact readAt_tableOf tile_attributes 32 m.objects (fun p _ => length_tile_attributes p) i o ho

/-- C21: for every catalog entry `i` of the saved map (paths of at most 63 characters, layout
within the 32-bit offsets), the 32 bytes at the property-table offset plus `32 * i` are the
eight words `0x10`, the frame count, the solidity code (0 air, 1 semi-solid, 2 solid), 4 if
destructible else 0, 8 if collectible else 0, 16 if generator else 0, 0 and 0. -/
theorem map_save_property_record (m : Map) (hpath : ∀ o ∈ m.objects, o.name.length ≤ 63)
    (hfit : 16 + 96 * m.objects.length < 4294967296) :
    ∃ g, map_save m = .ok g ∧
      ∀ i o, m.objects[i]? = some o →
        readAt g (u32At g 8 + 32 * i) 32 =
          le32 0x10 ++ le32 o.frames
            ++ le32 (match o.solidity with
                | .air => 0
                | .semi_solid => 1
                | .solid => 2)
            ++ le32 (if o.destructible then 4 else 0) ++ le32 (if o.collectible then 8 else 0)
            ++ le32 (if o.generator then 16 else 0) ++ le32 0 ++ le32 0 := by
  obtain ⟨_, _, w8, _⟩ := savedFile_header m hpath hfit
  refine ⟨savedFile m, map_save_eq m hpath, ?_⟩
  intro i o ho
  rw [w8, savedFile_property_record m hpath i o ho, tile_attributes, map_get_solidity]
  cases o.solidity <;> rfl

set_option maxRecDepth 100000 in
theorem map_save_property_record_witness :
    (∀ o ∈ sampleMap.objects, o.name.length ≤ 63) ∧
    ∃ g, map_save sampleMap = .ok g ∧
      ∀ i o, sampleMap.objects[i]? = some o →
        readAt g (u32At g 8 + 32 * i) 32 =
          le32 0x10 ++ le32 o.frames
            ++ le32 (match o.solidity with
                | .air => 0
                | .semi_solid => 1
                | .solid => 2)
            ++ le32 (if o.destructible then 4 else 0) ++ le32 (if o.collectible then 8 else 0)
            ++ le32 (if o.generator then 16 else 0) ++ le32 0 ++ le32 0 :=
  ⟨by decide, map_save_property_record sampleMap (by decide) (by decide)⟩

theorem length_savedFile (m : Map) (hpath : ∀ o ∈ m.objects, o.name.length ≤ 63) :
    (savedFile m).length =
      16 + 96 * m.objects.length + 16 + m.width * m.height
        + (paddingBytes (16 + 64 * m.objects.length + 32 * m.objects.length + 16
            + m.height * m.width)).length := by
  have hrecl := length_pathRecords (List.replicate 0x40 0) m.objects (by simp) hpath
  have hlP := length_tableOf (fun r : List Nat => r) 64
    (pathRecords (List.replicate 0x40 0) m.objects) hrecl
  rw [length_pathRecords_eq] at hlP
  have hlR := length_tableOf tile_attributes 32 m.objects (fun p _ => length_tile_attributes p)
  have hlC := length_cellBytes m 0 m.height
  have hlH := length_header MARC_HEADER m.objects.length
    ((16 + 64 * m.objects.length) % 4294967296)
    ((16 + 64 * m.objects.length + 32 * m.objects.length) % 4294967296)
  have hlM := length_header MAPF_HEADER m.width m.height (m.width * m.height % 4294967296)
  simp only [savedFile, List.length_append, hlH, hlP, hlR, hlM, hlC]
  omega

/-- C22 (divergence): with `L = 16 + 96 * N + 16 + W * H` the length before the padding, the
file written by `map_save` has `L` bytes when `L` is a multiple of 16, and otherwise
`L + 4 * (16 - L % 16)` bytes, a length that is not a multiple of 16: the padding loop writes
`16 - L % 16` words of four bytes, not `16 - L % 16` bytes. -/
theorem map_save_padding_length (m : Map) (hpath : ∀ o ∈ m.objects, o.name.length ≤ 63) :
    ∃ g, map_save m = .ok g ∧
      ((16 + 96 * m.objects.length + 16 + m.width * m.height) % 16 = 0 →
        g.length = 16 + 96 * m.objects.length + 16 + m.width * m.height) ∧
      ((16 + 96 * m.objects.length + 16 + m.width * m.height) % 16 ≠ 0 →
        g.length = 16 + 96 * m.objects.length + 16 + m.width * m.height
          + 4 * (16 - (16 + 96 * m.objects.length + 16 + m.width * m.height) % 16) ∧
        g.length % 16 ≠ 0) := by
  have hlen := length_savedFile m hpath
  have e : 16 + 64 * m.objects.length + 32 * m.objects.length + 16 + m.height * m.width
      = 16 + 96 * m.objects.length + 16 + m.width * m.height := by
    rw [Nat.mul_comm m.height m.width]; omega
  rw [e] at hlen
  refine ⟨savedFile m, map_save_eq m hpath, ?_, ?_⟩
  · intro h0
    rw [hlen, paddingBytes, if_neg (by simpa using h0)]
    rfl
  · intro h0
    rw [hlen, paddingBytes, if_pos h0, List.length_replicate]
    omega

set_option maxRecDepth 100000 in
theorem map_save_padding_length_witness :
    (∀ o ∈ sampleMap.objects, o.name.length ≤ 63) ∧
    ∃ g, map_save sampleMap = .ok g ∧
      ((16 + 96 * sampleMap.objects.length + 16 + sampleMap.width * sampleMap.height) % 16 = 0 →
        g.length = 16 + 96 * sampleMap.objects.length + 16
          + sampleMap.width * sampleMap.height) ∧
      ((16 + 96 * sampleMap.objects.length + 16 + sampleMap.width * sampleMap.height) % 16 ≠ 0 →
        g.length = 16 + 96 * sampleMap.objects.length + 16 + sampleMap.width * sampleMap.height
          + 4 * (16 - (16 + 96 * sampleMap.objects.length + 16
              + sampleMap.width * sampleMap.height) % 16) ∧
        g.length % 16 ≠ 0) :=
  ⟨by decide, map_save_padding_length sampleMap (by decide)⟩

set_option maxRecDepth 1000000 in
/-- C23 (failing input): `sampleMap` has the two entries `ground` and `w`, both shorter than
64 characters.  The record that `map_save` writes for `w` at offset `16 + 64` is `w`, a NUL,
then the characters `ound` left in `tile_path` by the entry before: not zero bytes only. -/
theorem map_save_stale_path_bytes :
    (∀ o ∈ sampleMap.objects, o.name.length ≤ 63) ∧
    (sampleMap.objects.map (fun o => o.name) = [[103, 114, 111, 117, 110, 100], [119]]) ∧
    ∃ g, map_save sampleMap = .ok g ∧
      readAt g (16 + 64) 64 = [119, 0, 111, 117, 110, 100] ++ List.replicate 58 0 ∧
      readAt g (16 + 64) 64 ≠ [119] ++ List.replicate 63 0 := by
  refine ⟨by decide, by decide, savedFile sampleMap, map_save_eq sampleMap (by decide), ?_, ?_⟩
  · decide
  · decide

theorem get_map_objects_count_eq {f : List Nat} (hlen : 8 ≤ f.length)
    (hsig : u32At f 0 = MARC_HEADER) : get_map_objects_count f = .ok (u32At f 4) := by
  have r0 : read32 f 0 = .ok MARC_HEADER := by rw [read32_ok (by omega), hsig]
  have r4 : read32 f 4 = .ok (u32At f 4) := read32_ok (by omega)
  simp only [get_map_objects_count, validate_marc_header, r0, r4, ne_eq, not_true_eq_false,
    if_false]

/-- The file written by `map_save` has its map block where the header says. -/
theorem savedFile_hasMap (m : Map) (hW : m.width < 4294967296) (hH : m.height < 4294967296)
    (hpath : ∀ o ∈ m.objects, o.name.length ≤ 63)
    (hfit : 16 + 96 * m.objects.length < 4294967296) :
    HasMap (savedFile m) (16 + 96 * m.objects.length) m.width m.height := by
  obtain ⟨_, _, _, bM, _⟩ := savedFile_blocks m hpath
  obtain ⟨w0, _, _, w12⟩ := savedFile_header m hpath hfit
  have hlM := length_header MAPF_HEADER m.width m.height (m.width * m.height % 4294967296)
  obtain ⟨hm0, hm4, hm8, _⟩ := u32At_header MAPF_HEADER m.width m.height
    (m.width * m.height % 4294967296)
  obtain ⟨v0, _⟩ := u32At_of_readAt bM 0 (by omega)
  obtain ⟨v4, _⟩ := u32At_of_readAt bM 4 (by omega)
  obtain ⟨v8, _⟩ := u32At_of_readAt bM 8 (by omega)
  have hmapf : MAPF_HEADER % 4294967296 = MAPF_HEADER := by decide
  rw [hm0, hmapf, Nat.add_zero] at v0
  rw [hm4, Nat.mod_eq_of_lt hW] at v4
  rw [hm8, Nat.mod_eq_of_lt hH] at v8
  have e : 16 + 96 * m.objects.length = 16 + 64 * m.objects.length + 32 * m.objects.length := by
    omega
  have hlen := length_savedFile m hpath
  refine ⟨w0, w12, by omega, ?_, ?_, ?_, by omega⟩
  · rw [e, v0]
  · rw [e, v4]
  · rw [e, v8]

/-- C27: for an in-memory map of `W` by `H` cells with `N` catalog entries (32-bit `W` and `H`,
paths of at most 63 characters, layout within the 32-bit offsets), on the file written by
`map_save` the function `get_map_width` returns `W`, `get_map_height` returns `H` and
`get_map_objects_count` returns `N`. -/
theorem map_save_getters (m : Map) (hW : m.width < 4294967296) (hH : m.height < 4294967296)
    (hpath : ∀ o ∈ m.objects, o.name.length ≤ 63)
    (hfit : 16 + 96 * m.objects.length < 4294967296) :
    ∃ g, map_save m = .ok g ∧ get_map_width g = .ok m.width ∧
      get_map_height g = .ok m.height ∧ get_map_objects_count g = .ok m.objects.length := by
  have hm := savedFile_hasMap m hW hH hpath hfit
  obtain ⟨w0, w4, _, _⟩ := savedFile_header m hpath hfit
  have hlen := hm.2.2.2.2.2.2
  refine ⟨savedFile m, map_save_eq m hpath, hm.get_map_width_eq, hm.get_map_height_eq, ?_⟩
  rw [get_map_objects_count_eq (by omega) w0, w4]

set_option maxRecDepth 100000 in
theorem map_save_getters_witness :
    sampleMap.width < 4294967296 ∧ sampleMap.height < 4294967296 ∧
    (∀ o ∈ sampleMap.objects, o.name.length ≤ 63) ∧
    ∃ g, map_save sampleMap = .ok g ∧ get_map_width g = .ok sampleMap.width ∧
      get_map_height g = .ok sampleMap.height ∧
      get_map_objects_count g = .ok sampleMap.objects.length :=
  ⟨by decide, by decide, by decide,
    map_save_getters sampleMap (by decide) (by decide) (by decide) (by decide)⟩

/-- C26: on every archive on which `get_map_width`, `get_map_height` and
`get_map_objects_count` return, `get_map_info` returns too and fills its result with the three
values that they return. -/
theorem get_map_info_eq (f : List Nat) (w h n : Nat) (hw : get_map_width f = .ok w)
    (hh : get_map_height f = .ok h) (hn : get_map_objects_count f = .ok n) :
    get_map_info f = .ok ⟨w, h, n⟩ := by
  unfold get_map_width at hw
  unfold get_map_height at hh
  unfold get_map_objects_count at hn
  unfold get_map_info
  cases h0 : validate_marc_header f 0 with
  | error e => rw [h0] at hw; cases hw
  | ok p0 =>
    rw [h0] at hw hh hn
    dsimp only at hw hh hn ⊢
    rw [hn]
    dsimp only
    cases h1 : seek_mapf_header f with
    | error e => rw [h1] at hw; cases hw
    | ok m =>
      rw [h1] at hw hh
      dsimp only at hw hh ⊢
      cases h2 : validate_mapf_header f m with
      | error e => rw [h2] at hw; cases hw
      | ok p =>
        rw [h2] at hw hh
        dsimp only at hw hh ⊢
        rw [hw]
        dsimp only
        rw [hh]

set_option maxRecDepth 100000 in
theorem get_map_info_eq_witness :
    get_map_width sampleArchive = .ok 2 ∧ get_map_height sampleArchive = .ok 2 ∧
    get_map_objects_count sampleArchive = .ok 1 ∧
    get_map_info sampleArchive = .ok ⟨2, 2, 1⟩ :=
  ⟨rfl, rfl, rfl, get_map_info_eq sampleArchive 2 2 1 rfl rfl rfl⟩

theorem twoDigits_eq (n : Nat) (h : n < 100) : twoDigits n = [48 + n / 10, 48 + n % 10] := by
  unfold twoDigits
  split_ifs with h10
  · have e1 : n / 10 = 0 := by omega
    have e2 : n % 10 = n := by omega
    rw [e1, e2]
  · have e1 : n / 10 < 10 := by omega
    simp only [decimal, decimalAux, h10, if_false, e1, if_true]

theorem decimal_year (y : Nat) (h1 : 1000 ≤ y) (h2 : y ≤ 9999) :
    decimal y = [48 + y / 1000, 48 + y / 100 % 10, 48 + y / 10 % 10, 48 + y % 10] := by
  have a0 : ¬ y < 10 := by omega
  have a1 : ¬ y / 10 < 10 := by omega
  have a2 : ¬ y / 10 / 10 < 10 := by omega
  have a3 : y / 10 / 10 / 10 < 10 := by omega
  have e2 : y / 10 / 10 = y / 100 := by omega
  have e3 : y / 10 / 10 / 10 = y / 1000 := by omega
  simp only [decimal, decimalAux, a0, a1, a2, a3, if_false, if_true]
  rw [e3, e2]

theorem strftime_expand_backup_format (t : Tm) (ht : t.InRange) :
    strftime_expand t backup_format = some (timeStamp t) := by
  obtain ⟨hs, hmi, hh, hd, hmo, hy⟩ := ht
  simp only [backup_format, strftime_expand, strftime_conversion, Nat.reduceEqDiff, if_false,
    if_true, twoDigits_eq _ (show t.tm_mday < 100 by omega),
    twoDigits_eq _ (show t.tm_mon + 1 < 100 by omega),
    twoDigits_eq _ (show t.tm_hour < 100 by omega),
    twoDigits_eq _ (show t.tm_min < 100 by omega),
    twoDigits_eq _ (show t.tm_sec < 100 by omega),
    decimal_year _ (show 1000 ≤ t.tm_year + 1900 by omega) (show t.tm_year + 1900 ≤ 9999 by omega),
    timeStamp, List.cons_append, List.nil_append]

theorem cstr_append_nul (a b : List Nat) (h : ∀ c ∈ a, c ≠ 0) : cstr (a ++ 0 :: b) = a := by
  induction a with
  | nil => simp [cstr]
  | cons x xs ih =>
    have hx : x ≠ 0 := h x (List.mem_cons_self _ _)
    have := ih (fun c hc => h c (List.mem_cons_of_mem _ hc))
    simp only [cstr] at this ⊢
    rw [List.cons_append, List.takeWhile_cons_of_pos (by simpa using hx), this]

theorem cstr_append_nul_length (a b : List Nat) (h : ∀ c ∈ a, c ≠ 0) :
    strlen (a ++ 0 :: b) = a.length := by
  rw [strlen, cstr_append_nul a b h]

theorem strcat_append_nul (a rest src : List Nat) (h : ∀ c ∈ a, c ≠ 0)
    (hfit : src.length ≤ rest.length) :
    strcat (a ++ 0 :: rest) src = .ok ((a ++ src) ++ 0 :: rest.drop src.length) := by
  have hl := cstr_append_nul_length a rest h
  rw [strcat, hl, if_pos (by simp only [List.length_append, List.length_cons]; omega)]
  congr 1
  rw [List.take_left, Nat.add_assoc, List.drop_append, List.drop_succ_cons]
  simp only [List.append_assoc, List.singleton_append]

theorem timeStamp_ne_zero (t : Tm) : ∀ c ∈ timeStamp t, c ≠ 0 := by
  intro c hc
  simp only [timeStamp, List.mem_cons, List.mem_singleton, List.not_mem_nil, or_false] at hc
  omega

theorem length_timeStamp (t : Tm) : (timeStamp t).length = 20 := rfl

set_option maxRecDepth 100000 in
/-- The path that `backup_archive` returns: for every archive file name (a C string) and every
local time in the ranges of `struct tm` with a year of four digits, it is the file name
followed by `-DD-MM-YYYY-hh:mm:ss` built from that time and then by `.backup`. -/
theorem backup_archive_name (filename : List Nat) (t : Tm) (block : Nat → Nat)
    (hname : ∀ c ∈ filename, c ≠ 0) (ht : t.InRange) :
    backup_archive filename t block = .ok (filename ++ timeStamp t ++ backup_suffix) := by
  have hstamp := timeStamp_ne_zero t
  have hsuf : ∀ c ∈ backup_suffix, c ≠ 0 := by decide
  have e1 : strftime (List.replicate 256 0) backup_format t =
      .ok (timeStamp t ++ 0 :: List.replicate 235 0) := by
    rw [strftime, strftime_expand_backup_format t ht]
    dsimp only
    rw [if_pos (by rw [length_timeStamp, List.length_replicate]; omega), length_timeStamp,
      List.drop_replicate]
    simp only [List.append_assoc, List.singleton_append]
  have e2 : cstr (timeStamp t ++ 0 :: List.replicate 235 0) = timeStamp t :=
    cstr_append_nul _ _ hstamp
  have e3 : strlen (timeStamp t ++ 0 :: List.replicate 235 0) = 20 := by
    rw [strlen, e2]; rfl
  have e4 : strlen backup_suffix = 7 := by decide
  have hml : (malloc (filename.length + 20 + 7 + 1) block).length = filename.length + 28 := by
    simp [malloc]
  have e5 : strcpy (malloc (filename.length + 20 + 7 + 1) block) filename =
      .ok (filename ++ 0 :: (malloc (filename.length + 20 + 7 + 1) block).drop
        (filename.length + 1)) := by
    rw [strcpy, if_pos (by omega)]
    simp
  have hr : ((malloc (filename.length + 20 + 7 + 1) block).drop (filename.length + 1)).length
      = 27 := by
    rw [List.length_drop, hml]; omega
  have e6 := strcat_append_nul filename
    ((malloc (filename.length + 20 + 7 + 1) block).drop (filename.length + 1)) (timeStamp t)
    hname (by rw [hr, length_timeStamp]; omega)
  have hcat : ∀ c ∈ filename ++ timeStamp t, c ≠ 0 := by
    intro c hc
    rcases List.mem_append.mp hc with h | h
    · exact hname c h
    · exact hstamp c h
  have e7 := strcat_append_nul (filename ++ timeStamp t)
    (((malloc (filename.length + 20 + 7 + 1) block).drop (filename.length + 1)).drop
      (timeStamp t).length) backup_suffix hcat
    (by rw [List.length_drop, hr, length_timeStamp]; decide)
  have hall : ∀ c ∈ filename ++ timeStamp t ++ backup_suffix, c ≠ 0 := by
    intro c hc
    rcases List.mem_append.mp hc with h | h
    · exact hcat c h
    · exact hsuf c h
  simp only [backup_archive, e1, e2, e3, e4, e5, e6, e7]
  rw [cstr_append_nul _ _ hall]

set_option maxRecDepth 100000 in
theorem backup_archive_name_witness :
    (∀ c ∈ [97, 46, 109, 97, 112], c ≠ 0) ∧ sampleTime.InRange ∧
    backup_archive [97, 46, 109, 97, 112] sampleTime (fun _ => 255) =
      .ok ([97, 46, 109, 97, 112] ++ timeStamp sampleTime ++ backup_suffix) :=
  ⟨by decide, by decide,
    backup_archive_name [97, 46, 109, 97, 112] sampleTime (fun _ => 255) (by decide)
      (by decide)⟩

set_option maxRecDepth 100000 in
/-- C28 (failing input): for the archive `a.map` and the local time 2026-01-03 09:05:07,
`backup_archive` returns `a.map-03-01-2026-09:05:07.backup`, which is not the file name
followed by `-03-01-2026-09:05:07`, the form `<filename>-DD-MM-YYYY-hh:mm:ss` that the comment
of the function states. -/
theorem backup_archive_has_suffix :
    backup_archive [97, 46, 109, 97, 112] sampleTime (fun _ => 255) =
      .ok ([97, 46, 109, 97, 112]
        ++ [45, 48, 51, 45, 48, 49, 45, 50, 48, 50, 54, 45, 48, 57, 58, 48, 53, 58, 48, 55]
        ++ [46, 98, 97, 99, 107, 117, 112]) ∧
    timeStamp sampleTime
      = [45, 48, 51, 45, 48, 49, 45, 50, 48, 50, 54, 45, 48, 57, 58, 48, 53, 58, 48, 55] ∧
    ([97, 46, 109, 97, 112]
        ++ [45, 48, 51, 45, 48, 49, 45, 50, 48, 50, 54, 45, 48, 57, 58, 48, 53, 58, 48, 55]
        ++ [46, 98, 97, 99, 107, 117, 112] : List Nat)
      ≠ [97, 46, 109, 97, 112] ++ timeStamp sampleTime := by
  refine ⟨rfl, rfl, by decide⟩

theorem eventPath_append (mem : Nat → EventNode) (xs ys : List Nat) (p q : Option Nat) :
    EventPath mem p (xs ++ ys) q ↔ ∃ r, EventPath mem p xs r ∧ EventPath mem r ys q := by
  induction xs generalizing p with
  | nil =>
    constructor
    · intro h
      exact ⟨p, rfl, h⟩
    · rintro ⟨r, hr, h⟩
      have hr2 : p = r := hr
      rw [hr2]
      exact h
  | cons a as ih =>
    constructor
    · rintro ⟨hp, h⟩
      obtain ⟨r, h1, h2⟩ := (ih _).mp h
      exact ⟨r, ⟨hp, h1⟩, h2⟩
    · rintro ⟨r, ⟨hp, h1⟩, h2⟩
      exact ⟨hp, (ih _).mpr ⟨r, h1, h2⟩⟩

/-- A path only depends on the `next` fields of its nodes. -/
theorem eventPath_congr (mem mem2 : Nat → EventNode) (xs : List Nat) (p q : Option Nat)
    (h : ∀ a ∈ xs, (mem2 a).next = (mem a).next) (hp : EventPath mem p xs q) :
    EventPath mem2 p xs q := by
  induction xs generalizing p with
  | nil => exact hp
  | cons a as ih =>
    obtain ⟨h1, h2⟩ := hp
    refine ⟨h1, ?_⟩
    rw [h a (List.mem_cons_self _ _)]
    exact ih _ (fun b hb => h b (List.mem_cons_of_mem _ hb)) h2

theorem eventPath_head (mem : Nat → EventNode) (xs : List Nat) (p : Option Nat)
    (h : EventPath mem p xs none) : p = xs.head? := by
  cases xs with
  | nil => exact h
  | cons a as => exact h.1

/-- Two lists with the same head pointer in the same memory have the same nodes. -/
theorem isEventList_unique (mem : Nat → EventNode) (xs ys : List Nat) (p : Option Nat)
    (hx : IsEventList mem p xs) (hy : IsEventList mem p ys) : xs = ys := by
  induction xs generalizing p ys with
  | nil =>
    cases ys with
    | nil => rfl
    | cons b bs =>
      have h1 : p = none := hx
      have h2 : p = some b := hy.1
      rw [h1] at h2
      cases h2
  | cons a as ih =>
    cases ys with
    | nil =>
      have h1 : p = some a := hx.1
      have h2 : p = none := hy
      rw [h1] at h2
      cases h2
    | cons b bs =>
      have h1 : p = some a := hx.1
      have h2 : p = some b := hy.1
      rw [h1] at h2
      have hab : a = b := Option.some.inj h2
      subst hab
      rw [ih bs _ hx.2 hy.2]

/-- The nodes of a list are pairwise distinct. -/
theorem isEventList_nodup (mem : Nat → EventNode) (xs : List Nat) (p : Option Nat)
    (hx : IsEventList mem p xs) : xs.Nodup := by
  induction xs generalizing p with
  | nil => exact List.nodup_nil
  | cons a as ih =>
    refine List.nodup_cons.mpr ⟨?_, ih _ hx.2⟩
    intro hmem
    obtain ⟨s, t, hst⟩ := List.append_of_mem hmem
    have htail : IsEventList mem (mem a).next as := hx.2
    rw [hst] at htail
    obtain ⟨r, _, hr⟩ := (eventPath_append mem s (a :: t) _ none).mp htail
    have ht : IsEventList mem (mem a).next t := hr.2
    have heq := isEventList_unique mem t as _ ht hx.2
    have hlen : as.length = s.length + (t.length + 1) := by
      rw [hst, List.length_append, List.length_cons]
    rw [heq] at hlen
    omega

theorem lastPassed_concat (prev : Option Nat) (init : List Nat) (p : Nat) :
    lastPassed prev (init ++ [p]) = some p := by
  induction init generalizing prev with
  | nil => rfl
  | cons a as ih => exact ih (some a)

/-- The loop stops after the nodes whose `when` is smaller than that of the new node. -/
theorem event_list_seek_eq (mem : Nat → EventNode) (w : Nat) (nodes : List Nat)
    (list prev : Option Nat) (fuel : Nat) (hl : IsEventList mem list nodes)
    (hfuel : nodes.length < fuel) :
    ∃ pre post, nodes = pre ++ post ∧ (∀ a ∈ pre, (mem a).when < w) ∧
      (∀ b, post.head? = some b → w ≤ (mem b).when) ∧
      event_list_seek mem w fuel prev list = some (lastPassed prev pre, post.head?) := by
  induction nodes generalizing list prev fuel with
  | nil =>
    have hnone : list = none := hl
    obtain ⟨k, rfl⟩ : ∃ k, fuel = k + 1 := ⟨fuel - 1, by omega⟩
    refine ⟨[], [], rfl, fun a ha => absurd ha (List.not_mem_nil a), ?_, ?_⟩
    · intro b hb
      cases hb
    · rw [hnone]
      rfl
  | cons a as ih =>
    have hsome : list = some a := hl.1
    obtain ⟨k, rfl⟩ : ∃ k, fuel = k + 1 := ⟨fuel - 1, by omega⟩
    by_cases hlt : (mem a).when < w
    · obtain ⟨pre, post, hsplit, hpre, hpost, hseek⟩ :=
        ih (mem a).next (some a) k hl.2 (by simp only [List.length_cons] at hfuel; omega)
      refine ⟨a :: pre, post, by rw [hsplit]; rfl, ?_, hpost, ?_⟩
      · intro b hb
        rcases List.mem_cons.mp hb with h | h
        · rw [h]; exact hlt
        · exact hpre b h
      · rw [hsome, event_list_seek, if_pos hlt, hseek]
        rfl
    · refine ⟨[], a :: as, rfl, fun b hb => absurd hb (List.not_mem_nil b), ?_, ?_⟩
      · intro b hb
        have hab : a = b := Option.some.inj hb
        rw [← hab]
        exact Nat.le_of_not_lt hlt
      · rw [hsome, event_list_seek, if_neg hlt]
        rfl

theorem store_of_ne (mem : Nat → EventNode) (a b : Nat) (v : EventNode) (h : b ≠ a) :
    store mem a v b = mem b := by
  rw [store, if_neg h]

theorem store_same (mem : Nat → EventNode) (a : Nat) (v : EventNode) : store mem a v a = v := by
  rw [store, if_pos rfl]

/-- C29: for every memory in which `list` heads a list of nodes in non-decreasing order of
`when`, and every node that is not in it, `event_list_insert` returns (with more fuel than
nodes), leaves a list in non-decreasing order of `when` whose nodes are the nodes it held and
the new node, each once, and changes no `when`. -/
theorem event_list_insert_sorted (mem : Nat → EventNode) (list : Option Nat) (nodes : List Nat)
    (node fuel : Nat) (hl : IsEventList mem list nodes) (hs : SortedByWhen mem nodes)
    (hnew : node ∉ nodes) (hfuel : nodes.length < fuel) :
    ∃ mem2 list2 nodes2, event_list_insert fuel mem list node = some (mem2, list2) ∧
      IsEventList mem2 list2 nodes2 ∧ SortedByWhen mem2 nodes2 ∧
      nodes2.Perm (node :: nodes) ∧ nodes2.Nodup ∧ ∀ a, (mem2 a).when = (mem a).when := by
  have hnd := isEventList_nodup mem nodes list hl
  obtain ⟨pre, post, hsplit, hpre, hpost, hseek⟩ :=
    event_list_seek_eq mem (mem node).when nodes list none fuel hl hfuel
  subst hsplit
  obtain ⟨r, hpath1, hpath2⟩ := (eventPath_append mem pre post list none).mp hl
  have hr : r = post.head? := eventPath_head mem post r hpath2
  have hnpre : node ∉ pre := fun h => hnew (List.mem_append_left _ h)
  have hnpost : node ∉ post := fun h => hnew (List.mem_append_right _ h)
  have hsorted : ∀ (m2 : Nat → EventNode), (∀ a, (m2 a).when = (mem a).when) →
      SortedByWhen m2 (pre ++ node :: post) := by
    intro m2 hw
    have h12 := List.pairwise_append.mp hs
    refine List.pairwise_append.mpr ⟨?_, ?_, ?_⟩
    · exact h12.1.imp (fun {a b} hab => by rw [hw a, hw b]; exact hab)
    · refine List.pairwise_cons.mpr ⟨?_, h12.2.1.imp (fun {a b} hab => by
        rw [hw a, hw b]; exact hab)⟩
      intro b hb
      rw [hw node, hw b]
      cases post with
      | nil => exact absurd hb (List.not_mem_nil b)
      | cons c cs =>
        have hc := hpost c rfl
        rcases List.mem_cons.mp hb with h | h
        · rw [h]; exact hc
        · exact Nat.le_trans hc ((List.pairwise_cons.mp h12.2.1).1 b h)
    · intro a ha b hb
      rw [hw a, hw b]
      have hlt := hpre a ha
      rcases List.mem_cons.mp hb with h | h
      · rw [h]; exact Nat.le_of_lt hlt
      · exact h12.2.2 a ha b h
  have hperm : (pre ++ node :: post).Perm (node :: (pre ++ post)) := List.perm_middle
  have hnd2 : (pre ++ node :: post).Nodup :=
    hperm.nodup_iff.mpr (List.nodup_cons.mpr ⟨hnew, hnd⟩)
  rcases List.eq_nil_or_concat pre with hnil | ⟨init, p, hcat⟩
  · subst hnil
    have hlist : list = r := hpath1
    refine ⟨store mem node { mem node with next := post.head? }, some node, node :: post, ?_,
      ?_, ?_, hperm, hnd2, ?_⟩
    · rw [event_list_insert, hseek]
      rfl
    · refine ⟨rfl, ?_⟩
      rw [store_same]
      show EventPath _ post.head? post none
      rw [← hr]
      exact eventPath_congr mem _ post r none
        (fun a ha => by rw [store_of_ne _ _ _ _ (ne_of_mem_of_not_mem ha hnpost)]) hpath2
    · exact hsorted _ (fun a => by
        by_cases h : a = node
        · rw [h, store_same]
        · rw [store_of_ne _ _ _ _ h])
    · intro a
      by_cases h : a = node
      · rw [h, store_same]
      · rw [store_of_ne _ _ _ _ h]
  · rw [List.concat_eq_append] at hcat
    subst hcat
    have hp_mem : p ∈ init ++ [p] := List.mem_append_right _ (List.mem_singleton_self p)
    have hpn : p ≠ node := ne_of_mem_of_not_mem hp_mem hnpre
    have hnp : node ≠ p := fun h => hpn h.symm
    have hnd_pre : (init ++ [p]).Nodup := (List.nodup_append.mp hnd).1
    have hp_init : p ∉ init := by
      intro h
      have := List.nodup_append.mp hnd_pre
      exact this.2.2 h (List.mem_singleton_self p)
    have hp_post : p ∉ post := by
      intro h
      exact (List.nodup_append.mp hnd).2.2 hp_mem h
    obtain ⟨r1, hinit, hlast⟩ := (eventPath_append mem init [p] list r).mp hpath1
    have hr1 : r1 = some p := hlast.1
    refine ⟨store (store mem node { mem node with next := post.head? }) p
        { store mem node { mem node with next := post.head? } p with next := some node },
      list, (init ++ [p]) ++ node :: post, ?_, ?_, ?_, hperm, hnd2, ?_⟩
    · rw [event_list_insert, hseek, lastPassed_concat]
    · refine (eventPath_append _ (init ++ [p]) (node :: post) list none).mpr
        ⟨some node, ?_, ?_⟩
      · refine (eventPath_append _ init [p] list (some node)).mpr ⟨some p, ?_, ?_⟩
        · rw [← hr1]
          refine eventPath_congr mem _ init list r1 (fun a ha => ?_) hinit
          have hap : a ≠ p := ne_of_mem_of_not_mem ha hp_init
          have han : a ≠ node := ne_of_mem_of_not_mem (List.mem_append_left _ ha) hnpre
          rw [store_of_ne _ _ _ _ hap, store_of_ne _ _ _ _ han]
        · refine ⟨rfl, ?_⟩
          rw [store_same]
          rfl
      · refine ⟨rfl, ?_⟩
        rw [store_of_ne _ _ _ _ hnp, store_same]
        show EventPath _ post.head? post none
        rw [← hr]
        refine eventPath_congr mem _ post r none (fun a ha => ?_) hpath2
        have hap : a ≠ p := ne_of_mem_of_not_mem ha hp_post
        have han : a ≠ node := ne_of_mem_of_not_mem ha hnpost
        rw [store_of_ne _ _ _ _ hap, store_of_ne _ _ _ _ han]
    · exact hsorted _ (fun a => by
        by_cases h : a = p
        · rw [h, store_same, store_of_ne _ _ _ _ hpn]
        · rw [store_of_ne _ _ _ _ h]
          by_cases h2 : a = node
          · rw [h2, store_same]
          · rw [store_of_ne _ _ _ _ h2])
    · intro a
      by_cases h : a = p
      · rw [h, store_same, store_of_ne _ _ _ _ hpn]
      · rw [store_of_ne _ _ _ _ h]
        by_cases h2 : a = node
        · rw [h2, store_same]
        · rw [store_of_ne _ _ _ _ h2]

theorem event_list_insert_sorted_witness :
    IsEventList sampleEvents (some 1) [1, 2] ∧ SortedByWhen sampleEvents [1, 2] ∧
    3 ∉ [1, 2] ∧ [1, 2].length < 3 ∧
    ∃ mem2 list2 nodes2, event_list_insert 3 sampleEvents (some 1) 3 = some (mem2, list2) ∧
      IsEventList mem2 list2 nodes2 ∧ SortedByWhen mem2 nodes2 ∧
      nodes2.Perm (3 :: [1, 2]) ∧ nodes2.Nodup ∧
      ∀ a, (mem2 a).when = (sampleEvents a).when :=
  ⟨⟨rfl, rfl, rfl⟩, by simp [SortedByWhen, sampleEvents], by decide, by decide,
    event_list_insert_sorted sampleEvents (some 1) [1, 2] 3 3 ⟨rfl, rfl, rfl⟩
      (by simp [SortedByWhen, sampleEvents]) (by decide) (by decide)⟩

theorem load_paths_pathsAt (f : List Nat) (n pos : Nat) (h : pos + 64 * n ≤ f.length) :
    load_paths f pos n = .ok (pathsAt f pos n) := by
  induction n generalizing pos with
  | zero => rfl
  | succ k ih =>
    rw [load_paths, if_pos (by omega), ih (pos + 0x40) (by omega)]
    rfl

theorem load_object_flag (f path : List Nat) (s : Catalog) (h : s.pos + 4 ≤ f.length)
    (hne : u32At f s.pos ≠ OBJECT_PROPERTIES_HEADER) :
    load_object f path s = .error (.flag (u32At f s.pos) s.pos) := by
  simp only [load_object, loadHeader_full f s.pos s.header h, ne_eq, hne, not_false_eq_true,
    if_true, Nat.add_sub_cancel]

theorem load_object_ok (f path : List Nat) (s : Catalog) (h : s.pos + 32 ≤ f.length)
    (hsig : u32At f s.pos = OBJECT_PROPERTIES_HEADER) (hnul : 0 ∈ path) :
    ∃ o, load_object f path s =
      .ok ⟨s.pos + 32, OBJECT_PROPERTIES_HEADER, s.objects ++ [o]⟩ := by
  have e32 : s.pos + 4 + 20 + 8 = s.pos + 32 := by omega
  refine ⟨map_object_add (path.takeWhile (fun c => c ≠ 0)) (u32At f (s.pos + 4))
    (u32At f (s.pos + 4 + 4) ||| u32At f (s.pos + 4 + 8) ||| u32At f (s.pos + 4 + 12)
      ||| u32At f (s.pos + 4 + 16)), ?_⟩
  simp only [load_object, loadHeader_full f s.pos s.header (by omega), hsig, ne_eq,
    not_true_eq_false, if_false, e32,
    loadWord_ok (show s.pos + 4 + 4 ≤ f.length by omega),
    loadWord_ok (show s.pos + 4 + 4 + 4 ≤ f.length by omega),
    loadWord_ok (show s.pos + 4 + 8 + 4 ≤ f.length by omega),
    loadWord_ok (show s.pos + 4 + 12 + 4 ≤ f.length by omega),
    loadWord_ok (show s.pos + 4 + 16 + 4 ≤ f.length by omega), cstring, hnul, if_true]

/-- The loop over the property records returns when every record starts with its signature. -/
theorem forEach_load_object_ok (f : List Nat) (n pp : Nat) (s : Catalog)
    (hlen : s.pos + 32 * n ≤ f.length)
    (hsig : ∀ i < n, u32At f (s.pos + 32 * i) = OBJECT_PROPERTIES_HEADER)
    (hnul : ∀ i < n, 0 ∈ readAt f (pp + 64 * i) 64) :
    ∃ t, forEach (pathsAt f pp n) (load_object f) s = .ok t := by
  induction n generalizing pp s with
  | zero => exact ⟨s, rfl⟩
  | succ k ih =>
    have h0 := hsig 0 (by omega)
    have n0 := hnul 0 (by omega)
    rw [Nat.mul_zero, Nat.add_zero] at h0 n0
    obtain ⟨o, ho⟩ := load_object_ok f (readAt f pp 64) s (by omega) h0 n0
    rw [pathsAt, forEach_cons, ho]
    refine ih (pp + 0x40) ⟨s.pos + 32, OBJECT_PROPERTIES_HEADER, s.objects ++ [o]⟩
      (by dsimp only; omega) ?_ ?_
    · intro i hi
      have := hsig (i + 1) (by omega)
      rw [Nat.mul_succ, Nat.add_comm (32 * i) 32, ← Nat.add_assoc] at this
      exact this
    · intro i hi
      have := hnul (i + 1) (by omega)
      rw [Nat.mul_succ, Nat.add_comm (64 * i) 64, ← Nat.add_assoc] at this
      exact this

/-- The loop over the property records stops at the first record that does not start with its
signature, with the word read and the offset of the record. -/
theorem forEach_load_object_flag (f : List Nat) (n pp : Nat) (s : Catalog) (i : Nat)
    (hi : i < n) (hlen : s.pos + 32 * n ≤ f.length)
    (hgood : ∀ j < i, u32At f (s.pos + 32 * j) = OBJECT_PROPERTIES_HEADER)
    (hbad : u32At f (s.pos + 32 * i) ≠ OBJECT_PROPERTIES_HEADER)
    (hnul : ∀ j < n, 0 ∈ readAt f (pp + 64 * j) 64) :
    forEach (pathsAt f pp n) (load_object f) s =
      .error (.flag (u32At f (s.pos + 32 * i)) (s.pos + 32 * i)) := by
  induction n generalizing pp s i with
  | zero => omega
  | succ k ih =>
    cases i with
    | zero =>
      simp only [Nat.mul_zero, Nat.add_zero] at hbad ⊢
      simp only [pathsAt, forEach_cons, load_object_flag f _ s (by omega) hbad]
    | succ j =>
      have h0 := hgood 0 (by omega)
      have n0 := hnul 0 (by omega)
      rw [Nat.mul_zero, Nat.add_zero] at h0 n0
      obtain ⟨o, ho⟩ := load_object_ok f (readAt f pp 64) s (by omega) h0 n0
      have e : s.pos + 32 * (j + 1) = s.pos + 32 + 32 * j := by omega
      rw [pathsAt, forEach_cons, ho, e]
      refine ih (pp + 0x40) ⟨s.pos + 32, OBJECT_PROPERTIES_HEADER, s.objects ++ [o]⟩ j
        (by omega) (by dsimp only; omega) ?_ ?_ ?_
      · intro l hl
        have := hgood (l + 1) (by omega)
        rw [Nat.mul_succ, Nat.add_comm (32 * l) 32, ← Nat.add_assoc] at this
        exact this
      · dsimp only
        rw [← e]
        exact hbad
      · intro l hl
        have := hnul (l + 1) (by omega)
        rw [Nat.mul_succ, Nat.add_comm (64 * l) 64, ← Nat.add_assoc] at this
        exact this

/-- C24: on a file that holds every byte that `map_load` reads, `map_load` aborts when the word
at offset 0 is not the `MARC` signature (message with the word and the offset 0), when the word
at the map-block offset is not the `MAPF` signature (message with the word and the map-block
offset), and at the first of the `N` 32-byte records after the path table whose first word is
not `0x10` (message with the word and the offset of that record); when no signature disagrees
it returns a map. -/
theorem map_load_aborts_iff (f : List Nat) (map_data : Nat) (hc : Complete f) :
    (u32At f 0 ≠ MARC_HEADER → map_load f map_data = .error (.marc (u32At f 0))) ∧
    (u32At f 0 = MARC_HEADER → u32At f (u32At f 0xc) ≠ MAPF_HEADER →
      map_load f map_data = .error (.mapf (u32At f (u32At f 0xc)) (u32At f 0xc))) ∧
    (u32At f 0 = MARC_HEADER → u32At f (u32At f 0xc) = MAPF_HEADER →
      ∀ i < u32At f 4,
        (∀ j < i, u32At f (16 + 64 * u32At f 4 + 32 * j) = OBJECT_PROPERTIES_HEADER) →
        u32At f (16 + 64 * u32At f 4 + 32 * i) ≠ OBJECT_PROPERTIES_HEADER →
        map_load f map_data = .error (.flag (u32At f (16 + 64 * u32At f 4 + 32 * i))
          (16 + 64 * u32At f 4 + 32 * i))) ∧
    (u32At f 0 = MARC_HEADER → u32At f (u32At f 0xc) = MAPF_HEADER →
      (∀ i < u32At f 4, u32At f (16 + 64 * u32At f 4 + 32 * i) = OBJECT_PROPERTIES_HEADER) →
      ∃ m, map_load f map_data = .ok m) := by
  obtain ⟨h16, hmap, htab, hnul⟩ := hc
  have l0 : loadWord f 0 = .ok (u32At f 0) := loadWord_ok (by omega)
  have l4 : loadWord f 4 = .ok (u32At f 4) := loadWord_ok (by omega)
  have l8 : loadWord f 8 = .ok (u32At f 8) := loadWord_ok (by omega)
  have l12 : loadWord f 12 = .ok (u32At f 12) := loadWord_ok (by omega)
  have lh : ∀ old, loadHeader f (u32At f 12) old = (u32At f (u32At f 12), u32At f 12 + 4) :=
    fun old => loadHeader_full f (u32At f 12) old (by omega)
  have lw : loadWord f (u32At f 12 + 4) = .ok (u32At f (u32At f 12 + 4)) :=
    loadWord_ok (by omega)
  have lht : loadWord f (u32At f 12 + 4 + 4) = .ok (u32At f (u32At f 12 + 8)) := by
    rw [loadWord_ok (by omega)]
  obtain ⟨md, hcells⟩ := forI_load_rows f (u32At f (u32At f 12 + 4)) (u32At f (u32At f 12 + 8)) 0
    ⟨u32At f 12 + 4 + 4 + 4 + 0x4, map_data, map_allocate⟩
    (by dsimp only; rw [Nat.mul_comm]; omega)
  have hpaths := load_paths_pathsAt f (u32At f 4) 16 (by omega)
  have e16 : 0x10 + 0x40 * u32At f 4 = 16 + 64 * u32At f 4 := rfl
  refine ⟨?_, ?_, ?_, ?_⟩
  · intro hne
    simp only [map_load, l0, ne_eq, hne, not_false_eq_true, if_true]
  · intro hmarc hne
    simp only [map_load, l0, l4, l8, l12, lh, hmarc, ne_eq, not_true_eq_false, if_false, hne,
      not_false_eq_true, if_true]
  · intro hmarc hmapf i hi hgood hbad
    have hflag := forEach_load_object_flag f (u32At f 4) 16
      ⟨16 + 64 * u32At f 4, MAPF_HEADER, []⟩ i hi (by dsimp only; omega) hgood hbad hnul
    simp only [map_load, l0, l4, l8, l12, lh, hmarc, hmapf, ne_eq, not_true_eq_false, if_false,
      lw, lht, hcells, hpaths, e16, hflag]
  · intro hmarc hmapf hgood
    obtain ⟨t, ht⟩ := forEach_load_object_ok f (u32At f 4) 16
      ⟨16 + 64 * u32At f 4, MAPF_HEADER, []⟩ (by dsimp only; omega) hgood hnul
    simp only [map_load, l0, l4, l8, l12, lh, hmarc, hmapf, ne_eq, not_true_eq_false, if_false,
      lw, lht, hcells, hpaths, e16, ht, Except.ok.injEq, exists_eq']

set_option maxRecDepth 100000 in
theorem map_load_aborts_iff_witness :
    Complete gapArchive ∧
    (u32At gapArchive 0 ≠ MARC_HEADER →
      map_load gapArchive 170 = .error (.marc (u32At gapArchive 0))) ∧
    (u32At gapArchive 0 = MARC_HEADER → u32At gapArchive (u32At gapArchive 0xc) ≠ MAPF_HEADER →
      map_load gapArchive 170 =
        .error (.mapf (u32At gapArchive (u32At gapArchive 0xc)) (u32At gapArchive 0xc))) ∧
    (u32At gapArchive 0 = MARC_HEADER → u32At gapArchive (u32At gapArchive 0xc) = MAPF_HEADER →
      ∀ i < u32At gapArchive 4,
        (∀ j < i, u32At gapArchive (16 + 64 * u32At gapArchive 4 + 32 * j)
          = OBJECT_PROPERTIES_HEADER) →
        u32At gapArchive (16 + 64 * u32At gapArchive 4 + 32 * i) ≠ OBJECT_PROPERTIES_HEADER →
        map_load gapArchive 170 =
          .error (.flag (u32At gapArchive (16 + 64 * u32At gapArchive 4 + 32 * i))
            (16 + 64 * u32At gapArchive 4 + 32 * i))) ∧
    (u32At gapArchive 0 = MARC_HEADER → u32At gapArchive (u32At gapArchive 0xc) = MAPF_HEADER →
      (∀ i < u32At gapArchive 4,
        u32At gapArchive (16 + 64 * u32At gapArchive 4 + 32 * i) = OBJECT_PROPERTIES_HEADER) →
      ∃ m, map_load gapArchive 170 = .ok m) :=
  ⟨by decide, map_load_aborts_iff gapArchive 170 (by decide)⟩

set_option maxRecDepth 100000 in
/-- C30 (failing input): in `gapArchive` the property-table offset field holds 96 and a valid
property record lies at offset 96, but `map_load` reads the record at offset 80, right after
the path table, and aborts on the word 0 that it finds there. -/
theorem map_load_ignores_property_offset (map_data : Nat) :
    u32At gapArchive 0 = MARC_HEADER ∧ u32At gapArchive 4 = 1 ∧ u32At gapArchive 8 = 96 ∧
    readAt gapArchive (u32At gapArchive 8) 32
      = tile_attributes ⟨[97], 1, .air, false, false, false⟩ ∧
    u32At gapArchive (u32At gapArchive 0xc) = MAPF_HEADER ∧
    map_load gapArchive map_data = .error (.flag 0 80) := by
  refine ⟨by decide, by decide, by decide, by decide, by decide, rfl⟩

/-- The counting part of `prune_objects` does not read the property table. -/
theorem prune_objects_count_framed {f : List Nat} {N W H : Nat} (hfr : Framed f N W H) :
    ∃ c, prune_objects_count f = .ok c ∧ c.used_tiles.length = N := by
  obtain ⟨hb, hN, hm, hcell⟩ := hfr
  obtain ⟨h0, h12, hm16, hsig, hw, hh, hlen⟩ := hm
  have r0 : read32 f 0 = .ok MARC_HEADER := by rw [read32_ok (by omega), h0]
  have r4 : read32 f (0 + 4) = .ok N := by rw [read32_ok (by omega), hN]
  have r12 : read32 f 0xc = .ok (16 + 96 * N) := by rw [read32_ok (by omega), h12]
  have rm : read32 f (16 + 96 * N) = .ok MAPF_HEADER := by rw [read32_ok (by omega), hsig]
  have rw4 : read32 f (16 + 96 * N + 4) = .ok W := by rw [read32_ok (by omega), hw]
  have rh : read32 f (16 + 96 * N + 4 + 4) = .ok H := by rw [read32_ok (by omega), hh]
  obtain ⟨md, hmd⟩ := forN_count_cell f N (H * W)
    ⟨16 + 96 * N + 16, List.replicate N 0, none⟩
    (by dsimp only; rw [Nat.mul_comm H W]; omega)
    (fun j hj => by
      dsimp only
      exact valid_cell_cases (getD_lt_256 hb _) (hcell j (by rwa [Nat.mul_comm W H])))
  dsimp only at hmd
  refine ⟨⟨N, tally (List.replicate N 0) (readAt f (16 + 96 * N + 16) (H * W)), W, H, md⟩, ?_,
    ?_⟩
  · simp only [prune_objects_count, validate_marc_header, seek_mapf_header,
      validate_mapf_header, r0, r4, r12, rm, rw4, rh, ne_eq, not_true_eq_false, if_false,
      forN_forN, hmd]
  · dsimp only
    rw [length_tally, List.length_replicate]

/-- The loop of `prune_objects` over the property records stops at the first record that does
not start with its signature, with the word read. -/
theorem forEach_prune_properties_stop (bak : List Nat) (us : List Nat) (s : Records) (i : Nat)
    (hi : i < us.length) (h : s.bpos + 32 * us.length ≤ bak.length)
    (hgood : ∀ j < i, u32At bak (s.bpos + 32 * j) = OBJECT_PROPERTIES_HEADER)
    (hbad : u32At bak (s.bpos + 32 * i) ≠ OBJECT_PROPERTIES_HEADER) :
    ∃ g, forEach us (prune_properties bak) s =
      .error (.object (u32At bak (s.bpos + 32 * i)), g) := by
  induction us generalizing s i with
  | nil => simp at hi
  | cons u us ih =>
    rw [List.length_cons, Nat.mul_succ] at h
    cases i with
    | zero =>
      simp only [Nat.mul_zero, Nat.add_zero] at hbad ⊢
      refine ⟨s.new, ?_⟩
      simp only [forEach_cons, prune_properties, validate_object_properties_header,
        read32_ok (show s.bpos + 4 ≤ bak.length by omega), ne_eq, hbad, not_false_eq_true,
        if_true]
    | succ j =>
      have h0 := hgood 0 (by omega)
      rw [Nat.mul_zero, Nat.add_zero] at h0
      have hv : validate_object_properties_header bak s.bpos = .ok (s.bpos + 4) := by
        rw [validate_object_properties_header, read32_ok (by omega), h0]
        simp
      have hr : readExact bak s.bpos 0x20 = .ok (readAt bak s.bpos 32) := by
        rw [readExact, if_pos (by omega)]
      obtain ⟨t, ht, htb⟩ : ∃ t, prune_properties bak u s = .ok t ∧ t.bpos = s.bpos + 32 := by
        by_cases hu : u = 0
        · refine ⟨{ s with bpos := s.bpos + 32 }, ?_, rfl⟩
          simp only [prune_properties, hv, Nat.add_sub_cancel, hu, ne_eq, not_true_eq_false,
            if_false]
        · refine ⟨⟨s.bpos + 32, writeAt s.new s.npos (readAt bak s.bpos 32), s.npos + 0x20⟩,
            ?_, rfl⟩
          simp only [prune_properties, hv, Nat.add_sub_cancel, hu, ne_eq, not_false_eq_true,
            if_true, hr]
      have e : s.bpos + 32 * (j + 1) = t.bpos + 32 * j := by rw [htb]; omega
      rw [forEach_cons, ht, e]
      refine ih t j (by simp only [List.length_cons] at hi; omega) (by rw [htb]; omega) ?_ ?_
      · intro l hl
        have := hgood (l + 1) (by omega)
        rw [htb]
        rw [Nat.mul_succ, Nat.add_comm (32 * l) 32, ← Nat.add_assoc] at this
        exact this
      · rw [← e]
        exact hbad

/-- C25 (amended): for each of the four mutations, when the container signature or the
map-block signature read from the snapshot does not match (for `set_map_objects` the map-block
signature is read only when the catalog does not shrink), the call aborts with the archive
untouched and the backup on disk; `prune_objects` also aborts at the first property record
whose signature does not match.  In each case the error carries the word read in place of the
signature, and no offset. -/
theorem mutation_signature_mismatch (f : List Nat) (map_width map_height : Nat)
    (properties : List MapObjectProperties) (hlen : 16 ≤ f.length) :
    (u32At f 0 ≠ MARC_HEADER →
      set_map_width f map_width = ⟨f, true, some (.marc (u32At f 0))⟩ ∧
      set_map_height f map_height = ⟨f, true, some (.marc (u32At f 0))⟩ ∧
      set_map_objects f properties = ⟨f, true, some (.marc (u32At f 0))⟩ ∧
      prune_objects f = ⟨f, true, some (.marc (u32At f 0))⟩) ∧
    (u32At f 0 = MARC_HEADER → u32At f 0xc + 4 ≤ f.length →
      u32At f (u32At f 0xc) ≠ MAPF_HEADER →
      set_map_width f map_width = ⟨f, true, some (.mapf (u32At f (u32At f 0xc)))⟩ ∧
      set_map_height f map_height = ⟨f, true, some (.mapf (u32At f (u32At f 0xc)))⟩ ∧
      (u32At f 4 ≤ properties.length →
        set_map_objects f properties = ⟨f, true, some (.mapf (u32At f (u32At f 0xc)))⟩) ∧
      prune_objects f = ⟨f, true, some (.mapf (u32At f (u32At f 0xc)))⟩) ∧
    (∀ N W H i, Framed f N W H → i < N →
      (∀ j < i, u32At f (16 + 64 * N + 32 * j) = OBJECT_PROPERTIES_HEADER) →
      u32At f (16 + 64 * N + 32 * i) ≠ OBJECT_PROPERTIES_HEADER →
      ∃ g, prune_objects f = ⟨g, true, some (.object (u32At f (16 + 64 * N + 32 * i)))⟩) := by
  have r0 : read32 f 0 = .ok (u32At f 0) := read32_ok (by omega)
  have r4 : read32 f (0 + 4) = .ok (u32At f 4) := read32_ok (by omega)
  have r12 : read32 f 0xc = .ok (u32At f 0xc) := read32_ok (by omega)
  refine ⟨?_, ?_, ?_⟩
  · intro hne
    have hv : validate_marc_header f 0 = .error (.marc (u32At f 0)) := by
      simp only [validate_marc_header, r0, ne_eq, hne, not_false_eq_true, if_true]
    refine ⟨?_, ?_, ?_, ?_⟩
    · simp only [set_map_width, set_map_width_open, hv]
    · simp only [set_map_height, set_map_height_open, hv]
    · simp only [set_map_objects, set_map_objects_open, hv]
    · simp only [prune_objects, prune_objects_count, hv]
  · intro hmarc hm hne
    have hv : validate_marc_header f 0 = .ok (0 + 4) := by
      simp only [validate_marc_header, r0, hmarc, ne_eq, not_true_eq_false, if_false]
    have hs : seek_mapf_header f = .ok (u32At f 0xc) := r12
    have hf : validate_mapf_header f (u32At f 0xc) = .error (.mapf (u32At f (u32At f 0xc))) := by
      simp only [validate_mapf_header, read32_ok hm, ne_eq, hne, not_false_eq_true, if_true]
    refine ⟨?_, ?_, ?_, ?_⟩
    · simp only [set_map_width, set_map_width_open, hv, hs, hf]
    · simp only [set_map_height, set_map_height_open, hv, hs, hf]
    · intro hle
      simp only [set_map_objects, set_map_objects_open, hv, r4, gt_iff_lt, Nat.not_lt.mpr hle,
        if_false, hs, hf]
    · simp only [prune_objects, prune_objects_count, hv, r4, hs, hf]
  · intro N W H i hfr hi hgood hbad
    obtain ⟨c, hc, hcl⟩ := prune_objects_count_framed hfr
    have hlenf := hfr.2.2.1.2.2.2.2.2.2
    have e1 := forEach_prune_path f c.used_tiles
      ⟨16, writeAt f 4 (le32 (count_used c.used_tiles)), 16⟩
      (by dsimp only; rw [hcl]; omega)
      (by dsimp only; simp only [length_writeAt, length_le32]; omega)
    dsimp only at e1
    rw [hcl] at e1
    obtain ⟨g, hg⟩ := forEach_prune_properties_stop f c.used_tiles
      ⟨16 + 64 * N, writeAt (writeAt (writeAt f 4 (le32 (count_used c.used_tiles))) 16
        (keep f 16 64 c.used_tiles)) 8
        (le32 ((16 + 64 * count_used c.used_tiles) % 4294967296)),
        (16 + 64 * count_used c.used_tiles) % 4294967296⟩ i
      (by rw [hcl]; exact hi) (by dsimp only; rw [hcl]; omega) hgood hbad
    refine ⟨g, ?_⟩
    simp only [prune_objects, hc, prune_objects_write, Nat.reduceAdd, e1, hg]

set_option maxRecDepth 100000 in
theorem mutation_signature_mismatch_witness :
    16 ≤ badMarcArchive.length ∧ u32At badMarcArchive 0 ≠ MARC_HEADER ∧
    (set_map_width badMarcArchive 5 = ⟨badMarcArchive, true, some (.marc 0)⟩ ∧
      set_map_height badMarcArchive 5 = ⟨badMarcArchive, true, some (.marc 0)⟩ ∧
      set_map_objects badMarcArchive sampleDefinitions
        = ⟨badMarcArchive, true, some (.marc 0)⟩ ∧
      prune_objects badMarcArchive = ⟨badMarcArchive, true, some (.marc 0)⟩) ∧
    16 ≤ badMapArchive.length ∧ u32At badMapArchive 0 = MARC_HEADER ∧
    u32At badMapArchive 0xc + 4 ≤ badMapArchive.length ∧
    u32At badMapArchive (u32At badMapArchive 0xc) ≠ MAPF_HEADER ∧
    (set_map_width badMapArchive 5 = ⟨badMapArchive, true, some (.mapf 0)⟩ ∧
      set_map_height badMapArchive 5 = ⟨badMapArchive, true, some (.mapf 0)⟩ ∧
      (u32At badMapArchive 4 ≤ sampleDefinitions.length →
        set_map_objects badMapArchive sampleDefinitions
          = ⟨badMapArchive, true, some (.mapf 0)⟩) ∧
      prune_objects badMapArchive = ⟨badMapArchive, true, some (.mapf 0)⟩) ∧
    Framed badRecordArchive 1 2 2 ∧
    ∃ g, prune_objects badRecordArchive = ⟨g, true, some (.object 17)⟩ :=
  ⟨by decide, by decide,
    (mutation_signature_mismatch badMarcArchive 5 5 sampleDefinitions (by decide)).1
      (by decide),
    by decide, by decide, by decide, by decide,
    (mutation_signature_mismatch badMapArchive 5 5 sampleDefinitions (by decide)).2.1
      (by decide) (by decide) (by decide),
    by decide,
    (mutation_signature_mismatch badRecordArchive 5 5 sampleDefinitions (by decide)).2.2
      1 2 2 0 (by decide) (by decide) (by decide) (by decide)⟩

set_option maxRecDepth 100000 in
/-- C25 (counterexample): in `badMapArchive` the word that is not the `MAPF` signature is at
offset 16, in `badMapArchiveFar` it is at offset 20; `set_map_width` aborts on both with the
same error, which carries the word read, 0, and nothing that tells the two offsets apart. -/
theorem validate_mapf_header_reports_no_offset :
    u32At badMapArchive 0xc = 16 ∧ u32At badMapArchiveFar 0xc = 20 ∧
    set_map_width badMapArchive 5 = ⟨badMapArchive, true, some (.mapf 0)⟩ ∧
    set_map_width badMapArchiveFar 5 = ⟨badMapArchiveFar, true, some (.mapf 0)⟩ ∧
    (set_map_width badMapArchive 5).stop = (set_map_width badMapArchiveFar 5).stop := by
  decide

/-- C39: `map_object_properties_new` stores the path (a C string) and the frame count
unchanged, the solidity solid, semi-solid, air as 2, 1, 0, destructible as 4 and
not-destructible as 0, collectible as 8 and not-collectible as 0, generator as 16 and
not-generator as 0, and `0xFFFFFFFF` in the field of any other enumeration value. -/
theorem map_object_properties_new_eq (path : List Nat) (frames : Nat) (s : enum_solidity)
    (d : enum_destructible) (c : enum_collectible) (g : enum_generator) (block : Nat → Nat)
    (hpath : ∀ ch ∈ path, ch ≠ 0) :
    map_object_properties_new path frames s d c g block =
      .ok ⟨path, frames,
        match s with
        | .solidity_arg_solid => 2
        | .solidity_arg_semi_solid => 1
        | .solidity_arg_air => 0
        | .other => 0xFFFFFFFF,
        match d with
        | .destructible_arg_destructible => 4
        | .destructible_arg_not_destructible => 0
        | .other => 0xFFFFFFFF,
        match c with
        | .collectible_arg_collectible => 8
        | .collectible_arg_not_collectible => 0
        | .other => 0xFFFFFFFF,
        match g with
        | .generator_arg_generator => 16
        | .generator_arg_not_generator => 0
        | .other => 0xFFFFFFFF⟩ := by
  have hml : (malloc (path.length + 1) block).length = path.length + 1 := by simp [malloc]
  have e1 : strcpy (malloc (path.length + 1) block) path =
      .ok (path ++ 0 :: (malloc (path.length + 1) block).drop (path.length + 1)) := by
    rw [strcpy, if_pos (by omega)]
    simp
  simp only [map_object_properties_new, e1, cstr_append_nul _ _ hpath]
  cases s <;> cases d <;> cases c <;> cases g <;> rfl

theorem map_object_properties_new_eq_witness :
    (∀ ch ∈ [97, 46, 112, 110, 103], ch ≠ 0) ∧
    map_object_properties_new [97, 46, 112, 110, 103] 3 .solidity_arg_solid
        .destructible_arg_not_destructible .other .generator_arg_generator (fun _ => 255) =
      .ok ⟨[97, 46, 112, 110, 103], 3, 2, 0, 0xFFFFFFFF, 16⟩ :=
  ⟨by decide,
    map_object_properties_new_eq [97, 46, 112, 110, 103] 3 .solidity_arg_solid
      .destructible_arg_not_destructible .other .generator_arg_generator (fun _ => 255)
      (by decide)⟩

/-- The `when` of a new event when the product `delay * 1000` fits 32 bits and the time of day
lies after the shift of the epoch and within 64 bits. -/
theorem event_list_new_when (delay parameters : Nat) (now : Timeval)
    (hd : delay * 1000 < 4294967296) (hs : 3600 * 24 * 365 * 46 ≤ now.tv_sec)
    (hfit : shiftedInstant now + 4294967296 < 18446744073709551616) :
    (event_list_new delay parameters now).when = shiftedInstant now + 1000 * delay := by
  unfold shiftedInstant at hfit
  simp only [event_list_new, shiftedInstant]
  have e1 : (now.tv_sec + 18446744073709551616 - 3600 * 24 * 365 * 46) % 18446744073709551616
      = now.tv_sec - 3600 * 24 * 365 * 46 := by
    omega
  rw [e1, Nat.mod_eq_of_lt hd, Nat.mod_eq_of_lt (by omega)]
  omega

/-- C38 (failing input): for the delay 4294968 ms the timer value is 4294 s and 968000 µs, that
is 4294968000 µs, but `when` is only 704 µs after the creation instant: the product
`delay * 1000` is computed on 32 bits and 4294968000 wraps to 704. -/
theorem event_list_new_when_wraps :
    (event_list_new 4294968 0 sampleNow).timer = ⟨⟨0, 0⟩, ⟨4294, 968000⟩⟩ ∧
    shiftedInstant sampleNow = 349344000000005 ∧
    (event_list_new 4294968 0 sampleNow).when = shiftedInstant sampleNow + 704 ∧
    (event_list_new 4294968 0 sampleNow).when ≠ shiftedInstant sampleNow + 1000 * 4294968 := by
  decide

theorem u32At_prunedArchive_12 {f : List Nat} {N W H : Nat} (hwf : WellFormed f N W H) :
    u32At (prunedArchive f N W H) 0xc = 16 + 96 * count_used (usedOf f N) := by
  have hn : count_used (usedOf f N) ≤ N := by
    have := count_used_le (usedOf f N); rwa [length_usedOf] at this
  have := hwf.layout_lt
  rw [prunedArchive_relaid, u32At_ftruncate _ _ _ (by omega)]
  exact u32At_relaid_12 _ _ _ _ _ (by omega)

/-- C37 (divergence): on a well-formed archive whose grid has no cell, `prune_objects` leaves a
file that ends 15 bytes after the new map-block offset: the sixteenth byte of the map block
header is not in the file. -/
theorem prune_objects_cuts_map_header (f : List Nat) (N W H : Nat) (hwf : WellFormed f N W H)
    (hzero : W * H = 0) :
    ∃ g, prune_objects f = ⟨g, true, none⟩ ∧ g.length = u32At g 0xc + 15 ∧
      (readAt g (u32At g 0xc) 16).length = 15 ∧
      readAt f (u32At f 0xc) 16 ≠ readAt g (u32At g 0xc) 16 := by
  have hlen := length_prunedArchive f N W H
  have hc := u32At_prunedArchive_12 hwf
  have hf := hwf.hasMap.2.2.2.2.2.2
  have hfc := hwf.hasMap.2.1
  rw [Nat.mul_comm H W, hzero, Nat.add_zero] at hlen
  have hl15 : (readAt (prunedArchive f N W H) (u32At (prunedArchive f N W H) 0xc) 16).length
      = 15 := by
    rw [length_readAt, hlen, hc]
    omega
  refine ⟨_, prune_objects_eq hwf, by rw [hlen, hc], hl15, ?_⟩
  intro he
  have hl16 : (readAt f (u32At f 0xc) 16).length = 16 := by
    rw [length_readAt, hfc]
    omega
  rw [he, hl15] at hl16
  omega

set_option maxRecDepth 100000 in
theorem prune_objects_cuts_map_header_witness :
    WellFormed emptyGridArchive 0 0 0 ∧ 0 * 0 = 0 ∧
    ∃ g, prune_objects emptyGridArchive = ⟨g, true, none⟩ ∧ g.length = u32At g 0xc + 15 ∧
      (readAt g (u32At g 0xc) 16).length = 15 ∧
      readAt emptyGridArchive (u32At emptyGridArchive 0xc) 16 ≠ readAt g (u32At g 0xc) 16 :=
  ⟨by decide, by decide,
    prune_objects_cuts_map_header emptyGridArchive 0 0 0 (by decide) (by decide)⟩

/-- The four mutations leave the archive as it is when the container signature does not
match. -/
theorem archive_of_bad_marc (f : List Nat) (map_width map_height : Nat)
    (properties : List MapObjectProperties) (hlen : 4 ≤ f.length)
    (hne : u32At f 0 ≠ MARC_HEADER) :
    (set_map_width f map_width).archive = f ∧ (set_map_height f map_height).archive = f ∧
    (set_map_objects f properties).archive = f ∧ (prune_objects f).archive = f := by
  have hv : validate_marc_header f 0 = .error (.marc (u32At f 0)) := by
    simp only [validate_marc_header, read32_ok (show 0 + 4 ≤ f.length by omega), ne_eq, hne,
      not_false_eq_true, if_true]
  refine ⟨?_, ?_, ?_, ?_⟩
  · simp only [set_map_width, set_map_width_open, hv]
  · simp only [set_map_height, set_map_height_open, hv]
  · simp only [set_map_objects, set_map_objects_open, hv]
  · simp only [prune_objects, prune_objects_count, hv]

/-- The four mutations leave the archive as it is when the map-block signature does not
match. -/
theorem archive_of_bad_mapf (f : List Nat) (map_width map_height : Nat)
    (properties : List MapObjectProperties) (hlen : 16 ≤ f.length)
    (hmarc : u32At f 0 = MARC_HEADER) (hm : u32At f 0xc + 4 ≤ f.length)
    (hne : u32At f (u32At f 0xc) ≠ MAPF_HEADER) :
    (set_map_width f map_width).archive = f ∧ (set_map_height f map_height).archive = f ∧
    (set_map_objects f properties).archive = f ∧ (prune_objects f).archive = f := by
  have hv : validate_marc_header f 0 = .ok (0 + 4) := by
    simp only [validate_marc_header, read32_ok (show 0 + 4 ≤ f.length by omega), hmarc, ne_eq,
      not_true_eq_false, if_false]
  have r4 : read32 f (0 + 4) = .ok (u32At f 4) := read32_ok (by omega)
  have hs : seek_mapf_header f = .ok (u32At f 0xc) := read32_ok (by omega)
  have hf : validate_mapf_header f (u32At f 0xc) = .error (.mapf (u32At f (u32At f 0xc))) := by
    simp only [validate_mapf_header, read32_ok hm, ne_eq, hne, not_false_eq_true, if_true]
  refine ⟨?_, ?_, ?_, ?_⟩
  · simp only [set_map_width, set_map_width_open, hv, hs, hf]
  · simp only [set_map_height, set_map_height_open, hv, hs, hf]
  · by_cases hle : u32At f 4 ≤ properties.length
    · simp only [set_map_objects, set_map_objects_open, hv, r4, gt_iff_lt,
        Nat.not_lt.mpr hle, if_false, hs, hf]
    · simp only [set_map_objects, set_map_objects_open, hv, r4, gt_iff_lt,
        Nat.lt_of_not_le hle, if_true]
  · simp only [prune_objects, prune_objects_count, hv, r4, hs, hf]

/-- C32: for each of `set_map_width`, `set_map_height`, `set_map_objects` and `prune_objects`,
when the container signature of the archive or its map-block signature does not match, the
archive file holds the same bytes after the call as before. -/
theorem mutation_bad_signature_atomic (f : List Nat) (map_width map_height : Nat)
    (properties : List MapObjectProperties) (hlen : 16 ≤ f.length)
    (hm : u32At f 0xc + 4 ≤ f.length)
    (hbad : u32At f 0 ≠ MARC_HEADER ∨ u32At f (u32At f 0xc) ≠ MAPF_HEADER) :
    (set_map_width f map_width).archive = f ∧ (set_map_height f map_height).archive = f ∧
    (set_map_objects f properties).archive = f ∧ (prune_objects f).archive = f := by
  by_cases hmarc : u32At f 0 = MARC_HEADER
  · rcases hbad with h | h
    · exact absurd hmarc h
    · exact archive_of_bad_mapf f map_width map_height properties hlen hmarc hm h
  · exact archive_of_bad_marc f map_width map_height properties (by omega) hmarc

set_option maxRecDepth 100000 in
theorem mutation_bad_signature_atomic_witness :
    16 ≤ badMapArchive.length ∧ u32At badMapArchive 0xc + 4 ≤ badMapArchive.length ∧
    (u32At badMapArchive 0 ≠ MARC_HEADER ∨
      u32At badMapArchive (u32At badMapArchive 0xc) ≠ MAPF_HEADER) ∧
    (set_map_width badMapArchive 5).archive = badMapArchive ∧
    (set_map_height badMapArchive 5).archive = badMapArchive ∧
    (set_map_objects badMapArchive sampleDefinitions).archive = badMapArchive ∧
    (prune_objects badMapArchive).archive = badMapArchive :=
  ⟨by decide, by decide, by decide,
    mutation_bad_signature_atomic badMapArchive 5 5 sampleDefinitions (by decide) (by decide)
      (by decide)⟩

/-- What `set_map_width` leaves of the bytes before the width field, and of the height. -/
theorem set_map_width_frame {f : List Nat} {m W H : Nat} (newW : Nat) (hm : HasMap f m W H) :
    readAt (set_map_width f newW).archive 0 (m + 4) = readAt f 0 (m + 4) ∧
    u32At (set_map_width f newW).archive (m + 8) = H := by
  have hlen := hm.2.2.2.2.2.2
  have hh := hm.2.2.2.2.2.1
  rcases Nat.lt_trichotomy newW W with hlt | heq | hgt
  · rw [set_map_width_shrink_eq hm hlt]
    dsimp only
    constructor
    · rw [readAt_ftruncate _ _ _ _ (by omega)
          (by simp only [length_writeAt, length_le32]; omega),
        readAt_writeAt_of_le _ _ _ _ _ (by omega)
          (by simp only [length_writeAt, length_le32]; omega),
        readAt_writeAt_of_le _ _ _ _ _ (by omega)
          (by simp only [length_writeAt, length_le32]; omega),
        readAt_writeAt_of_le _ _ _ _ _ (by omega) (by omega)]
    · rw [u32At_ftruncate _ _ _ (by omega), u32At_writeAt_of_le _ _ _ _ (by omega),
        u32At_writeAt_of_le _ _ _ _ (by omega),
        u32At_writeAt_of_ge _ _ _ _ (by rw [length_le32]), hh]
  · rw [heq]
    simp only [set_map_width, set_map_width_open_same hm]
    exact ⟨trivial, hh⟩
  · rw [set_map_width_expand_eq hm hgt]
    dsimp only
    constructor
    · rw [readAt_writeAt_of_le _ _ _ _ _ (by omega)
          (by simp only [length_writeAt, length_le32]; omega),
        readAt_writeAt_of_le _ _ _ _ _ (by omega)
          (by simp only [length_writeAt, length_le32]; omega),
        readAt_writeAt_of_le _ _ _ _ _ (by omega) (by omega)]
    · rw [u32At_writeAt_of_le _ _ _ _ (by omega), u32At_writeAt_of_le _ _ _ _ (by omega),
        u32At_writeAt_of_ge _ _ _ _ (by rw [length_le32]), hh]

/-- What `set_map_height` leaves of the bytes before the width field, and of the width. -/
theorem set_map_height_frame {f : List Nat} {m W H : Nat} (newH : Nat) (hm : HasMap f m W H)
    (hsk : (H - newH) * W < 4294967296) :
    readAt (set_map_height f newH).archive 0 (m + 4) = readAt f 0 (m + 4) ∧
    u32At (set_map_height f newH).archive (m + 4) = W := by
  have hlen := hm.2.2.2.2.2.2
  have hw := hm.2.2.2.2.1
  rcases Nat.lt_trichotomy newH H with hlt | heq | hgt
  · rw [set_map_height_shrink_eq hm hlt hsk]
    dsimp only
    constructor
    · rw [readAt_ftruncate _ _ _ _ (by omega)
          (by simp only [length_writeAt, length_le32]; omega),
        readAt_writeAt_of_le _ _ _ _ _ (by omega)
          (by simp only [length_writeAt, length_le32]; omega),
        readAt_writeAt_of_le _ _ _ _ _ (by omega)
          (by simp only [length_writeAt, length_le32]; omega),
        readAt_writeAt_of_le _ _ _ _ _ (by omega) (by omega)]
    · rw [u32At_ftruncate _ _ _ (by omega), u32At_writeAt_of_le _ _ _ _ (by omega),
        u32At_writeAt_of_le _ _ _ _ (by omega), u32At_writeAt_of_le _ _ _ _ (by omega), hw]
  · rw [heq]
    simp only [set_map_height, set_map_height_open_same hm]
    exact ⟨trivial, hw⟩
  · rw [set_map_height_expand_eq hm hgt]
    dsimp only
    constructor
    · rw [readAt_writeAt_of_le _ _ _ _ _ (by omega)
          (by simp only [length_writeAt, length_le32]; omega),
        readAt_writeAt_of_le _ _ _ _ _ (by omega)
          (by simp only [length_writeAt, length_le32]; omega),
        readAt_writeAt_of_le _ _ _ _ _ (by omega) (by omega)]
    · rw [u32At_writeAt_of_le _ _ _ _ (by omega), u32At_writeAt_of_le _ _ _ _ (by omega),
        u32At_writeAt_of_le _ _ _ _ (by omega), hw]

/-- C33: on a well-formed archive, after `set_map_width` and after `set_map_height` the bytes
before the map block and the four bytes of the `MAPF` signature are those of the archive before
the call; `set_map_width` leaves the height field and `set_map_height` the width field as they
were. -/
theorem resize_touches_map_block_only (f : List Nat) (N W H newW newH : Nat)
    (hwf : WellFormed f N W H) :
    readAt (set_map_width f newW).archive 0 (16 + 96 * N + 4) = readAt f 0 (16 + 96 * N + 4) ∧
    u32At (set_map_width f newW).archive (16 + 96 * N + 8) = u32At f (16 + 96 * N + 8) ∧
    readAt (set_map_height f newH).archive 0 (16 + 96 * N + 4) = readAt f 0 (16 + 96 * N + 4) ∧
    u32At (set_map_height f newH).archive (16 + 96 * N + 4) = u32At f (16 + 96 * N + 4) := by
  have hm := hwf.hasMap
  have hsk : (H - newH) * W < 4294967296 := by
    have h1 : (H - newH) * W ≤ H * W := Nat.mul_le_mul_right W (Nat.sub_le H newH)
    have h2 := hwf.size_lt
    rw [Nat.mul_comm W H] at h2
    omega
  obtain ⟨a1, a2⟩ := set_map_width_frame newW hm
  obtain ⟨b1, b2⟩ := set_map_height_frame newH hm hsk
  exact ⟨a1, a2.trans hm.2.2.2.2.2.1.symm, b1, b2.trans hm.2.2.2.2.1.symm⟩

set_option maxRecDepth 100000 in
theorem resize_touches_map_block_only_witness :
    WellFormed sampleArchive 1 2 2 ∧
    readAt (set_map_width sampleArchive 5).archive 0 (16 + 96 * 1 + 4)
      = readAt sampleArchive 0 (16 + 96 * 1 + 4) ∧
    u32At (set_map_width sampleArchive 5).archive (16 + 96 * 1 + 8)
      = u32At sampleArchive (16 + 96 * 1 + 8) ∧
    readAt (set_map_height sampleArchive 1).archive 0 (16 + 96 * 1 + 4)
      = readAt sampleArchive 0 (16 + 96 * 1 + 4) ∧
    u32At (set_map_height sampleArchive 1).archive (16 + 96 * 1 + 4)
      = u32At sampleArchive (16 + 96 * 1 + 4) :=
  ⟨by decide, resize_touches_map_block_only sampleArchive 1 2 2 5 1 (by decide)⟩

/-- The header and the cells of the archive left by `set_map_width`, whatever the new width. -/
theorem set_map_width_grid {f : List Nat} {m W H newW : Nat} (hm : HasMap f m W H)
    (hc : u32At f (m + 12) = W * H % 4294967296) (h32 : newW < 4294967296) :
    HasMap (set_map_width f newW).archive m newW H ∧
    u32At (set_map_width f newW).archive (m + 12) = newW * H % 4294967296 ∧
    ∀ x y, x < newW → y < H →
      (set_map_width f newW).archive.getD (m + 16 + y * newW + x) 0 =
        if x < W then f.getD (m + 16 + y * W + x) 0 else 255 := by
  rcases Nat.lt_trichotomy newW W with hlt | heq | hgt
  · obtain ⟨g, hg, hmg, _, hcell⟩ := set_map_width_shrink_core hm hlt h32
    obtain ⟨k, hk, _, hcount⟩ := set_map_width_header hm (Nat.ne_of_lt hlt) h32
    have he := hg.symm.trans hk
    injection he with he
    subst he
    have ha : (set_map_width f newW).archive = g := by rw [hg]
    rw [ha]
    refine ⟨hmg, hcount, fun x y hx hy => ?_⟩
    rw [hcell x y hx hy, if_pos (Nat.lt_trans hx hlt)]
  · subst heq
    have ha : (set_map_width f newW).archive = f := by
      simp only [set_map_width, set_map_width_open_same hm]
    rw [ha]
    exact ⟨hm, hc, fun x y hx hy => by rw [if_pos hx]⟩
  · obtain ⟨g, hg, hmg, hcell⟩ := set_map_width_expand_core hm hgt h32
    obtain ⟨k, hk, _, hcount⟩ := set_map_width_header hm (Nat.ne_of_gt hgt) h32
    have he := hg.symm.trans hk
    injection he with he
    subst he
    have ha : (set_map_width f newW).archive = g := by rw [hg]
    rw [ha]
    exact ⟨hmg, hcount, hcell⟩

/-- The header and the cells of the archive left by `set_map_height`, whatever the new height. -/
theorem set_map_height_grid {f : List Nat} {m W H newH : Nat} (hm : HasMap f m W H)
    (hsz : W * H < 4294967296) (hc : u32At f (m + 12) = W * H % 4294967296)
    (h32 : newH < 4294967296) :
    HasMap (set_map_height f newH).archive m W newH ∧
    u32At (set_map_height f newH).archive (m + 12) = W * newH % 4294967296 ∧
    ∀ x y, x < W → y < newH →
      (set_map_height f newH).archive.getD (m + 16 + y * W + x) 0 =
        if y < newH - H then 255 else f.getD (m + 16 + (y + H - newH) * W + x) 0 := by
  rcases Nat.lt_trichotomy newH H with hlt | heq | hgt
  · have hsk : (H - newH) * W < 4294967296 := by
      have h1 : (H - newH) * W ≤ H * W := Nat.mul_le_mul_right W (Nat.sub_le H newH)
      rw [Nat.mul_comm W H] at hsz
      omega
    obtain ⟨g, hg, hmg, _, hcell⟩ := set_map_height_shrink_core hm hlt hsk h32
    obtain ⟨k, hk, _, hcount⟩ := set_map_height_header hm hsz (Nat.ne_of_lt hlt) h32
    have he := hg.symm.trans hk
    injection he with he
    subst he
    have ha : (set_map_height f newH).archive = g := by rw [hg]
    rw [ha]
    refine ⟨hmg, hcount, fun x y hx hy => ?_⟩
    have e : y + (H - newH) = y + H - newH := by omega
    rw [hcell x y hx hy, if_neg (by omega), e]
  · subst heq
    have ha : (set_map_height f newH).archive = f := by
      simp only [set_map_height, set_map_height_open_same hm]
    rw [ha]
    refine ⟨hm, hc, fun x y hx hy => ?_⟩
    rw [if_neg (by omega), Nat.add_sub_cancel]
  · obtain ⟨g, hg, hmg, hcell⟩ := set_map_height_expand_core hm hgt h32
    obtain ⟨k, hk, _, hcount⟩ := set_map_height_header hm hsz (Nat.ne_of_gt hgt) h32
    have he := hg.symm.trans hk
    injection he with he
    subst he
    have ha : (set_map_height f newH).archive = g := by rw [hg]
    rw [ha]
    refine ⟨hmg, hcount, fun x y hx hy => ?_⟩
    rw [hcell x y hx hy]
    by_cases hy2 : y < newH - H
    · rw [if_pos hy2, if_pos hy2]
    · have e : y - (newH - H) = y + H - newH := by omega
      rw [if_neg hy2, if_neg hy2, e]

/-- The map that `map_load` returns on a file that holds every byte it reads and whose
signatures all agree: the width and height fields of the map block, and every cell the byte of
the file read as a signed `char`. -/
theorem map_load_grid (f : List Nat) (map_data : Nat) (hc : Complete f)
    (hmarc : u32At f 0 = MARC_HEADER)
    (hmapf : u32At f (u32At f 0xc) = MAPF_HEADER)
    (hrec : ∀ i < u32At f 4, u32At f (16 + 64 * u32At f 4 + 32 * i) = OBJECT_PROPERTIES_HEADER) :
    ∃ mp, map_load f map_data = .ok mp ∧ mp.width = u32At f (u32At f 0xc + 4) ∧
      mp.height = u32At f (u32At f 0xc + 8) ∧
      ∀ x y, x < mp.width → y < mp.height →
        mp.cells x y = charToInt (f.getD (u32At f 0xc + 16 + y * mp.width + x) 0) := by
  obtain ⟨h16, hmap, htab, hnul⟩ := hc
  have l0 : loadWord f 0 = .ok (u32At f 0) := loadWord_ok (by omega)
  have l4 : loadWord f 4 = .ok (u32At f 4) := loadWord_ok (by omega)
  have l8 : loadWord f 8 = .ok (u32At f 8) := loadWord_ok (by omega)
  have l12 : loadWord f 12 = .ok (u32At f 12) := loadWord_ok (by omega)
  have lh : ∀ old, loadHeader f (u32At f 12) old = (u32At f (u32At f 12), u32At f 12 + 4) :=
    fun old => loadHeader_full f (u32At f 12) old (by omega)
  have lw : loadWord f (u32At f 12 + 4) = .ok (u32At f (u32At f 12 + 4)) :=
    loadWord_ok (by omega)
  have lht : loadWord f (u32At f 12 + 4 + 4) = .ok (u32At f (u32At f 12 + 8)) := by
    rw [loadWord_ok (by omega)]
  obtain ⟨md, hcells⟩ := forI_load_rows f (u32At f (u32At f 12 + 4)) (u32At f (u32At f 12 + 8)) 0
    ⟨u32At f 12 + 4 + 4 + 4 + 0x4, map_data, map_allocate⟩
    (by dsimp only; rw [Nat.mul_comm]; omega)
  have hpaths := load_paths_pathsAt f (u32At f 4) 16 (by omega)
  have e16 : 0x10 + 0x40 * u32At f 4 = 16 + 64 * u32At f 4 := rfl
  obtain ⟨t, ht⟩ := forEach_load_object_ok f (u32At f 4) 16
    ⟨16 + 64 * u32At f 4, MAPF_HEADER, []⟩ (by dsimp only; omega) hrec hnul
  refine ⟨⟨u32At f (u32At f 12 + 4), u32At f (u32At f 12 + 8),
    fun i j => if 0 ≤ j ∧ j < 0 + u32At f (u32At f 12 + 8) ∧ i < u32At f (u32At f 12 + 4) then
      charToInt (f.getD (u32At f 12 + 4 + 4 + 4 + 0x4 + (j - 0) * u32At f (u32At f 12 + 4) + i) 0)
      else map_allocate i j, t.objects⟩, ?_, rfl, rfl, ?_⟩
  · simp only [map_load, l0, l4, l8, l12, lh, hmarc, hmapf, ne_eq, not_true_eq_false, if_false,
      lw, lht, hcells, hpaths, e16, ht]
  · intro x y hx hy
    dsimp only at hx hy ⊢
    rw [if_pos ⟨Nat.zero_le y, by omega, hx⟩, Nat.sub_zero]

/-- The byte that `map_save` writes for the cell `(x, y)`. -/
theorem savedFile_cell (m : Map) (hpath : ∀ o ∈ m.objects, o.name.length ≤ 63) {x y : Nat}
    (hx : x < m.width) (hy : y < m.height) :
    (savedFile m).getD (16 + 96 * m.objects.length + 16 + y * m.width + x) 0
      = intToChar (m.cells x y) := by
  have bC := (savedFile_blocks m hpath).2.2.2.2
  have hidx := cell_index_lt hx hy
  have hk : y * m.width + x < (cellBytes m 0 m.height).length := by
    rw [length_cellBytes, Nat.mul_comm m.width m.height]
    exact hidx
  have hget := getD_of_readAt bC (y * m.width + x) hk
  have e : 16 + 96 * m.objects.length + 16 + y * m.width + x =
      16 + 64 * m.objects.length + 32 * m.objects.length + 16 + (y * m.width + x) := by omega
  rw [e, hget, getD_cellBytes m x y hx hy]

/-- C36: the two definitions of `MAP_OBJECT_NONE` meet in the byte `0xFF`: the utility's value
cast to `char` is `0xFF`, every cell that `set_map_width` or `set_map_height` inserts is that
byte, `map_load` turns a cell byte `0xFF` into the in-memory value `-1`, and `map_save` writes
the cell value `-1` as the byte `0xFF`. -/
theorem map_object_none_one_byte (f : List Nat) (N W H newW newH : Nat)
    (hwf : WellFormed f N W H) (hW32 : newW < 4294967296) (hH32 : newH < 4294967296)
    (g : List Nat) (map_data : Nat) (hc : Complete g) (hmarc : u32At g 0 = MARC_HEADER)
    (hmapf : u32At g (u32At g 0xc) = MAPF_HEADER)
    (hrec : ∀ i < u32At g 4, u32At g (16 + 64 * u32At g 4 + 32 * i) = OBJECT_PROPERTIES_HEADER)
    (m : Map) (hmW : m.width < 4294967296) (hmH : m.height < 4294967296)
    (hpath : ∀ o ∈ m.objects, o.name.length ≤ 63)
    (hfit : 16 + 96 * m.objects.length < 4294967296) :
    toChar MAP_OBJECT_NONE = 0xff ∧
    (∀ x y, W ≤ x → x < newW → y < H →
      cellAt (set_map_width f newW).archive x y = some 0xff) ∧
    (∀ x y, x < W → y < newH - H →
      cellAt (set_map_height f newH).archive x y = some 0xff) ∧
    (∃ mp, map_load g map_data = .ok mp ∧
      ∀ x y, x < mp.width → y < mp.height → cellAt g x y = some 0xff →
        mp.cells x y = Map.MAP_OBJECT_NONE) ∧
    (∃ out, map_save m = .ok out ∧
      ∀ x y, x < m.width → y < m.height → m.cells x y = Map.MAP_OBJECT_NONE →
        cellAt out x y = some 0xff) := by
  have hcnt : u32At f (16 + 96 * N + 12) = W * H % 4294967296 := by
    rw [hwf.2.2.2.2.2.1, Nat.mod_eq_of_lt hwf.size_lt]
  obtain ⟨a1, _, a3⟩ := set_map_width_grid hwf.hasMap hcnt hW32
  obtain ⟨b1, _, b3⟩ := set_map_height_grid hwf.hasMap hwf.size_lt hcnt hH32
  refine ⟨rfl, ?_, ?_, ?_, ?_⟩
  · intro x y hx1 hx2 hy
    rw [a1.cellAt_eq hx2 hy, a3 x y hx2 hy, if_neg (by omega)]
  · intro x y hx hy
    rw [b1.cellAt_eq hx (by omega), b3 x y hx (by omega), if_pos hy]
  · obtain ⟨mp, hmp, hw, hh, hcell⟩ := map_load_grid g map_data hc hmarc hmapf hrec
    refine ⟨mp, hmp, fun x y hx hy hbyte => ?_⟩
    have hget : g.getD (u32At g 0xc + 16 + y * mp.width + x) 0 = 0xff := by
      rw [cellAt, ← hw] at hbyte
      rw [List.getD_eq_getElem?_getD, hbyte]
      rfl
    rw [hcell x y hx hy, hget]
    rfl
  · refine ⟨savedFile m, map_save_eq m hpath, fun x y hx hy hv => ?_⟩
    rw [(savedFile_hasMap m hmW hmH hpath hfit).cellAt_eq hx hy, savedFile_cell m hpath hx hy,
      hv]
    rfl

set_option maxRecDepth 100000 in
theorem map_object_none_one_byte_witness :
    WellFormed sampleArchive 1 2 2 ∧ Complete sampleArchive ∧
    (∀ o ∈ sampleMap.objects, o.name.length ≤ 63) ∧
    toChar MAP_OBJECT_NONE = 0xff ∧
    (∀ x y, 2 ≤ x → x < 3 → y < 2 →
      cellAt (set_map_width sampleArchive 3).archive x y = some 0xff) ∧
    (∀ x y, x < 2 → y < 3 - 2 →
      cellAt (set_map_height sampleArchive 3).archive x y = some 0xff) ∧
    (∃ mp, map_load sampleArchive 170 = .ok mp ∧
      ∀ x y, x < mp.width → y < mp.height → cellAt sampleArchive x y = some 0xff →
        mp.cells x y = Map.MAP_OBJECT_NONE) ∧
    (∃ out, map_save sampleMap = .ok out ∧
      ∀ x y, x < sampleMap.width → y < sampleMap.height →
        sampleMap.cells x y = Map.MAP_OBJECT_NONE → cellAt out x y = some 0xff) :=
  ⟨by decide, by decide, by decide,
    map_object_none_one_byte sampleArchive 1 2 2 3 3 (by decide) (by decide) (by decide)
      sampleArchive 170 (by decide) (by decide) (by decide) (by decide)
      sampleMap (by decide) (by decide) (by decide) (by decide)⟩

/-- Two reads of `n` bytes agree when the bytes they cover agree. -/
theorem readAt_congr {g R : List Nat} {p q n : Nat} (hg : p + n ≤ g.length)
    (hR : q + n ≤ R.length) (h : ∀ k < n, g.getD (p + k) 0 = R.getD (q + k) 0) :
    readAt g p n = readAt R q n := by
  apply ext_getD
  · rw [length_readAt, length_readAt]
    omega
  · intro i
    rw [getD_readAt, getD_readAt]
    by_cases hi : i < n
    · rw [if_pos hi, if_pos hi, h i hi]
    · rw [if_neg hi, if_neg hi]

theorem getD_relaid_paths (f : List Nat) (n : Nat) (P R B : List Nat) (hP : P.length = 64 * n)
    (j : Nat) (hj : j < 64 * n) : (relaid f n P R B).getD (16 + j) 0 = P.getD j 0 := by
  rw [relaid, getD_writeAt_of_lt _ _ _ _ (by omega),
    getD_writeAt_of_ge _ _ _ _ (by rw [length_le32]; omega),
    getD_writeAt_of_lt _ _ _ _ (by omega),
    getD_writeAt_of_ge _ _ _ _ (by rw [length_le32]; omega), getD_writeAt,
    if_neg (by omega), if_pos (by omega), Nat.add_sub_cancel_left]

theorem u32At_relaid_0 (f : List Nat) (n : Nat) (P R B : List Nat) :
    u32At (relaid f n P R B) 0 = u32At f 0 := by
  have h1 : ∀ (g bs : List Nat) (pos : Nat), 4 ≤ pos → u32At (writeAt g pos bs) 0 = u32At g 0 :=
    fun g bs pos hpos => u32At_writeAt_of_le g pos bs 0 (by omega)
  rw [relaid, h1 _ _ _ (by omega), h1 _ _ _ (by omega), h1 _ _ _ (by omega),
    h1 _ _ _ (by omega), h1 _ _ _ (by omega), h1 _ _ _ (by omega)]

theorem length_relaid_ge (f : List Nat) (n : Nat) (P R B : List Nat) :
    f.length ≤ (relaid f n P R B).length ∧ 16 + 96 * n + B.length ≤ (relaid f n P R B).length := by
  simp only [relaid, length_writeAt]
  omega

/-- The path record of a C string of at most 63 characters reads back as that string. -/
theorem cstring_pathRecord (path : List Nat) (hlen : path.length ≤ 63) (h0 : 0 ∉ path) :
    cstring (pathRecord path) = .ok path := by
  have e : 0x40 - path.length = (0x40 - path.length - 1) + 1 := by omega
  have := cstring_eq path (List.replicate (0x40 - path.length - 1) 0) h0
  rw [pathRecord, e, List.replicate_succ]
  rw [List.append_assoc, List.singleton_append] at this
  exact this

/-- The step of `map_load` on one property record, with the entry that it registers. -/
theorem load_object_step (f path name : List Nat) (s : Catalog) (h : s.pos + 32 ≤ f.length)
    (hsig : u32At f s.pos = OBJECT_PROPERTIES_HEADER) (hname : cstring path = .ok name) :
    load_object f path s =
      .ok ⟨s.pos + 32, OBJECT_PROPERTIES_HEADER, s.objects ++
        [map_object_add name (u32At f (s.pos + 4))
          (u32At f (s.pos + 8) ||| u32At f (s.pos + 12) ||| u32At f (s.pos + 16)
            ||| u32At f (s.pos + 20))]⟩ := by
  have e32 : s.pos + 4 + 20 + 8 = s.pos + 32 := by omega
  simp only [load_object, loadHeader_full f s.pos s.header (by omega), hsig, ne_eq,
    not_true_eq_false, if_false, e32,
    loadWord_ok (show s.pos + 4 + 4 ≤ f.length by omega),
    loadWord_ok (show s.pos + 4 + 4 + 4 ≤ f.length by omega),
    loadWord_ok (show s.pos + 4 + 8 + 4 ≤ f.length by omega),
    loadWord_ok (show s.pos + 4 + 12 + 4 ≤ f.length by omega),
    loadWord_ok (show s.pos + 4 + 16 + 4 ≤ f.length by omega), hname, Nat.add_assoc]

/-- The loop of `map_load` over property records that hold the definitions `ps`, next to path
records that hold their paths: it registers one entry for each definition, in order. -/
theorem forEach_load_object_eq (g : List Nat) (ps : List MapObjectProperties) (pp : Nat)
    (s : Catalog) (hp : ∀ p ∈ ps, p.Representable)
    (hrec : ∀ i p, ps[i]? = some p →
      readAt g (pp + 64 * i) 64 = pathRecord p.path ∧
      readAt g (s.pos + 32 * i) 32 = tile_properties p) :
    ∃ t, forEach (pathsAt g pp ps.length) (load_object g) s = .ok t ∧
      t.objects = s.objects ++ ps.map loadedEntry := by
  induction ps generalizing pp s with
  | nil => exact ⟨s, rfl, by rw [List.map_nil, List.append_nil]⟩
  | cons p ps ih =>
    obtain ⟨hl, h0, hf, hs, hd, hc, hg⟩ := hp p (List.mem_cons_self _ _)
    obtain ⟨hpath0, hrec0⟩ := hrec 0 p (by rw [List.getElem?_cons_zero])
    rw [Nat.mul_zero, Nat.add_zero] at hpath0 hrec0
    have hB : readAt g s.pos (tile_properties p).length = tile_properties p := hrec0
    have hlen := le_length_of_readAt hB (by rw [length_tile_properties]; omega)
    rw [length_tile_properties] at hlen
    obtain ⟨w0, w4, w8, w12, w16, w20⟩ := u32At_words OBJECT_PROPERTIES_HEADER p.frames
      p.solidity p.destructible p.collectible p.generator
    have v0 := (u32At_of_readAt hB 0 (by rw [length_tile_properties]; omega)).1
    have v4 := (u32At_of_readAt hB 4 (by rw [length_tile_properties]; omega)).1
    have v8 := (u32At_of_readAt hB 8 (by rw [length_tile_properties]; omega)).1
    have v12 := (u32At_of_readAt hB 12 (by rw [length_tile_properties]; omega)).1
    have v16 := (u32At_of_readAt hB 16 (by rw [length_tile_properties]; omega)).1
    have v20 := (u32At_of_readAt hB 20 (by rw [length_tile_properties]; omega)).1
    rw [tile_properties, w0, Nat.add_zero] at v0
    rw [tile_properties, w4, Nat.mod_eq_of_lt hf] at v4
    rw [tile_properties, w8, Nat.mod_eq_of_lt hs] at v8
    rw [tile_properties, w12, Nat.mod_eq_of_lt hd] at v12
    rw [tile_properties, w16, Nat.mod_eq_of_lt hc] at v16
    rw [tile_properties, w20, Nat.mod_eq_of_lt hg] at v20
    have step := load_object_step g (readAt g pp 64) p.path s hlen v0
      (by rw [hpath0]; exact cstring_pathRecord p.path hl h0)
    rw [v4, v8, v12, v16, v20] at step
    obtain ⟨t, ht, hobj⟩ := ih (pp + 0x40)
      ⟨s.pos + 32, OBJECT_PROPERTIES_HEADER, s.objects ++ [loadedEntry p]⟩
      (fun q hq => hp q (List.mem_cons_of_mem _ hq))
      (fun i q hq => by
        have := hrec (i + 1) q (by rw [List.getElem?_cons_succ]; exact hq)
        have e1 : pp + 64 * (i + 1) = pp + 0x40 + 64 * i := by omega
        have e2 : s.pos + 32 * (i + 1) = s.pos + 32 + 32 * i := by omega
        rw [e1, e2] at this
        exact this)
    refine ⟨t, ?_, ?_⟩
    · rw [List.length_cons, pathsAt, forEach_cons, step]
      exact ht
    · rw [hobj, List.map_cons, List.append_assoc, List.singleton_append]

/-- A row of cells is read to its end on every file: a `read` at the end of the file leaves
`map_data` as it is and the loop goes on. -/
theorem forI_load_row_ok (f : List Nat) (y n lo : Nat) (s : Loader) :
    ∃ t, forI n (load_cell f y) lo s = .ok t := by
  induction n generalizing lo s with
  | zero => exact ⟨s, rfl⟩
  | succ k ih =>
    rw [forI_succ]
    exact ih (lo + 1) _

/-- The grid is read to its end on every file. -/
theorem forI_load_rows_ok (f : List Nat) (W h lo : Nat) (s : Loader) :
    ∃ t, forI h (fun y s => forI W (load_cell f y) 0 s) lo s = .ok t := by
  induction h generalizing lo s with
  | zero => exact ⟨s, rfl⟩
  | succ k ih =>
    obtain ⟨t1, ht1⟩ := forI_load_row_ok f lo W 0 s
    rw [forI_succ, ht1]
    exact ih (lo + 1) t1

/-- C31: on a well-formed archive with `N` entries, for `M ≥ N` definitions whose paths are C
strings of at most 63 characters and whose fields are `unsigned int` values, `map_load` of the
archive rewritten by `set_map_objects` returns a catalog of `M` entries, the `i`-th registered
with the path and frame count of the `i`-th definition and the bitwise or of its solidity,
destructible, collectible and generator fields (layout within the 32-bit offsets; whatever byte
the uninitialised `map_data` of `map_load` holds). -/
theorem set_map_objects_map_load (f : List Nat) (N W H : Nat)
    (properties : List MapObjectProperties) (map_data : Nat) (hwf : WellFormed f N W H)
    (hge : N ≤ properties.length) (hrep : ∀ p ∈ properties, p.Representable)
    (hfit : 16 + 96 * properties.length < 4294967296) :
    ∃ g m, set_map_objects f properties = ⟨g, true, none⟩ ∧ map_load g map_data = .ok m ∧
      m.objects.length = properties.length ∧
      m.objects = properties.map (fun p => map_object_add p.path p.frames
        (p.solidity ||| p.destructible ||| p.collectible ||| p.generator)) := by
  obtain ⟨h0, h12, hm16, hsig, hw, hh, hlenf⟩ := hwf.hasMap
  rw [Nat.mul_comm W H] at hlenf
  have hpath : ∀ p ∈ properties, p.path.length ≤ 63 := fun p hp => (hrep p hp).1
  have hN : u32At f 4 ≤ properties.length := by rw [hwf.2.1]; exact hge
  have hrl := set_map_objects_relaid properties hwf.hasMap hN hpath hfit
  have hl1 := length_tableOf (fun p : MapObjectProperties => pathRecord p.path) 64 properties
    (fun p hp => length_pathRecord _ (hpath p hp))
  have hl2 := length_tableOf tile_properties 32 properties
    (fun p _ => length_tile_properties p)
  obtain ⟨P, hP⟩ : ∃ P, P = tableOf (fun p : MapObjectProperties => pathRecord p.path)
    properties := ⟨_, rfl⟩
  obtain ⟨R, hR⟩ : ∃ R, R = tableOf tile_properties properties := ⟨_, rfl⟩
  obtain ⟨B, hB⟩ : ∃ B, B = readAt f (16 + 96 * N) 15 ++ readAt f (16 + 96 * N + 15) (H * W) :=
    ⟨_, rfl⟩
  rw [← hP, ← hR, ← hB] at hrl
  rw [← hP] at hl1
  rw [← hR] at hl2
  have hl15 : (readAt f (16 + 96 * N) 15).length = 15 := by rw [length_readAt]; omega
  have hlB : B.length = 15 + H * W := by
    rw [hB, List.length_append, hl15, length_readAt]; omega
  obtain ⟨g, hg⟩ : ∃ g, g = relaid f properties.length P R B := ⟨_, rfl⟩
  rw [← hg] at hrl
  obtain ⟨gl1, gl2⟩ := length_relaid_ge f properties.length P R B
  rw [← hg] at gl1 gl2
  have g0 : u32At g 0 = MARC_HEADER := by rw [hg, u32At_relaid_0, h0]
  have g4 : u32At g 4 = properties.length := by
    rw [hg]; exact u32At_relaid_4 f _ P R B (by omega)
  have g12 : u32At g 12 = 16 + 96 * properties.length := by
    rw [hg]; exact u32At_relaid_12 f _ P R B hfit
  have gm : ∀ k, k + 4 ≤ 15 →
      u32At g (16 + 96 * properties.length + k) = u32At f (16 + 96 * N + k) := by
    intro k hk
    rw [hg, u32At_relaid_block f _ P R B k (by omega), hB,
      u32At_append_left _ _ _ (by omega), u32At_readAt _ _ _ _ hk]
  have gsig := gm 0 (by omega)
  have gw := gm 4 (by omega)
  have gh := gm 8 (by omega)
  rw [Nat.add_zero, Nat.add_zero, hsig] at gsig
  rw [hw] at gw
  rw [hh] at gh
  have hrecs : ∀ i p, properties[i]? = some p →
      readAt g (16 + 64 * i) 64 = pathRecord p.path ∧
      readAt g (16 + 64 * properties.length + 32 * i) 32 = tile_properties p := by
    intro i p hp
    have hi := lt_length_of_getElem? hp
    constructor
    · rw [← readAt_tableOf (fun p : MapObjectProperties => pathRecord p.path) 64 properties
        (fun p hp => length_pathRecord _ (hpath p hp)) i p hp, ← hP]
      refine readAt_congr (by omega) (by omega) (fun k hk => ?_)
      rw [hg, Nat.add_assoc 16 (64 * i) k]
      exact getD_relaid_paths f _ P R B hl1 (64 * i + k) (by omega)
    · rw [← readAt_tableOf tile_properties 32 properties
        (fun p _ => length_tile_properties p) i p hp, ← hR]
      refine readAt_congr (by omega) (by omega) (fun k hk => ?_)
      rw [hg, Nat.add_assoc (16 + 64 * properties.length) (32 * i) k]
      exact getD_relaid_table f _ P R B hl2 (32 * i + k) (by omega)
  obtain ⟨t, ht, hobj⟩ := forEach_load_object_eq g properties 16
    ⟨16 + 64 * properties.length, MAPF_HEADER, []⟩ hrep hrecs
  obtain ⟨cells, hcells⟩ := forI_load_rows_ok g W H 0
    ⟨16 + 96 * properties.length + 4 + 4 + 4 + 0x4, map_data, map_allocate⟩
  have hpaths := load_paths_pathsAt g properties.length 16 (by omega)
  have l0 : loadWord g 0 = .ok MARC_HEADER := by rw [loadWord_ok (by omega), g0]
  have l4 : loadWord g 4 = .ok properties.length := by rw [loadWord_ok (by omega), g4]
  have l8 : loadWord g 8 = .ok (u32At g 8) := loadWord_ok (by omega)
  have l12 : loadWord g 12 = .ok (16 + 96 * properties.length) := by
    rw [loadWord_ok (by omega), g12]
  have lh : ∀ old, loadHeader g (16 + 96 * properties.length) old =
      (MAPF_HEADER, 16 + 96 * properties.length + 4) := by
    intro old
    rw [loadHeader_full g _ old (by omega), gsig]
  have lw : loadWord g (16 + 96 * properties.length + 4) = .ok W := by
    rw [loadWord_ok (by omega), gw]
  have lht : loadWord g (16 + 96 * properties.length + 4 + 4) = .ok H := by
    rw [loadWord_ok (by omega), gh]
  refine ⟨g, ⟨W, H, cells.grid, t.objects⟩, hrl, ?_, ?_, ?_⟩
  · simp only [map_load, l0, l4, l8, l12, lh, ne_eq, not_true_eq_false, if_false, lw, lht,
      hcells, hpaths, ht]
  · dsimp only
    rw [hobj, List.nil_append, List.length_map]
  · dsimp only
    rw [hobj, List.nil_append]
    rfl

set_option maxRecDepth 100000 in
theorem set_map_objects_map_load_witness :
    WellFormed oneCellArchive 1 1 1 ∧ 1 ≤ sampleDefinitions.length ∧
    (∀ p ∈ sampleDefinitions, p.Representable) ∧
    ∃ g m, set_map_objects oneCellArchive sampleDefinitions = ⟨g, true, none⟩ ∧
      map_load g 170 = .ok m ∧ m.objects.length = sampleDefinitions.length ∧
      m.objects = sampleDefinitions.map (fun p => map_object_add p.path p.frames
        (p.solidity ||| p.destructible ||| p.collectible ||| p.generator)) :=
  ⟨by decide, by decide, by decide,
    set_map_objects_map_load oneCellArchive 1 1 1 sampleDefinitions 170 (by decide) (by decide)
      (by decide) (by decide)⟩

/-- The count of `prune_objects` on a cell byte from 128 to 254: read as a signed `char` it is a
negative index, `used_tiles[(int)map_data]` lies before the array, whatever the catalog count. -/
theorem count_cell_signed_index (bak : List Nat) (tiles_count : Nat) (s : Count) (c : Nat)
    (hget : bak[s.bpos]? = some c) (h1 : 128 ≤ c) (h2 : c < 255) :
    count_cell bak tiles_count s = .error .undefined := by
  have hc : charToInt c = (c : Int) - 256 := by
    unfold charToInt
    rw [if_neg (by omega)]
  have hnone : charToInt (toChar MAP_OBJECT_NONE) = -1 := by decide
  simp only [count_cell, hget, hc, hnone]
  rw [if_pos (by omega), if_neg (by omega)]

set_option maxRecDepth 100000 in
/-- C3 (failing input): in `gapArchive` both offset fields name the start of their block (the
property record of the index 0 at 96, the map block at 128) and the only cell holds the index
0, the only referenced index.  `prune_objects` copies the path record, writes 80 into the
property-table offset field and looks for the property record at the cursor of the backup,
offset 80: it finds the word 0 and exits in `validate_object_properties_header`.  The archive
it leaves names 80 as its property table, and the 32 bytes there are not the property record of
the index 0. -/
theorem prune_objects_ignores_property_offset :
    u32At gapArchive 0 = MARC_HEADER ∧ u32At gapArchive 4 = 1 ∧ u32At gapArchive 8 = 96 ∧
    u32At gapArchive (u32At gapArchive 8) = OBJECT_PROPERTIES_HEADER ∧
    u32At gapArchive (u32At gapArchive 0xc) = MAPF_HEADER ∧
    cellAt gapArchive 0 0 = some 0 ∧ referencedIndices gapArchive = [0] ∧
    (prune_objects gapArchive).stop = some (.object 0) ∧
    u32At (prune_objects gapArchive).archive 4 = 1 ∧
    u32At (prune_objects gapArchive).archive 8 = 80 ∧
    readAt (prune_objects gapArchive).archive (u32At (prune_objects gapArchive).archive 8) 32
      ≠ readAt gapArchive (u32At gapArchive 8) 32 := by
  decide

set_option maxRecDepth 100000 in
/-- C14 (failing input): in `mapGapArchive` both offset fields name the start of their block
(property table at 80, map block at 128, sixteen zero bytes in between) and the only cell holds
the index 0.  `prune_objects` returns with the count 1 and the map-block offset field
`16 + 96 * 1 = 112`, but it has copied the map block header from the cursor of the backup, 112,
and not from the map block: the four bytes at 112 are zero, not the `MAPF` signature, and
`get_map_width` exits on the result.  `set_map_objects` on the same archive leaves the
signature at the offset it writes. -/
theorem prune_objects_misplaces_map_block :
    u32At mapGapArchive 0 = MARC_HEADER ∧ u32At mapGapArchive 4 = 1 ∧
    u32At mapGapArchive 8 = 80 ∧
    u32At mapGapArchive (u32At mapGapArchive 8) = OBJECT_PROPERTIES_HEADER ∧
    u32At mapGapArchive 0xc = 128 ∧ u32At mapGapArchive (u32At mapGapArchive 0xc) = MAPF_HEADER ∧
    cellAt mapGapArchive 0 0 = some 0 ∧ get_map_width mapGapArchive = .ok 1 ∧
    (prune_objects mapGapArchive).stop = none ∧
    u32At (prune_objects mapGapArchive).archive 4 = 1 ∧
    u32At (prune_objects mapGapArchive).archive 8 = 16 + 64 * 1 ∧
    u32At (prune_objects mapGapArchive).archive 0xc = 16 + 96 * 1 ∧
    u32At (prune_objects mapGapArchive).archive
      (u32At (prune_objects mapGapArchive).archive 0xc) = 0 ∧
    u32At (prune_objects mapGapArchive).archive
      (u32At (prune_objects mapGapArchive).archive 0xc) ≠ MAPF_HEADER ∧
    get_map_width (prune_objects mapGapArchive).archive = .error (.mapf 0) ∧
    (set_map_objects mapGapArchive sampleDefinitions).stop = none ∧
    u32At (set_map_objects mapGapArchive sampleDefinitions).archive
      (u32At (set_map_objects mapGapArchive sampleDefinitions).archive 0xc) = MAPF_HEADER := by
  refine ⟨by decide, by decide, by decide, by decide, by decide, by decide, by decide, rfl,
    by decide, by decide, by decide, by decide, by decide, by decide, rfl, by decide,
    by decide⟩

end MapArchive
